import Mathlib

/-!
# SFML exercises: collision resolver, SAT test and Bezier curves

A shallow embedding of the algorithmic parts of the exercises.

Modelling conventions.

* `float` values are elements of a linear ordered field `K` and every floating
  point operation is the exact field operation (no rounding, no NaN, no
  infinities).  Concrete evaluations use `K = ℚ`.
* Where a result depends on rounding (a Boolean that the code returns, the size of
  an array, an index computed in `float`), the code is modelled in binary32 with
  the operations of `F32`; these functions carry the suffix `F32`.
* `int` counters that are compared with `unsigned int` bounds are integers wrapped
  to 32 bits (`wrap32`), converted as the code converts them.
* `std::hypot`, `cos` and `sin` are parameters of the functions that call them;
  a theorem that needs `std::hypot` to be the Euclidean norm at some argument
  says so with `IsHypot`.
* `sf::Vector2f` is `K × K`; `ball.getPosition()` is the field `position`.
* `long long` values are integers wrapped to 64 bits two's complement.
-/

namespace SFML

/-- The vector type `sf::Vector2<T>`. -/
abbrev Vector2 (K : Type) : Type := K × K

section Common

variable {K : Type} [LinearOrderedField K]

/-- The constant `epsilon{1e-6f}`. -/
def epsilon : K := 1 / 1000000

/-- The constant `zero_vector{0.f,0.f}`. -/
def zero_vector : Vector2 K := (0, 0)

/-- The helper `dot`: `a.x*b.x + a.y*b.y`. -/
def dot (a b : Vector2 K) : K := a.1 * b.1 + a.2 * b.2

/-- The helper `cross`: `a.x*b.y - b.x*a.y`. -/
def cross (a b : Vector2 K) : K := a.1 * b.2 - b.1 * a.2

/-- The helper `perp` of hw02.2: `(-a.y, a.x)`. -/
def perp (a : Vector2 K) : Vector2 K := (-a.2, a.1)

/-- The operator `sf::Vector2 * scalar`. -/
def vmul (v : Vector2 K) (s : K) : Vector2 K := (v.1 * s, v.2 * s)

/-- The operator `sf::Vector2 / scalar`. -/
def vdiv (v : Vector2 K) (s : K) : Vector2 K := (v.1 / s, v.2 / s)

/-- The value `d` is the Euclidean norm of `(x, y)`: what `std::hypot(x, y)`
returns in exact arithmetic. -/
def IsHypot (hypot : K → K → K) (x y : K) : Prop :=
  0 ≤ hypot x y ∧ hypot x y * hypot x y = x * x + y * y

end Common

/-! ## binary32 arithmetic

The programs compute with `float`.  Where a claim concludes a Boolean that the code
returns, or the size of an array, rounding matters and the code is modelled with the
operations below: floats are the rationals that binary32 represents, and every
operation returns the exact result rounded to the nearest binary32 value, ties to even
(overflow to infinity and division by zero are not modelled; no value here comes near
`2^128` and no divisor used below is zero). -/

namespace F32

/-- The number of binary digits of `n`, by repeated halving with fuel. -/
def bitLenAux : ℕ → ℕ → ℕ
  | 0, _ => 0
  | fuel + 1, n => if n = 0 then 0 else bitLenAux fuel (n / 2) + 1

/-- The fuel of `bitLen`: enough for every number below `2^2048`. -/
def maxBits : ℕ := 2048

/-- The number of binary digits of `n < 2^2048`. -/
def bitLen (n : ℕ) : ℕ := bitLenAux maxBits n

/-- The exponent of a positive rational: `⌊log₂ a⌋`. -/
def ilog2 (a : ℚ) : ℤ :=
  let e0 : ℤ := (bitLen a.num.natAbs : ℤ) - (bitLen a.den : ℤ)
  if (2 : ℚ) ^ e0 ≤ a then e0 else e0 - 1

/-- Rounding to binary32: the multiple of the unit in the last place `2^(e-23)`,
`e = max(⌊log₂ |q|⌋, -126)`, that is nearest to `q`, ties going to the even multiple. -/
def round (q : ℚ) : ℚ :=
  if q = 0 then 0
  else
    let a := |q|
    let e := max (ilog2 a) (-126)
    let u : ℚ := 2 ^ (e - 23)
    let t := a / u
    let f : ℤ := ⌊t⌋
    let r := t - f
    let m : ℤ :=
      if r < 1 / 2 then f else if 1 / 2 < r then f + 1 else if f % 2 = 0 then f else f + 1
    (if q < 0 then -1 else 1) * (m : ℚ) * u

/-- The float operator `+`. -/
def add (a b : ℚ) : ℚ := round (a + b)

/-- The float operator `-`. -/
def sub (a b : ℚ) : ℚ := round (a - b)

/-- The float operator `*`. -/
def mul (a b : ℚ) : ℚ := round (a * b)

/-- The float operator `/`. -/
def div (a b : ℚ) : ℚ := round (a / b)

/-- The integer square root by bisection on the bits `b-1 .. 0`. -/
def isqrtAux : ℕ → ℕ → ℕ → ℕ
  | 0, _, acc => acc
  | b + 1, n, acc =>
    if (acc + 2 ^ b) * (acc + 2 ^ b) ≤ n then isqrtAux b n (acc + 2 ^ b)
    else isqrtAux b n acc

/-- The integer square root `⌊√n⌋`. -/
def isqrt (n : ℕ) : ℕ := isqrtAux (bitLen n / 2 + 1) n 0

/-- The correctly rounded square root of a sum `v` of two squares of floats: with
`m = ⌊√(v * 4^200)⌋`, the root is `m / 2^200` when that is exact and otherwise lies
strictly between `m / 2^200` and `(m+1) / 2^200`, where no binary32 value and no
midpoint of two binary32 values lies, so rounding the middle of that interval
gives the rounded root. -/
def sqrt (v : ℚ) : ℚ :=
  let N : ℕ := ⌊v * 4 ^ 200⌋.toNat
  let m := isqrt N
  round (if m * m = N then (m : ℚ) / 2 ^ 200 else ((2 * m + 1 : ℕ) : ℚ) / 2 ^ 201)

/-- The function `std::hypot` on floats: the correctly rounded Euclidean norm. -/
def hypot (x y : ℚ) : ℚ := sqrt (x * x + y * y)

/-- The constant `epsilon{1e-6f}`: the float nearest to `1e-6`. -/
def epsilon : ℚ := round (1 / 1000000)

/-- The operator `sf::Vector2f + sf::Vector2f`. -/
def vadd (a b : Vector2 ℚ) : Vector2 ℚ := (add a.1 b.1, add a.2 b.2)

/-- The operator `sf::Vector2f - sf::Vector2f`. -/
def vsub (a b : Vector2 ℚ) : Vector2 ℚ := (sub a.1 b.1, sub a.2 b.2)

/-- The operator `sf::Vector2f * float`. -/
def vmul (v : Vector2 ℚ) (s : ℚ) : Vector2 ℚ := (mul v.1 s, mul v.2 s)

/-- The operator `sf::Vector2f / float`. -/
def vdiv (v : Vector2 ℚ) (s : ℚ) : Vector2 ℚ := (div v.1 s, div v.2 s)

/-- The helper `dot` on floats: `a.x*b.x + a.y*b.y`. -/
def dot (a b : Vector2 ℚ) : ℚ := add (mul a.1 b.1) (mul a.2 b.2)

end F32

/-- An executable `std::hypot` on the rationals, exact whenever the norm is
rational. -/
def ratHypot (x y : ℚ) : ℚ := Rat.sqrt (x * x + y * y)

/-! ## hw01: the ball collision demo -/

namespace Hw01

section Defs

variable {K : Type} [LinearOrderedField K]

/-- The struct `Material`. -/
structure Material (K : Type) where
  mass : K
  elasticity : K
  friction : K

/-- The struct `BallEntity`, without colours; `position` is the position of
the `sf::CircleShape`. -/
structure BallEntity (K : Type) where
  position : Vector2 K
  material : Material K
  radius : K
  velocity : Vector2 K

/-- The local `difference_vector` of `collisionWith`. -/
def difference_vector (self other : BallEntity K) : Vector2 K :=
  other.position - self.position

/-- The local `dist` of `collisionWith`. -/
def dist (hypot : K → K → K) (self other : BallEntity K) : K :=
  hypot (difference_vector self other).1 (difference_vector self other).2

/-- The local `interpenetration_dist` of `collisionWith`. -/
def interpenetration_dist (hypot : K → K → K) (self other : BallEntity K) : K :=
  (self.radius + other.radius) - dist hypot self other

/-- The local `collision_normal` of `collisionWith`: default-constructed
(zero) unless `fabs(dist) > epsilon`. -/
def collision_normal (hypot : K → K → K) (self other : BallEntity K) : Vector2 K :=
  if |dist hypot self other| > epsilon then
    vdiv (difference_vector self other) (dist hypot self other)
  else (0, 0)

/-- The method `BallEntity::collisionWith`: the returned boolean, the receiver
after the call and `other` after the call. -/
def collisionWith (hypot : K → K → K) (self other : BallEntity K) :
    Bool × BallEntity K × BallEntity K :=
  let collision_normal := collision_normal hypot self other
  let interpenetration_dist := interpenetration_dist hypot self other
  if interpenetration_dist > epsilon then
    -- ball.move(-collision_normal * interpenetration_dist)
    let moved := self.position + vmul (-collision_normal) interpenetration_dist
    let vAB := self.velocity - other.velocity
    let vBA := -vAB
    let sum_massriprocals := 1 / self.material.mass + 1 / other.material.mass
    let this_impulse :=
      -(((1 + self.material.elasticity) * dot vAB collision_normal) / sum_massriprocals)
    let other_impulse :=
      -(((1 + other.material.elasticity) * dot vBA collision_normal) / sum_massriprocals)
    let this_new_velocity : Vector2 K :=
      if |self.material.mass| > epsilon then
        self.velocity + vmul collision_normal (this_impulse / self.material.mass)
      else (0, 0)
    let other_new_velocity : Vector2 K :=
      if |other.material.mass| > epsilon then
        other.velocity + vmul collision_normal (other_impulse / other.material.mass)
      else (0, 0)
    (true,
      { self with position := moved, velocity := this_new_velocity },
      { other with velocity := other_new_velocity })
  else
    (false, self, other)

/-- Total momentum `mass_this*velocity_this + mass_other*velocity_other`. -/
def momentum (self other : BallEntity K) : Vector2 K :=
  vmul self.velocity self.material.mass + vmul other.velocity other.material.mass

/-- The values stored in `hw01_settings.txt`, in the order in which
`readFromAvailableText` reads them. -/
structure SettingsFile (K : Type) where
  window_w : ℕ
  window_h : ℕ
  force : K
  user_mass : K
  user_elasticity : K
  user_friction : K
  user_radius : K
  num_circles : ℕ
  enemy_mass : K
  enemy_elasticity : K
  enemy_friction : K
  enemy_radius : K

/-- The global variables of hw01 (input flags apart). -/
structure Globals (K : Type) where
  window_w : ℕ
  window_h : ℕ
  force : K
  num_circles : ℕ
  gfrictionEnabled : Bool
  userBallEntity : BallEntity K
  enemy_material : Material K
  enemy_radius : K
  otherBallEntities : List (BallEntity K)
  userBallEntityFlag : Bool
  otherBallEntitiesFlag : List Bool

/-- A value-initialised `BallEntity`: the default `Material` `{100, 0, 0.01}`, and
zero radius, position and velocity. -/
def defaultBallEntity : BallEntity K :=
  ⟨(0, 0), ⟨100, 0, 1 / 100⟩, 0, (0, 0)⟩

/-- The globals as initialised at program start, from `default_vals`. -/
def initialGlobals : Globals K where
  window_w := 1500
  window_h := 900
  force := 10000
  num_circles := 8
  gfrictionEnabled := false
  userBallEntity := defaultBallEntity
  enemy_material := ⟨500, 1 / 2, 1 / 20⟩
  enemy_radius := 30
  otherBallEntities := []
  userBallEntityFlag := false
  otherBallEntitiesFlag := []

/-- The function `readFromAvailableText`; `file` is `none` when
`hw01_settings.txt` cannot be opened. -/
def readFromAvailableText (file : Option (SettingsFile K)) (g : Globals K) :
    Bool × Globals K :=
  match file with
  | some f =>
    (true,
      { g with
        window_w := f.window_w
        window_h := f.window_h
        force := f.force
        userBallEntity :=
          { g.userBallEntity with
            material := ⟨f.user_mass, f.user_elasticity, f.user_friction⟩
            radius := f.user_radius }
        num_circles := f.num_circles
        enemy_material := ⟨f.enemy_mass, f.enemy_elasticity, f.enemy_friction⟩
        enemy_radius := f.enemy_radius })
  | none => (false, g)

/-- The method `BallEntity::initializeEntity`, which places the ball at `(x, y)`
(origin, radius and colour of the shape are not modelled). -/
def initializeEntity (b : BallEntity K) (x y : K) : BallEntity K :=
  { b with position := (x, y) }

/-- The call `v.resize(n)` on a vector of balls. -/
def resize (v : List (BallEntity K)) (n : ℕ) : List (BallEntity K) :=
  (v ++ List.replicate (n - v.length) defaultBallEntity).take n

/-- The function `initializeSettings`. -/
def initializeSettings (file : Option (SettingsFile K)) (g : Globals K) : Globals K :=
  let r := readFromAvailableText file g
  let g1 : Globals K :=
    if r.1 then r.2
    else
      { r.2 with
        userBallEntity :=
          { r.2.userBallEntity with
            material := ⟨1000, 0, 1 / 20⟩
            radius := 30 } }
  let resized := resize g1.otherBallEntities g1.num_circles
  let borderX : K := (g1.window_w : K) - 4 * g1.enemy_radius
  let borderY : K := (g1.window_h : K) - 2 * g1.userBallEntity.radius - 4 * g1.enemy_radius
  let others := (List.range g1.num_circles).map fun (i : ℕ) =>
    let row := i / 7
    let column := i % 7
    initializeEntity
      { resized.getD i defaultBallEntity with
        material := g1.enemy_material
        radius := g1.enemy_radius }
      (borderX / 7 * (column : K) + 4 * g1.enemy_radius)
      (borderY / 5 * (row : K) + 2 * g1.enemy_radius)
  { g1 with
    otherBallEntities := others
    userBallEntityFlag := true
    otherBallEntitiesFlag := List.replicate g1.num_circles true
    userBallEntity :=
      initializeEntity g1.userBallEntity ((g1.window_w : K) / 2)
        ((g1.window_h : K) - g1.userBallEntity.radius) }

/-- A ball at the origin moving to the right: mass 1, elasticity 0, radius 3. -/
def ballA : BallEntity ℚ :=
  ⟨(0, 0), ⟨1, 0, 0⟩, 3, (1, 0)⟩

/-- A resting ball at `(4, 0)`: mass 1, elasticity 1, radius 3. -/
def ballB : BallEntity ℚ :=
  ⟨(4, 0), ⟨1, 1, 0⟩, 3, (0, 0)⟩

/-- A resting ball at `(3, 4)`: mass 2, elasticity 0, radius 3. -/
def ballC : BallEntity ℚ :=
  ⟨(3, 4), ⟨2, 0, 0⟩, 3, (0, 0)⟩

/-- The method `BallEntity::moveEntity` (colours are not modelled). -/
def moveEntity (hypot : K → K → K) (self : BallEntity K) (acceleration : Vector2 K)
    (delta : K) (frictionEnabled : Bool) : BallEntity K :=
  let nVelocity0 := self.velocity
  let pos := self.position +
    (vmul (vmul (vmul acceleration (1 / 2)) delta) delta + vmul nVelocity0 delta)
  let nVelocity1 := nVelocity0 + vmul acceleration delta
  let nVMag1 := hypot nVelocity1.1 nVelocity1.2
  let slowed : Vector2 K × K :=
    if frictionEnabled then
      if |nVMag1| > epsilon then
        let nVNorm := vdiv nVelocity1 nVMag1
        let nVMag2 := max 0 (nVMag1 - self.material.friction * delta)
        (vmul nVNorm nVMag2, nVMag2)
      else (nVelocity1, nVMag1)
    else (nVelocity1, nVMag1)
  { self with
    position := pos
    velocity := if |slowed.2| > epsilon then slowed.1 else zero_vector }

/-- The method `BallEntity::wallBounce`.  The four tests run in the order left, top,
right, bottom on the local `tempPosition`; every branch taken sets the position of
the ball to the corrected `tempPosition`. -/
def wallBounce (self : BallEntity K) (x_bound y_bound : K) : BallEntity K :=
  let t0 : Vector2 K := self.position
  let b1 : BallEntity K × Vector2 K :=
    if t0.1 - self.radius < 0 then
      ({ self with
          position := (self.radius, t0.2)
          velocity := (self.velocity.1 * -self.material.elasticity, self.velocity.2) },
        (self.radius, t0.2))
    else (self, t0)
  let b2 : BallEntity K × Vector2 K :=
    if b1.2.2 - self.radius < 0 then
      ({ b1.1 with
          position := (b1.2.1, self.radius)
          velocity := (b1.1.velocity.1, b1.1.velocity.2 * -self.material.elasticity) },
        (b1.2.1, self.radius))
    else b1
  let b3 : BallEntity K × Vector2 K :=
    if b2.2.1 + self.radius > x_bound then
      ({ b2.1 with
          position := (x_bound - self.radius, b2.2.2)
          velocity := (b2.1.velocity.1 * -self.material.elasticity, b2.1.velocity.2) },
        (x_bound - self.radius, b2.2.2))
    else b2
  let b4 : BallEntity K × Vector2 K :=
    if b3.2.2 + self.radius > y_bound then
      ({ b3.1 with
          position := (b3.2.1, y_bound - self.radius)
          velocity := (b3.1.velocity.1, b3.1.velocity.2 * -self.material.elasticity) },
        (b3.2.1, y_bound - self.radius))
    else b3
  b4.1

/-- A call of `collisionWith` made by `update`:
`otherBallEntities[i].collisionWith(otherBallEntities[j])` or
`userBallEntity.collisionWith(otherBallEntities[i])`. -/
inductive CollisionCall where
  | others (i j : ℕ)
  | user (i : ℕ)
  deriving DecidableEq, Repr

/-- The calls of `collisionWith` made by the last loop of `update`, in order: for
each `i < num_circles`, ball `i` against every ball `j` with `i+1 ≤ j < num_circles`
(skipping `i == j`), then the user ball against ball `i`. -/
def collisionCalls (num_circles : ℕ) : List CollisionCall :=
  (List.range num_circles).flatMap fun i =>
    (((List.range' (i + 1) (num_circles - (i + 1))).filter fun j => !(decide (i = j))).map
        fun j => CollisionCall.others i j)
      ++ [CollisionCall.user i]

/-- The effect of one call of `collisionWith` on the globals. -/
def applyCall (hypot : K → K → K) (g : Globals K) : CollisionCall → Globals K
  | CollisionCall.others i j =>
    let r := collisionWith hypot (g.otherBallEntities.getD i defaultBallEntity)
      (g.otherBallEntities.getD j defaultBallEntity)
    { g with otherBallEntities := (g.otherBallEntities.set i r.2.1).set j r.2.2 }
  | CollisionCall.user i =>
    let r := collisionWith hypot g.userBallEntity
      (g.otherBallEntities.getD i defaultBallEntity)
    { g with
      userBallEntity := r.2.1
      otherBallEntities := g.otherBallEntities.set i r.2.2 }

/-- The acceleration computed at the start of `update` from the direction flags
`up`, `down`, `left`, `right`. -/
def inputAcceleration (hypot : K → K → K) (up down left right : Bool) (force mass : K) :
    Vector2 K :=
  let dir0 : Vector2 K := (0, 0)
  let dir1 : Vector2 K := if up then (dir0.1, dir0.2 - 69) else dir0
  let dir2 : Vector2 K := if left then (dir1.1 - 69, dir1.2) else dir1
  let dir3 : Vector2 K := if down then (dir2.1, dir2.2 + 69) else dir2
  let dir4 : Vector2 K := if right then (dir3.1 + 69, dir3.2) else dir3
  let dir_mag := hypot dir4.1 dir4.2
  if dir_mag > epsilon then vdiv (vmul (vdiv dir4 dir_mag) force) mass else (0, 0)

/-- The function `update` of hw01, for given direction flags and `delta` seconds. -/
def update (hypot : K → K → K) (up down left right : Bool) (delta : K) (g : Globals K) :
    Globals K :=
  let acceleration :=
    inputAcceleration hypot up down left right g.force g.userBallEntity.material.mass
  let g1 : Globals K :=
    { g with
      userBallEntityFlag := false
      otherBallEntitiesFlag := g.otherBallEntitiesFlag.map fun _ => false }
  let g2 : Globals K :=
    { g1 with
      userBallEntity := moveEntity hypot g1.userBallEntity acceleration delta g1.gfrictionEnabled
      otherBallEntities := g1.otherBallEntities.map fun b =>
        moveEntity hypot b zero_vector delta g1.gfrictionEnabled }
  let g3 : Globals K :=
    { g2 with
      userBallEntity := wallBounce g2.userBallEntity (g2.window_w : K) (g2.window_h : K)
      otherBallEntities := g2.otherBallEntities.map fun b =>
        wallBounce b (g2.window_w : K) (g2.window_h : K) }
  (collisionCalls g3.num_circles).foldl (applyCall hypot) g3

/-- The inner `while` loop of `main`:
`while (timeSinceLastUpdate >= fixed_update_time)` calls `update(fixed_update_time)` and
subtracts `fixed_update_time`.  Times are `sf::Time` values, integer microseconds.
The result is the final `timeSinceLastUpdate` and the arguments of the calls of
`update`, or `none` when the fuel runs out before the loop ends. -/
def fixedStepLoop (fixed_update_time : ℤ) : ℕ → ℤ → List ℤ → Option (ℤ × List ℤ)
  | 0, _, _ => none
  | fuel + 1, timeSinceLastUpdate, calls =>
    if timeSinceLastUpdate ≥ fixed_update_time then
      fixedStepLoop fixed_update_time fuel (timeSinceLastUpdate - fixed_update_time)
        (calls ++ [fixed_update_time])
    else some (timeSinceLastUpdate, calls)

/-- A ball left of and above the window `100 × 100`: radius 3, elasticity 1/2. -/
def ballOut : BallEntity ℚ :=
  ⟨(-5, -7), ⟨2, 1 / 2, 0⟩, 3, (-4, -6)⟩

/-- The local `dir` of `update` after the four tests on the direction flags. -/
def inputDir (up down left right : Bool) : Vector2 K :=
  let dir0 : Vector2 K := (0, 0)
  let dir1 : Vector2 K := if up then (dir0.1, dir0.2 - 69) else dir0
  let dir2 : Vector2 K := if left then (dir1.1 - 69, dir1.2) else dir1
  let dir3 : Vector2 K := if down then (dir2.1, dir2.2 + 69) else dir2
  if right then (dir3.1 + 69, dir3.2) else dir3

/-- Total kinetic energy `(1/2)*m_this*|v_this|^2 + (1/2)*m_other*|v_other|^2`. -/
def kineticEnergy (self other : BallEntity K) : K :=
  1 / 2 * self.material.mass * dot self.velocity self.velocity +
    1 / 2 * other.material.mass * dot other.velocity other.velocity

/-- A ball at the origin moving with velocity `(3, 4)`: friction coefficient 1. -/
def ballMoving : BallEntity ℚ :=
  ⟨(0, 0), ⟨2, 0, 1⟩, 3, (3, 4)⟩

/-- A ball of radius 1 whose centre coincides with that of `ballA`: mass 2, velocity `(5, 7)`. -/
def ballSame : BallEntity ℚ :=
  ⟨(0, 0), ⟨2, 0, 0⟩, 1, (5, 7)⟩

/-- The local `difference_vector` of `collisionWith` in binary32. -/
def difference_vectorF32 (self other : BallEntity ℚ) : Vector2 ℚ :=
  F32.vsub other.position self.position

/-- The local `dist` of `collisionWith` in binary32. -/
def distF32 (self other : BallEntity ℚ) : ℚ :=
  F32.hypot (difference_vectorF32 self other).1 (difference_vectorF32 self other).2

/-- The local `interpenetration_dist` of `collisionWith` in binary32. -/
def interpenetration_distF32 (self other : BallEntity ℚ) : ℚ :=
  F32.sub (F32.add self.radius other.radius) (distF32 self other)

/-- The local `collision_normal` of `collisionWith` in binary32. -/
def collision_normalF32 (self other : BallEntity ℚ) : Vector2 ℚ :=
  if |distF32 self other| > F32.epsilon then
    F32.vdiv (difference_vectorF32 self other) (distF32 self other)
  else (0, 0)

/-- The method `BallEntity::collisionWith` in binary32, statement by statement as in the
source, every operator replaced by its float counterpart (the masses and `dist` are
nonzero wherever a quotient by them is used below). -/
def collisionWithF32 (self other : BallEntity ℚ) : Bool × BallEntity ℚ × BallEntity ℚ :=
  let collision_normal := collision_normalF32 self other
  let interpenetration_dist := interpenetration_distF32 self other
  if interpenetration_dist > F32.epsilon then
    -- ball.move(-collision_normal * interpenetration_dist)
    let moved := F32.vadd self.position (F32.vmul (-collision_normal) interpenetration_dist)
    let vAB := F32.vsub self.velocity other.velocity
    let vBA := -vAB
    let sum_massriprocals :=
      F32.add (F32.div 1 self.material.mass) (F32.div 1 other.material.mass)
    let this_impulse :=
      -(F32.div (F32.mul (F32.add 1 self.material.elasticity) (F32.dot vAB collision_normal))
        sum_massriprocals)
    let other_impulse :=
      -(F32.div (F32.mul (F32.add 1 other.material.elasticity) (F32.dot vBA collision_normal))
        sum_massriprocals)
    let this_new_velocity : Vector2 ℚ :=
      if |self.material.mass| > F32.epsilon then
        F32.vadd self.velocity
          (F32.vmul collision_normal (F32.div this_impulse self.material.mass))
      else (0, 0)
    let other_new_velocity : Vector2 ℚ :=
      if |other.material.mass| > F32.epsilon then
        F32.vadd other.velocity
          (F32.vmul collision_normal (F32.div other_impulse other.material.mass))
      else (0, 0)
    (true,
      { self with position := moved, velocity := this_new_velocity },
      { other with velocity := other_new_velocity })
  else
    (false, self, other)

/-- The user ball of the default settings (mass 1000, elasticity 0, friction `0.05f`,
radius 30) at rest at the pixel `(750, 870)`. -/
def ballUser : BallEntity ℚ :=
  ⟨(750, 870), ⟨1000, 0, F32.round (1 / 20)⟩, 30, (0, 0)⟩

/-- An enemy ball of the default settings (mass 500, elasticity `0.5f`, friction `0.05f`,
radius 30) at rest at the pixel `(774, 877)`, at distance 25 from `ballUser`. -/
def ballEnemy : BallEntity ℚ :=
  ⟨(774, 877), ⟨500, 1 / 2, F32.round (1 / 20)⟩, 30, (0, 0)⟩

end Defs

end Hw01

/-! ## hw02.2: the Separating Axis Theorem test -/

namespace Hw022

section Defs

variable {K : Type} [LinearOrderedField K]

/-- The library functions `cos` and `sin` and the constant `deg_to_rad`
(`pi/180`), which the code takes from `<math.h>`. -/
structure Trig (K : Type) where
  cos : K → K
  sin : K → K
  deg_to_rad : K

/-- The parts of an `sf::ConvexShape` that `SAT` reads: the points
(`getPoint`, `getPointCount`), `getPosition()` and `getRotation()`. -/
structure ConvexShape (K : Type) where
  points : List (Vector2 K)
  position : Vector2 K
  rotation : K

/-- The accessor `getPoint(i)`; indices beyond `getPointCount()` are never
read for a shape with at least one point. -/
def getPoint (a : ConvexShape K) (i : ℕ) : Vector2 K := a.points.getD i (0, 0)

/-- The accessor `getPointCount()`. -/
def getPointCount (a : ConvexShape K) : ℕ := a.points.length

/-- The helper `vectorRotate`. -/
def vectorRotate (a : Vector2 K) (cos sin : K) : Vector2 K :=
  (a.1 * cos - a.2 * sin, a.1 * sin + a.2 * cos)

/-- The first two loops of `SAT` for one shape: `axes[i] = perp(p1 - p0)` with
`p0`, `p1` the rotated points `i` and `(i+1) % n`. -/
def axesOf (a : ConvexShape K) (cos sin : K) : List (Vector2 K) :=
  (List.range (getPointCount a)).map fun i =>
    perp (vectorRotate (getPoint a ((i + 1) % getPointCount a)) cos sin
      - vectorRotate (getPoint a i) cos sin)

/-- The projection `dot(naxis, vectorRotate(getPoint(j), cos, sin) + getPosition())`. -/
def projection (naxis : Vector2 K) (a : ConvexShape K) (cos sin : K) (j : ℕ) : K :=
  dot naxis (vectorRotate (getPoint a j) cos sin + a.position)

/-- The inner loops of `SAT` for one shape: `(min, max)` of the projections of
its points on `naxis`, starting from point 0 and running over `j = 1 .. n-1`. -/
def project (naxis : Vector2 K) (a : ConvexShape K) (cos sin : K) : K × K :=
  (List.range' 1 (getPointCount a - 1)).foldl
    (fun (m : K × K) j =>
      (min m.1 (projection naxis a cos sin j), max m.2 (projection naxis a cos sin j)))
    (projection naxis a cos sin 0, projection naxis a cos sin 0)

/-- The test at the end of the body of the projection loop of `SAT`:
`std::abs(cb-ca) > ra+rb`. -/
def separatedOn (naxis : Vector2 K) (a b : ConvexShape K) (cosa sina cosb sinb : K) : Prop :=
  let amin := (project naxis a cosa sina).1
  let amax := (project naxis a cosa sina).2
  let bmin := (project naxis b cosb sinb).1
  let bmax := (project naxis b cosb sinb).2
  let ca := (amin + amax) / 2
  let cb := (bmin + bmax) / 2
  let ra := (amax - amin) / 2
  let rb := (bmax - bmin) / 2
  |cb - ca| > ra + rb

instance (naxis : Vector2 K) (a b : ConvexShape K) (cosa sina cosb sinb : K) :
    Decidable (separatedOn naxis a b cosa sina cosb sinb) := by
  unfold separatedOn
  exact inferInstance

/-- The projection loop of `SAT` over the remaining axes: return false at the
first axis that separates, true when the axes are exhausted. -/
def satLoop (a b : ConvexShape K) (cosa sina cosb sinb : K) : List (Vector2 K) → Bool
  | [] => true
  | naxis :: rest =>
    if separatedOn naxis a b cosa sina cosb sinb then false
    else satLoop a b cosa sina cosb sinb rest

/-- The function `SAT`. -/
def SAT (T : Trig K) (a b : ConvexShape K) : Bool :=
  let rota := a.rotation * T.deg_to_rad
  let cosa := T.cos rota
  let sina := T.sin rota
  let rotb := b.rotation * T.deg_to_rad
  let cosb := T.cos rotb
  let sinb := T.sin rotb
  satLoop a b cosa sina cosb sinb (axesOf a cosa sina ++ axesOf b cosb sinb)

/-- The world-space vertices of a shape: each point rotated by the shape's
rotation and translated by its position. -/
def worldVertices (T : Trig K) (a : ConvexShape K) : List (Vector2 K) :=
  a.points.map fun p =>
    vectorRotate p (T.cos (a.rotation * T.deg_to_rad)) (T.sin (a.rotation * T.deg_to_rad))
      + a.position

/-- Vertex `i` of a list of vertices. -/
def vertex (W : List (Vector2 K)) (i : ℕ) : Vector2 K := W.getD i (0, 0)

/-- The side of vertex `k` with respect to the directed edge from vertex `i` to
vertex `(i+1) % n`: positive on the left, negative on the right, zero on the
line of the edge. -/
def edgeSide (W : List (Vector2 K)) (i k : ℕ) : K :=
  cross (vertex W ((i + 1) % W.length) - vertex W i) (vertex W k - vertex W i)

/-- A non-degenerate convex polygon listed in boundary order: at least 3
vertices, not all on one line, and every vertex lies on the same side (left for
counter-clockwise order, right for clockwise order) of every directed edge, or
on its line. -/
def IsConvexPolygon (W : List (Vector2 K)) : Prop :=
  3 ≤ W.length ∧
  (∃ i, i < W.length ∧ ∃ k, k < W.length ∧ edgeSide W i k ≠ 0) ∧
  ((∀ i, i < W.length → ∀ k, k < W.length → 0 ≤ edgeSide W i k) ∨
   (∀ i, i < W.length → ∀ k, k < W.length → edgeSide W i k ≤ 0))

/-- A table of `cos` and `sin` that is exact on whole quarter turns, with angles
counted in quarter turns (`deg_to_rad = 1/90`). -/
def quarterTrig : Trig ℚ where
  cos := fun x => if x = 1 ∨ x = 3 then 0 else if x = 2 then -1 else 1
  sin := fun x => if x = 1 then 1 else if x = 3 then -1 else 0
  deg_to_rad := 1 / 90

/-- The triangle `(0,0), (2,0), (0,2)` at the origin, not rotated. -/
def triangleA : ConvexShape ℚ := ⟨[(0, 0), (2, 0), (0, 2)], (0, 0), 0⟩

/-- The same triangle placed at `(5, 0)`. -/
def triangleB : ConvexShape ℚ := ⟨[(0, 0), (2, 0), (0, 2)], (5, 0), 0⟩

/-- The same triangle placed at `(1, 0)`, overlapping `triangleA`. -/
def triangleC : ConvexShape ℚ := ⟨[(0, 0), (2, 0), (0, 2)], (1, 0), 0⟩

/-- The helper `vectorRotate` in binary32. -/
def vectorRotateF32 (a : Vector2 ℚ) (cos sin : ℚ) : Vector2 ℚ :=
  (F32.sub (F32.mul a.1 cos) (F32.mul a.2 sin), F32.add (F32.mul a.1 sin) (F32.mul a.2 cos))

/-- The first two loops of `SAT` for one shape in binary32 (the negation in `perp` is
exact). -/
def axesOfF32 (a : ConvexShape ℚ) (cos sin : ℚ) : List (Vector2 ℚ) :=
  (List.range (getPointCount a)).map fun i =>
    perp (F32.vsub (vectorRotateF32 (getPoint a ((i + 1) % getPointCount a)) cos sin)
      (vectorRotateF32 (getPoint a i) cos sin))

/-- The projection `dot(naxis, vectorRotate(getPoint(j), cos, sin) + getPosition())` in
binary32. -/
def projectionF32 (naxis : Vector2 ℚ) (a : ConvexShape ℚ) (cos sin : ℚ) (j : ℕ) : ℚ :=
  F32.dot naxis (F32.vadd (vectorRotateF32 (getPoint a j) cos sin) a.position)

/-- The inner loops of `SAT` for one shape in binary32 (`std::min` and `std::max` are
exact). -/
def projectF32 (naxis : Vector2 ℚ) (a : ConvexShape ℚ) (cos sin : ℚ) : ℚ × ℚ :=
  (List.range' 1 (getPointCount a - 1)).foldl
    (fun (m : ℚ × ℚ) j =>
      (min m.1 (projectionF32 naxis a cos sin j), max m.2 (projectionF32 naxis a cos sin j)))
    (projectionF32 naxis a cos sin 0, projectionF32 naxis a cos sin 0)

/-- The test `std::abs(cb-ca) > ra+rb` in binary32, with `ca`, `cb`, `ra`, `rb` computed
as in the source. -/
def separatedOnF32 (naxis : Vector2 ℚ) (a b : ConvexShape ℚ) (cosa sina cosb sinb : ℚ) :
    Prop :=
  let amin := (projectF32 naxis a cosa sina).1
  let amax := (projectF32 naxis a cosa sina).2
  let bmin := (projectF32 naxis b cosb sinb).1
  let bmax := (projectF32 naxis b cosb sinb).2
  let ca := F32.div (F32.add amin amax) 2
  let cb := F32.div (F32.add bmin bmax) 2
  let ra := F32.div (F32.sub amax amin) 2
  let rb := F32.div (F32.sub bmax bmin) 2
  |F32.sub cb ca| > F32.add ra rb

instance (naxis : Vector2 ℚ) (a b : ConvexShape ℚ) (cosa sina cosb sinb : ℚ) :
    Decidable (separatedOnF32 naxis a b cosa sina cosb sinb) := by
  unfold separatedOnF32
  exact inferInstance

/-- The projection loop of `SAT` in binary32. -/
def satLoopF32 (a b : ConvexShape ℚ) (cosa sina cosb sinb : ℚ) : List (Vector2 ℚ) → Bool
  | [] => true
  | naxis :: rest =>
    if separatedOnF32 naxis a b cosa sina cosb sinb then false
    else satLoopF32 a b cosa sina cosb sinb rest

/-- The function `SAT` in binary32; `T.cos` and `T.sin` stand for the float results of the
library functions. -/
def SATF32 (T : Trig ℚ) (a b : ConvexShape ℚ) : Bool :=
  let rota := F32.mul a.rotation T.deg_to_rad
  let cosa := T.cos rota
  let sina := T.sin rota
  let rotb := F32.mul b.rotation T.deg_to_rad
  let cosb := T.cos rotb
  let sinb := T.sin rotb
  satLoopF32 a b cosa sina cosb sinb (axesOfF32 a cosa sina ++ axesOfF32 b cosb sinb)

/-- The coordinate `x` is an integer of absolute value at most `B`. -/
def IsPixel (B : ℕ) (x : ℚ) : Prop := x.den = 1 ∧ |x| ≤ B

instance (B : ℕ) (x : ℚ) : Decidable (IsPixel B x) := by
  unfold IsPixel
  exact inferInstance

/-- A shape on the pixel grid: not rotated, every point with integer coordinates of
absolute value at most 512 and the position with integer coordinates of absolute value
at most 1536.  For such shapes every float operation of `SAT` is exact. -/
def OnGrid (a : ConvexShape ℚ) : Prop :=
  a.rotation = 0 ∧ (∀ p ∈ a.points, IsPixel 512 p.1 ∧ IsPixel 512 p.2) ∧
    IsPixel 1536 a.position.1 ∧ IsPixel 1536 a.position.2

instance (a : ConvexShape ℚ) : Decidable (OnGrid a) := by
  unfold OnGrid
  exact inferInstance

/-- The triangle `(2.5, 2.3f), (1.5, 4.3f), (1.5, 3.3f)`, not rotated, at the origin;
`2.3f = 9646899 / 2^22`, `4.3f = 4508877 / 2^20` and `3.3f = 13841203 / 2^22` are the
floats nearest to `2.3`, `4.3` and `3.3`. -/
def triangleP : ConvexShape ℚ :=
  ⟨[(5 / 2, 9646899 / 4194304), (3 / 2, 4508877 / 1048576), (3 / 2, 13841203 / 4194304)],
    (0, 0), 0⟩

/-- The triangle `(2.5, 2.3f), (4.5, 4.3f), (3.5, 4.3f)`, not rotated, at the origin; it
shares its first vertex with `triangleP`. -/
def triangleQ : ConvexShape ℚ :=
  ⟨[(5 / 2, 9646899 / 4194304), (9 / 2, 4508877 / 1048576), (7 / 2, 4508877 / 1048576)],
    (0, 0), 0⟩

/-- The vectors that `update` indexes with `[]`. -/
inductive Vec where
  | polys
  | boundingBoxEntity
  | boundingBoxValues
  deriving DecidableEq, Repr

/-- The sizes of `polys`, `boundingBoxEntity` and `boundingBoxValues`. -/
structure VecSizes where
  polys : ℕ
  boundingBoxEntity : ℕ
  boundingBoxValues : ℕ

/-- The size of one of the vectors. -/
def VecSizes.size (s : VecSizes) : Vec → ℕ
  | Vec.polys => s.polys
  | Vec.boundingBoxEntity => s.boundingBoxEntity
  | Vec.boundingBoxValues => s.boundingBoxValues

/-- The function `resizeVectors`: the sizes of the vectors after the call. -/
def resizeVectors (size : ℕ) : VecSizes := ⟨size, size, size⟩

/-- The global `polysCount` and the sizes of the vectors after `initializeSettings`. -/
structure Settings where
  polysCount : ℕ
  sizes : VecSizes

/-- The function `initializeSettings` of hw02.2; `file` is `none` when `hw02.2.txt`
cannot be opened and otherwise holds the `polysCount` read from it.  Without the
file `polysCount` keeps its initial value `default_vals::polysCount = 0`. -/
def initializeSettings (file : Option ℕ) : Settings :=
  match file with
  | some polysCount => ⟨polysCount, resizeVectors polysCount⟩
  | none => ⟨0, resizeVectors 0⟩

/-- The index expressions that one call of `update` evaluates, in program order, each
listed once where the code repeats it: `polys[0]` in the four tests on the position
of the first polygon (evaluated on every call), then for every `i < polysCount`
`polys[i]`, `boundingBoxValues[i]` and `boundingBoxEntity[i]`, then for every pair
`i < j < polysCount` `boundingBoxValues[i]`, `boundingBoxValues[j]`, `polys[i]` and
`polys[j]`. -/
def updateIndices (polysCount : ℕ) : List (Vec × ℕ) :=
  [(Vec.polys, 0)]
    ++ ((List.range polysCount).flatMap fun i =>
      [(Vec.polys, i), (Vec.boundingBoxValues, i), (Vec.boundingBoxEntity, i)])
    ++ ((List.range polysCount).flatMap fun i =>
      (List.range' (i + 1) (polysCount - (i + 1))).flatMap fun j =>
        [(Vec.boundingBoxValues, i), (Vec.boundingBoxValues, j), (Vec.polys, i),
          (Vec.polys, j)])

end Defs

end Hw022

/-! ## hw03: the quadratic Bezier editor -/

namespace Hw03

section Defs

variable {K : Type} [LinearOrderedField K]

/-- The helper `lerp`: `v0 + ((v1 - v0) * t)`. -/
def lerp (v0 v1 : Vector2 K) (t : K) : Vector2 K := v0 + vmul (v1 - v0) t

/-- The helper `make_curve`. -/
def make_curve (v0 v1 v2 : Vector2 K) (t : K) : Vector2 K :=
  lerp (lerp v0 v1 t) (lerp v1 v2 t) t

/-- The globals of hw03.  The float `smoothness` holds a natural number (10 by
default); `curves` is the int `(control_points-1)/2`. -/
structure State (K : Type) where
  smoothness : ℕ
  inv_smoothness : K
  control_points : ℕ
  curves : ℕ
  c_radius : K
  circles : List (Vector2 K)
  ctrlPoints : List (Vector2 K)
  allPoints : List (Vector2 K)
  circlesFlags : List Bool

/-- The function `updateVertexPoint` of hw03. -/
def updateVertexPoint (st : State K) (idx : ℕ) : State K :=
  { st with
    allPoints := (List.range (st.smoothness + 1)).foldl
      (fun ap i =>
        ap.set (idx * st.smoothness + i)
          (make_curve (st.ctrlPoints.getD (idx * 2) 0) (st.ctrlPoints.getD (idx * 2 + 1) 0)
            (st.ctrlPoints.getD (idx * 2 + 2) 0) (st.inv_smoothness * (i : K))))
      st.allPoints }

/-- The first three statements of the body of the hit test of `update`: control point
`i` and circle `i` move to the mouse and the flag of the circle is set. -/
def movePoint (mousePosition : Vector2 K) (st : State K) (i : ℕ) : State K :=
  { st with
    ctrlPoints := st.ctrlPoints.set i mousePosition
    circles := st.circles.set i mousePosition
    circlesFlags := st.circlesFlags.set i true }

/-- The body of the hit test of `update` for control point `i`, when the mouse is
within `c_radius` of circle `i`: the control point and the circle move to the mouse and
the segments `max(i/2 - 1, 0)` (for even `i`) and `min(i/2, curves-1)` are recomputed.
The segment numbers are ints; they are not negative when `curves ≥ 1`. -/
def dragPoint (mousePosition : Vector2 K) (st : State K) (i : ℕ) : State K :=
  let st1 : State K := movePoint mousePosition st i
  let st2 : State K :=
    if i % 2 = 0 then updateVertexPoint st1 (max (((i / 2 : ℕ) : ℤ) - 1) 0).toNat else st1
  updateVertexPoint st2 (min ((i / 2 : ℕ) : ℤ) ((st.curves : ℤ) - 1)).toNat

/-- The loop of `update` over the remaining control points: the first circle within
`c_radius` of the mouse is dragged and the loop ends (`break`). -/
def dragLoop (hypot : K → K → K) (mousePosition : Vector2 K) (st : State K) :
    List ℕ → State K
  | [] => st
  | i :: rest =>
    let placeholder := st.circles.getD i 0 - mousePosition
    let dist := hypot placeholder.1 placeholder.2
    if dist < st.c_radius then dragPoint mousePosition st i
    else dragLoop hypot mousePosition st rest

/-- The function `update` of hw03. -/
def update (hypot : K → K → K) (leftMouseButtonFlag : Bool) (mousePosition : Vector2 K)
    (st : State K) : State K :=
  if leftMouseButtonFlag then
    dragLoop hypot mousePosition st (List.range st.control_points)
  else st

/-- The drawn curve is consistent with the control points: every sample
`allPoints[k*s + m]` of every segment `k` is
`make_curve(ctrl[2k], ctrl[2k+1], ctrl[2k+2], m/s)`. -/
def Consistent (st : State K) : Prop :=
  ∀ k, k < st.curves → ∀ m, m ≤ st.smoothness →
    st.allPoints.getD (k * st.smoothness + m) 0 =
      make_curve (st.ctrlPoints.getD (k * 2) 0) (st.ctrlPoints.getD (k * 2 + 1) 0)
        (st.ctrlPoints.getD (k * 2 + 2) 0) ((m : K) / (st.smoothness : K))

end Defs

end Hw03

/-! ## hw04: the Bezier editor of arbitrary order -/

namespace Hw04

section Defs

variable {K : Type} [LinearOrderedField K]

/-- The value a `long long` holds after an arithmetic result `x`: `x` wrapped to
64 bits two's complement. -/
def wrap64 (x : ℤ) : ℤ :=
  (x + 9223372036854775808) % 18446744073709551616 - 9223372036854775808

/-- Row `i` of `pascal` as written by one iteration of the outer loop of
`updatePascalTriangle`, from row `i-1`: the row has `i+1` entries, entries `0` and
`i` are `1`, and entry `j` with `1 ≤ j < i` is `pascal[i-1][j-1] + pascal[i-1][j]`. -/
def pascalRow (prev : List ℤ) (i : ℕ) : List ℤ :=
  (List.range (i + 1)).map fun j =>
    if j = 0 ∨ j = i then 1 else wrap64 (prev.getD (j - 1) 0 + prev.getD j 0)

/-- The function `updatePascalTriangle`: the vector `pascal` after the call, rows
`0 .. order` being written in increasing order. -/
def updatePascalTriangle (order : ℕ) : List (List ℤ) :=
  (List.range (order + 1)).foldl
    (fun pascal i => pascal ++ [pascalRow (pascal.getD (i - 1) []) i]) []

/-- The function `updatePolyCoefs`: the vector `poly_coefs` after the call, given
the global `inv_smoothness`. -/
def updatePolyCoefs (inv_smoothness : K) (level order : ℕ) : List (List K) :=
  let pascal := updatePascalTriangle order
  (List.range (level + 1)).map fun (i : ℕ) =>
    let g := inv_smoothness * (i : K)
    let f := 1 - g
    (List.range (order + 1)).map fun (j : ℕ) =>
      (((pascal.getD order []).getD j 0 : ℤ) : K) * f ^ (order - j) * g ^ j

/-- The globals that the curve evaluation uses.  The float `smoothness` holds a
natural number (10 by default). -/
structure State (K : Type) where
  curve_order : ℕ
  smoothness : ℕ
  inv_smoothness : K
  ctrlPoints : List (Vector2 K)
  allPoints : List (Vector2 K)
  poly_coefs : List (List K)

/-- The body of the outer loop of `updateVertexPoint` for sample `i`: the sample
is set to `zero_vector` and the terms `j = 0 .. curve_order` are added to it.  The
index `idx * smoothness + i`, which the code evaluates in `float`, is a natural number
here: the two agree while it is at most `2^24` (see `sampleAccesses` for the float
index). -/
def writeSample (st : State K) (idx i : ℕ) (allPoints : List (Vector2 K)) :
    List (Vector2 K) :=
  (List.range (st.curve_order + 1)).foldl
    (fun ap j =>
      ap.set (idx * st.smoothness + i)
        (ap.getD (idx * st.smoothness + i) 0 +
          vmul (st.ctrlPoints.getD (idx * st.curve_order + j) 0)
            ((st.poly_coefs.getD i []).getD j 0)))
    (allPoints.set (idx * st.smoothness + i) zero_vector)

/-- The function `updateVertexPoint`. -/
def updateVertexPoint (st : State K) (idx : ℕ) : State K :=
  { st with
    allPoints := (List.range (st.smoothness + 1)).foldl
      (fun ap i => writeSample st idx i ap) st.allPoints }

/-- The Bezier point of degree `n` at parameter `i/s` of the control points
`ctrl[base .. base+n]`. -/
def bezierPoint (ctrl : List (Vector2 K)) (base n : ℕ) (t : K) : Vector2 K :=
  ∑ j ∈ Finset.range (n + 1),
    vmul (ctrl.getD (base + j) 0) ((n.choose j : K) * (1 - t) ^ (n - j) * t ^ j)

/-- A curve of order 67 with smoothness 2 whose control points are all `(0,0)`
except control point 33, which is `(1, 0)`; `poly_coefs` is what
`updatePolyCoefs(2, 67)` computes with `inv_smoothness = 1/2`. -/
def state67 : State ℚ where
  curve_order := 67
  smoothness := 2
  inv_smoothness := 1 / 2
  ctrlPoints := (List.range 68).map fun j => if j = 33 then (1, 0) else (0, 0)
  allPoints := List.replicate 3 (0, 0)
  poly_coefs := updatePolyCoefs (1 / 2) 2 67

/-- The globals of the hw04 editor: those of the curve evaluation, and `control_points`,
the int `curves = (control_points-1)/curve_order`, `c_radius`, the circles and their
flags. -/
structure Editor (K : Type) extends State K where
  control_points : ℕ
  curves : ℕ
  c_radius : K
  circles : List (Vector2 K)
  circlesFlags : List Bool

/-- The first three statements of the body of the hit test of `update`: control point
`i` and circle `i` move to the mouse and the flag of the circle is set. -/
def movePoint (mousePosition : Vector2 K) (e : Editor K) (i : ℕ) : Editor K :=
  { e with
    ctrlPoints := e.ctrlPoints.set i mousePosition
    circles := e.circles.set i mousePosition
    circlesFlags := e.circlesFlags.set i true }

/-- A call `updateVertexPoint(idx)` in the editor. -/
def redraw (e : Editor K) (idx : ℕ) : Editor K :=
  { e with toState := updateVertexPoint e.toState idx }

/-- The body of the hit test of `update` for control point `i`, when the mouse is
within `c_radius` of circle `i`: the point moves, then segment
`max(i/curve_order - 1, 0)` is recomputed when `i%2 == 0`, then segment
`min(i/curve_order, curves-1)` is recomputed.  The segment numbers are ints; they are
not negative when `curves ≥ 1`. -/
def dragPoint (mousePosition : Vector2 K) (e : Editor K) (i : ℕ) : Editor K :=
  let e1 : Editor K := movePoint mousePosition e i
  let e2 : Editor K :=
    if i % 2 = 0 then redraw e1 (max (((i / e.curve_order : ℕ) : ℤ) - 1) 0).toNat else e1
  redraw e2 (min ((i / e.curve_order : ℕ) : ℤ) ((e.curves : ℤ) - 1)).toNat

/-- The loop of `update` over the remaining control points: the first circle within
`c_radius` of the mouse is dragged and the loop ends (`break`). -/
def dragLoop (hypot : K → K → K) (mousePosition : Vector2 K) (e : Editor K) :
    List ℕ → Editor K
  | [] => e
  | i :: rest =>
    let placeholder := e.circles.getD i 0 - mousePosition
    let dist := hypot placeholder.1 placeholder.2
    if dist < e.c_radius then dragPoint mousePosition e i
    else dragLoop hypot mousePosition e rest

/-- The function `update` of hw04. -/
def update (hypot : K → K → K) (leftMouseButtonFlag : Bool) (mousePosition : Vector2 K)
    (e : Editor K) : Editor K :=
  if leftMouseButtonFlag then
    dragLoop hypot mousePosition e (List.range e.control_points)
  else e

/-- The drawn curve is consistent with the control points: every sample
`allPoints[k*s + m]` of every segment `k` is the Bezier point at `m/s` of the control
points `k*n .. k*n + n`. -/
def Consistent (e : Editor K) : Prop :=
  ∀ k, k < e.curves → ∀ m, m ≤ e.smoothness →
    e.allPoints.getD (k * e.smoothness + m) 0 =
      bezierPoint e.ctrlPoints (k * e.curve_order) e.curve_order
        ((m : K) / (e.smoothness : K))

/-- A cubic editor (`curve_order = 3`) with 7 control points, 2 segments and
smoothness 2, the curve drawn; `poly_coefs` is what `updatePolyCoefs(2, 3)` computes. -/
def editor3 : Editor ℚ where
  curve_order := 3
  smoothness := 2
  inv_smoothness := 1 / 2
  ctrlPoints := [(30, 40), (60, 80), (90, 120), (3, 4), (100, 0), (200, 0), (300, 0)]
  allPoints := [(30, 40), (483 / 8, 161 / 2), (3, 4), (1203 / 8, 1 / 2), (300, 0)]
  poly_coefs := updatePolyCoefs (1 / 2) 2 3
  control_points := 7
  curves := 2
  c_radius := 10
  circles := [(30, 40), (60, 80), (90, 120), (3, 4), (100, 0), (200, 0), (300, 0)]
  circlesFlags := [false, false, false, false, false, false, false]

/-- An element access made by `updateVertexPoint`: `allPoints[k]`, `ctrlPoints[k]` or
`poly_coefs[i][j]`. -/
inductive Access where
  | allPoints (k : ℕ)
  | ctrlPoints (k : ℕ)
  | poly_coefs (i j : ℕ)
  deriving DecidableEq, Repr

/-- The globals that fix the sizes of the arrays: `curve_order`, `smoothness` (a float
holding a natural number), `control_points`, `curves` and `points`. -/
structure Settings where
  curve_order : ℕ
  smoothness : ℕ
  control_points : ℕ
  curves : ℕ
  points : ℕ

/-- The sizes that `initializeSettings` computes from `curve_order`, `smoothness` and
`control_points`: `curves = (control_points-1)/curve_order` in `int` arithmetic, and
`points = curves * smoothness + 1`, which is evaluated in `float` (the int `curves` is
converted, the product and the sum are rounded) and converted back to `int`. -/
def initializeSettings (curve_order smoothness control_points : ℕ) : Settings where
  curve_order := curve_order
  smoothness := smoothness
  control_points := control_points
  curves := (control_points - 1) / curve_order
  points :=
    ⌊F32.add (F32.mul (F32.round (((control_points - 1) / curve_order : ℕ) : ℚ))
      (smoothness : ℚ)) 1⌋₊

/-- The access is within bounds after `initializeSettings`: `allPoints` has `points`
elements, `ctrlPoints` has `control_points` elements, and `poly_coefs` has
`smoothness + 1` rows of `curve_order + 1` entries (`updatePolyCoefs(smoothness,
curve_order)`, in `unsigned int` arithmetic). -/
def Access.InBounds (g : Settings) : Access → Prop
  | Access.allPoints k => k < g.points
  | Access.ctrlPoints k => k < g.control_points
  | Access.poly_coefs i j =>
    i < (g.smoothness + 1) % 4294967296 ∧ j < (g.curve_order + 1) % 4294967296

instance (g : Settings) (a : Access) : Decidable (a.InBounds g) := by
  cases a <;> unfold Access.InBounds <;> exact inferInstance

/-- The element accesses of the body of the outer loop of `updateVertexPoint(idx)` for
sample `i`, in program order: the write of `allPoints[idx*smoothness + i]`, then for
every `j ≤ curve_order` the accesses `allPoints[idx*smoothness + i]`,
`ctrlPoints[idx*curve_order + j]` and `poly_coefs[i][j]`.  The index
`idx * smoothness + i` is evaluated in `float` (`idx` and `i` are converted, the
product and the sum are rounded) and converted to `std::size_t`; the index
`idx * curve_order + j` is `unsigned int` arithmetic. -/
def sampleAccesses (g : Settings) (idx i : ℕ) : List Access :=
  Access.allPoints
      ⌊F32.add (F32.mul (F32.round (idx : ℚ)) (g.smoothness : ℚ)) (F32.round (i : ℚ))⌋₊ ::
    (List.range (g.curve_order + 1)).flatMap fun j =>
      [Access.allPoints
          ⌊F32.add (F32.mul (F32.round (idx : ℚ)) (g.smoothness : ℚ)) (F32.round (i : ℚ))⌋₊,
        Access.ctrlPoints ((idx * g.curve_order + j) % 4294967296), Access.poly_coefs i j]

/-- The outer loop `for (unsigned int i = 0; i <= smoothness; ++i)` of
`updateVertexPoint(idx)` from counter value `i` on: the element accesses made, and
whether the loop has ended before the fuel ran out.  The test compares the counter,
converted to `float`, with the float `smoothness`. -/
def updateVertexPointLoop (g : Settings) (idx : ℕ) : ℕ → ℕ → List Access × Bool
  | 0, _ => ([], false)
  | fuel + 1, i =>
    if F32.round (i : ℚ) ≤ (g.smoothness : ℚ) then
      (sampleAccesses g idx i ++
          (updateVertexPointLoop g idx fuel ((i + 1) % 4294967296)).1,
        (updateVertexPointLoop g idx fuel ((i + 1) % 4294967296)).2)
    else ([], true)

/-- The element accesses of one call `updateVertexPoint(idx)`, and whether the call has
returned before the fuel ran out. -/
def updateVertexPointAccesses (g : Settings) (idx fuel : ℕ) : List Access × Bool :=
  updateVertexPointLoop g idx fuel 0

/-- The arguments of the calls `updateVertexPoint(i)` made by the last loop of
`initializeSettings`: `i = 0 .. curves - 1`. -/
def initializeCalls (g : Settings) : List ℤ :=
  (List.range g.curves).map fun (i : ℕ) => (i : ℤ)

/-- The arguments of the calls of `updateVertexPoint` made by `update` when control
point `i` is dragged: `max(i/curve_order - 1, 0)` when `i%2 == 0`, then
`min(i/curve_order, curves - 1)`, in `int` arithmetic. -/
def dragCalls (g : Settings) (i : ℕ) : List ℤ :=
  (if i % 2 = 0 then [max (((i / g.curve_order : ℕ) : ℤ) - 1) 0] else [])
    ++ [min ((i / g.curve_order : ℕ) : ℤ) ((g.curves : ℤ) - 1)]

end Defs

end Hw04

/-! ## hw02.1: the rotating boxes -/

namespace Hw021

section Defs

variable {K : Type} [LinearOrderedField K]

/-- The value an `unsigned int` holds after an arithmetic result `x`. -/
def u32 (x : ℕ) : ℕ := x % 4294967296

/-- The loop `while (sqr*sqr < boxes_count) sqr++` of `initializeSettings`, started
at the current `sqr`: the final `sqr`, or `none` when the fuel runs out before the
loop ends. -/
def findSqr (boxes_count : ℕ) : ℕ → ℕ → Option ℕ
  | 0, _ => none
  | fuel + 1, sqr =>
    if u32 (sqr * sqr) < boxes_count then findSqr boxes_count fuel (u32 (sqr + 1))
    else some sqr

/-- A call `rects[index].setPosition(x, y)`. -/
structure SetPosition (K : Type) where
  index : ℕ
  x : K
  y : K

/-- The inner loop of the grid placement for row `i`, over the remaining values of
`j`: it stops (`break`) at the first `j` with `i*sqr + j >= boxes_count`. -/
def gridRow (window_w window_h boxes_count sqr i : ℕ) : List ℕ → List (SetPosition K)
  | [] => []
  | j :: rest =>
    if u32 (u32 (i * sqr) + j) ≥ boxes_count then []
    else
      ⟨u32 (u32 (i * sqr) + j),
        ((j : K) + 1 / 2) * (window_w : K) / (sqr : K),
        ((i : K) + 1 / 2) * (window_h : K) / (sqr : K)⟩
        :: gridRow window_w window_h boxes_count sqr i rest

/-- The two nested loops of the grid placement: the calls of `setPosition`, in order. -/
def gridCalls (window_w window_h boxes_count sqr : ℕ) : List (SetPosition K) :=
  (List.range sqr).flatMap fun i =>
    gridRow window_w window_h boxes_count sqr i (List.range sqr)

/-- The placement part of `initializeSettings`: the calls of `setPosition`, in order,
or `none` when the fuel runs out in the search for `sqr`. -/
def placeBoxes (window_w window_h boxes_count fuel : ℕ) : Option (List (SetPosition K)) :=
  if boxes_count = 5 then
    some
      [⟨0, ((window_w / 4 : ℕ) : K), ((window_h / 4 : ℕ) : K)⟩,
        ⟨1, ((u32 (3 * window_w) / 4 : ℕ) : K), ((window_h / 4 : ℕ) : K)⟩,
        ⟨2, ((window_w / 4 : ℕ) : K), ((u32 (3 * window_h) / 4 : ℕ) : K)⟩,
        ⟨3, ((u32 (3 * window_w) / 4 : ℕ) : K), ((u32 (3 * window_h) / 4 : ℕ) : K)⟩,
        ⟨4, ((window_w / 2 : ℕ) : K), ((window_h / 2 : ℕ) : K)⟩]
  else
    (findSqr boxes_count fuel 1).map fun sqr =>
      gridCalls window_w window_h boxes_count sqr

/-- The centre of the grid cell of box `k` in a grid of `sqr` columns:
`((k mod sqr + 0.5)*window_w/sqr, (k div sqr + 0.5)*window_h/sqr)`. -/
def cellCentre (window_w window_h sqr k : ℕ) : SetPosition K :=
  ⟨k, (((k % sqr : ℕ) : K) + 1 / 2) * (window_w : K) / (sqr : K),
    (((k / sqr : ℕ) : K) + 1 / 2) * (window_h : K) / (sqr : K)⟩

end Defs

end Hw021

/-! ## hw05: the Bezier editor with tangents -/

namespace Hw05

section Defs

variable {K : Type} [LinearOrderedField K]

/-- The function `updateTangCoefs`, for `order ≥ 1`: the vectors `tang_coefs` and
`tsrc_coefs` after the call, given the globals `inv_tanNorm` and `pascal` (which
`updatePolyCoefs` has filled before, with the same `updatePascalTriangle` as in hw04). -/
def updateTangCoefs (inv_tanNorm : K) (pascal : List (List ℤ)) (level order : ℕ) :
    List (List K) × List (List K) :=
  ((List.range level).map fun (i : ℕ) =>
      let g := inv_tanNorm * (i : K)
      let f := 1 - g
      (List.range order).map fun (j : ℕ) =>
        (((pascal.getD (order - 1) []).getD j 0 : ℤ) : K) * f ^ (order - 1 - j) * g ^ j
          * (order : K),
    (List.range level).map fun (i : ℕ) =>
      let g := inv_tanNorm * (i : K)
      let f := 1 - g
      (List.range (order + 1)).map fun (j : ℕ) =>
        (((pascal.getD order []).getD j 0 : ℤ) : K) * f ^ (order - j) * g ^ j)

/-- The globals that the tangent computation uses. -/
structure State (K : Type) where
  curve_order : ℕ
  tanNorm : ℕ
  inv_tanNorm : K
  ctrlPoints : List (Vector2 K)
  tanPoints : List (Vector2 K)
  normalPoints : List (Vector2 K)
  tsrc_coefs : List (List K)
  tang_coefs : List (List K)

/-- The first inner loop of `updateTangentPoint` for sample `i`: `tanPoints[tanPtLoc]` is
set to `zero_vector` and the terms `ctrlPoints[ptLoc + j] * tsrc_coefs[i][j]`,
`j = 0 .. curve_order`, are added to it. -/
def tangentStart (st : State K) (idx i : ℕ) (tanPoints : List (Vector2 K)) :
    List (Vector2 K) :=
  (List.range (st.curve_order + 1)).foldl
    (fun tp j =>
      tp.set ((idx * st.tanNorm + i) * 2)
        (tp.getD ((idx * st.tanNorm + i) * 2) 0 +
          vmul (st.ctrlPoints.getD (idx * st.curve_order + j) 0)
            ((st.tsrc_coefs.getD i []).getD j 0)))
    (tanPoints.set ((idx * st.tanNorm + i) * 2) zero_vector)

/-- The second inner loop of `updateTangentPoint` for sample `i`, for
`curve_order ≥ 1`: `tanPoints[tanPtLoc+1]` is set to `zero_vector`, then for
`j = 0 .. curve_order - 1` the term `ctrlPoints[ptLoc + j + 1] * tang_coefs[i][j]` is
added and the term `ctrlPoints[ptLoc + j] * tang_coefs[i][j]` is subtracted. -/
def tangentDirection (st : State K) (idx i : ℕ) (tanPoints : List (Vector2 K)) :
    List (Vector2 K) :=
  (List.range st.curve_order).foldl
    (fun tp j =>
      let tp1 := tp.set ((idx * st.tanNorm + i) * 2 + 1)
        (tp.getD ((idx * st.tanNorm + i) * 2 + 1) 0 +
          vmul (st.ctrlPoints.getD (idx * st.curve_order + j + 1) 0)
            ((st.tang_coefs.getD i []).getD j 0))
      tp1.set ((idx * st.tanNorm + i) * 2 + 1)
        (tp1.getD ((idx * st.tanNorm + i) * 2 + 1) 0 -
          vmul (st.ctrlPoints.getD (idx * st.curve_order + j) 0)
            ((st.tang_coefs.getD i []).getD j 0)))
    (tanPoints.set ((idx * st.tanNorm + i) * 2 + 1) zero_vector)

/-- The body of the loop of `updateTangentPoint` for sample `i`, on the pair
`(tanPoints, normalPoints)` (colours are not modelled). -/
def writeTangent (hypot : K → K → K) (st : State K) (idx i : ℕ)
    (arrays : List (Vector2 K) × List (Vector2 K)) :
    List (Vector2 K) × List (Vector2 K) :=
  let tanPtLoc := (idx * st.tanNorm + i) * 2
  let tan1 := tangentStart st idx i arrays.1
  let nor1 := arrays.2.set tanPtLoc (tan1.getD tanPtLoc 0)
  let tan2 := tangentDirection st idx i tan1
  let v0 := tan2.getD (tanPtLoc + 1) 0
  let v1 := vdiv v0 (hypot v0.1 v0.2)
  let v := vmul v1 20
  let vn : Vector2 K := (-v.2, v.1)
  (tan2.set (tanPtLoc + 1) (tan2.getD tanPtLoc 0 + v),
    nor1.set (tanPtLoc + 1) (nor1.getD tanPtLoc 0 + vn))

/-- The function `updateTangentPoint`. -/
def updateTangentPoint (hypot : K → K → K) (st : State K) (idx : ℕ) : State K :=
  let arrays := (List.range st.tanNorm).foldl
    (fun a i => writeTangent hypot st idx i a) (st.tanPoints, st.normalPoints)
  { st with tanPoints := arrays.1, normalPoints := arrays.2 }

/-- The derivative at parameter `t` of the Bezier curve of degree `n` with control
points `ctrl[base .. base+n]`:
`n * ∑ j < n, C(n-1, j) * (1-t)^(n-1-j) * t^j * (P_{j+1} - P_j)`. -/
def bezierDerivative (ctrl : List (Vector2 K)) (base n : ℕ) (t : K) : Vector2 K :=
  vmul
    (∑ j ∈ Finset.range n,
      vmul (ctrl.getD (base + j + 1) 0 - ctrl.getD (base + j) 0)
        (((n - 1).choose j : K) * (1 - t) ^ (n - 1 - j) * t ^ j))
    (n : K)

/-- A quadratic curve with control points `(0,0), (3,4), (6,0)` and `tanNorm = 3`; the
coefficient tables are what `updateTangCoefs(3, 2)` computes with `inv_tanNorm = 1/2`. -/
def tangentState2 : State ℚ where
  curve_order := 2
  tanNorm := 3
  inv_tanNorm := 1 / 2
  ctrlPoints := [(0, 0), (3, 4), (6, 0)]
  tanPoints := List.replicate 6 (0, 0)
  normalPoints := List.replicate 6 (0, 0)
  tsrc_coefs := (updateTangCoefs (1 / 2) (Hw04.updatePascalTriangle 2) 3 2).2
  tang_coefs := (updateTangCoefs (1 / 2) (Hw04.updatePascalTriangle 2) 3 2).1

/-- A curve of order 67 with `tanNorm = 3` whose control points are all `(0,0)` except
control point 33, which is `(1, 0)`. -/
def tangentState67 : State ℚ where
  curve_order := 67
  tanNorm := 3
  inv_tanNorm := 1 / 2
  ctrlPoints := (List.range 68).map fun j => if j = 33 then (1, 0) else (0, 0)
  tanPoints := List.replicate 6 (0, 0)
  normalPoints := List.replicate 6 (0, 0)
  tsrc_coefs := (updateTangCoefs (1 / 2) (Hw04.updatePascalTriangle 67) 3 67).2
  tang_coefs := (updateTangCoefs (1 / 2) (Hw04.updatePascalTriangle 67) 3 67).1

end Defs

end Hw05

/-! ## collision.cpp: the five rotating rectangles -/

namespace Collision

section Defs

/-- The vectors that `initializeSettings` and `update` index with `[]`. -/
inductive Vec where
  | rects
  | boundingBoxEntity
  | boundingBoxValues
  | rectSizes
  deriving DecidableEq, Repr

/-- The sizes of `rects`, `boundingBoxEntity`, `boundingBoxValues` and `rectSizes`. -/
structure VecSizes where
  rects : ℕ
  boundingBoxEntity : ℕ
  boundingBoxValues : ℕ
  rectSizes : ℕ

/-- The size of one of the vectors. -/
def VecSizes.size (s : VecSizes) : Vec → ℕ
  | Vec.rects => s.rects
  | Vec.boundingBoxEntity => s.boundingBoxEntity
  | Vec.boundingBoxValues => s.boundingBoxValues
  | Vec.rectSizes => s.rectSizes

/-- The function `resizeVectors`: the sizes of the vectors after the call. -/
def resizeVectors (size : ℕ) : VecSizes := ⟨size, size, size, size⟩

/-- The function `readFromAvailableText` when `collision.txt` opens and gives
`boxes_count`: the sizes after `resizeVectors(boxes_count)` and the index expressions
of the reading loop, `rectSizes[i].x` and `rectSizes[i].y` for `i < boxes_count`. -/
def readFromAvailableText (boxes_count : ℕ) : VecSizes × List (Vec × ℕ) :=
  (resizeVectors boxes_count,
    (List.range boxes_count).flatMap fun i => [(Vec.rectSizes, i), (Vec.rectSizes, i)])

/-- The function `initializeSettings` for a `boxes_count` read from the settings file:
the sizes of the vectors and the index expressions it evaluates, in program order: those
of `readFromAvailableText`, those of the loop that sets size and origin of `rects[i]`,
and the five hard-coded `rects[0] .. rects[4]`. -/
def initializeSettings (boxes_count : ℕ) : VecSizes × List (Vec × ℕ) :=
  ((readFromAvailableText boxes_count).1,
    (readFromAvailableText boxes_count).2
      ++ ((List.range boxes_count).flatMap fun i =>
        [(Vec.rects, i), (Vec.rectSizes, i), (Vec.rects, i), (Vec.rectSizes, i),
          (Vec.rectSizes, i)])
      ++ [(Vec.rects, 0), (Vec.rects, 1), (Vec.rects, 2), (Vec.rects, 3), (Vec.rects, 4)])

/-- The value an `int` holds after an arithmetic result `x`: `x` wrapped to 32 bits
two's complement (what the usual compilers produce for `j++` at `INT_MAX`, which the
language leaves undefined). -/
def wrap32 (x : ℤ) : ℤ :=
  (x + 2147483648) % 4294967296 - 2147483648

/-- The conversion of an `int` to `unsigned int` in a comparison with `boxes_count`. -/
def toUnsigned (x : ℤ) : ℕ := (x % 4294967296).toNat

/-- The conversion of an `int` to the 64-bit `std::size_t` parameter of `operator[]`. -/
def toSizeT (x : ℤ) : ℕ := (x % 18446744073709551616).toNat

/-- The index expressions of the body of the pair loop of `update` for the `int`
counters `i` and `j`: `boundingBoxValues[i]`, `boundingBoxValues[j]` and, when
`boundingBoxValues[i].intersects(boundingBoxValues[j])`, also `rects[i]`, `rects[j]`,
`boundingBoxEntity[i]` and `boundingBoxEntity[j]`. -/
def pairBody (intersects : ℕ → ℕ → Bool) (i j : ℤ) : List (Vec × ℕ) :=
  [(Vec.boundingBoxValues, toSizeT i), (Vec.boundingBoxValues, toSizeT j)]
    ++ (if intersects (toSizeT i) (toSizeT j) then
      [(Vec.rects, toSizeT i), (Vec.rects, toSizeT j), (Vec.boundingBoxEntity, toSizeT i),
        (Vec.boundingBoxEntity, toSizeT j)]
    else [])

/-- The inner loop `for(int j = ...; j < boxes_count; j++)` of `update` from counter
value `j` on: the index expressions evaluated, and whether the loop has ended before
the fuel ran out.  The test converts `j` to `unsigned int`; `j++` is `int` arithmetic. -/
def innerLoop (boxes_count : ℕ) (intersects : ℕ → ℕ → Bool) (i : ℤ) :
    ℕ → ℤ → List (Vec × ℕ) × Bool
  | 0, _ => ([], false)
  | fuel + 1, j =>
    if toUnsigned j < boxes_count then
      (pairBody intersects i j ++
          (innerLoop boxes_count intersects i fuel (wrap32 (j + 1))).1,
        (innerLoop boxes_count intersects i fuel (wrap32 (j + 1))).2)
    else ([], true)

/-- The outer loop `for(int i = 0; i < boxes_count; i++)` of `update` from counter value
`i` on, the inner loop starting at `j = i+1`. -/
def outerLoop (boxes_count : ℕ) (intersects : ℕ → ℕ → Bool) (innerFuel : ℕ) :
    ℕ → ℤ → List (Vec × ℕ) × Bool
  | 0, _ => ([], false)
  | fuel + 1, i =>
    if toUnsigned i < boxes_count then
      if (innerLoop boxes_count intersects i innerFuel (wrap32 (i + 1))).2 then
        ((innerLoop boxes_count intersects i innerFuel (wrap32 (i + 1))).1 ++
            (outerLoop boxes_count intersects innerFuel fuel (wrap32 (i + 1))).1,
          (outerLoop boxes_count intersects innerFuel fuel (wrap32 (i + 1))).2)
      else ((innerLoop boxes_count intersects i innerFuel (wrap32 (i + 1))).1, false)
    else ([], true)

/-- The index expressions that one call of `update` evaluates, in program order, and
whether the call has returned before the fuel ran out.  `moved` tells whether a
direction is held (`rects[0].move(v)`), and `intersects i j` is the result of
`boundingBoxValues[i].intersects(boundingBoxValues[j])`.  The four clamping statements
use `rects[0]` only (listed once each), the five `rotate` calls use
`rects[0] .. rects[4]`, the two loops `i < 5` use `rects[i]`, `boundingBoxValues[i]` and
`boundingBoxEntity[i]`, and then comes the pair loop over the `int` counters `i`, `j`. -/
def updateIndices (boxes_count : ℕ) (moved : Bool) (intersects : ℕ → ℕ → Bool)
    (fuel : ℕ) : List (Vec × ℕ) × Bool :=
  ((if moved then [(Vec.rects, 0)] else [])
    ++ [(Vec.rects, 0), (Vec.rects, 0), (Vec.rects, 0), (Vec.rects, 0)]
    ++ [(Vec.rects, 0), (Vec.rects, 1), (Vec.rects, 2), (Vec.rects, 3), (Vec.rects, 4)]
    ++ ((List.range 5).map fun i => (Vec.rects, i))
    ++ ((List.range 5).flatMap fun i =>
      [(Vec.boundingBoxValues, i), (Vec.rects, i), (Vec.boundingBoxEntity, i),
        (Vec.boundingBoxValues, i), (Vec.boundingBoxValues, i), (Vec.boundingBoxEntity, i),
        (Vec.boundingBoxValues, i), (Vec.boundingBoxValues, i), (Vec.boundingBoxEntity, i),
        (Vec.boundingBoxEntity, i), (Vec.boundingBoxEntity, i)])
    ++ (outerLoop boxes_count intersects fuel fuel 0).1,
    (outerLoop boxes_count intersects fuel fuel 0).2)

/-- Every index expression of the list into `rects`, `boundingBoxEntity` or
`boundingBoxValues` is within the bounds of its vector. -/
def InBounds (sizes : VecSizes) (l : List (Vec × ℕ)) : Prop :=
  ∀ a ∈ l, a.1 ≠ Vec.rectSizes → a.2 < sizes.size a.1

instance (sizes : VecSizes) (l : List (Vec × ℕ)) : Decidable (InBounds sizes l) := by
  unfold InBounds
  exact inferInstance

end Defs

end Collision

/-! # Theorems -/

section CommonLemmas

variable {K : Type} [LinearOrderedField K]

theorem epsilon_pos : (0 : K) < epsilon := by
  unfold epsilon; positivity

theorem ratHypot_eq (x y d : ℚ) (hd : 0 ≤ d) (h : x * x + y * y = d * d) :
    ratHypot x y = d := by
  unfold ratHypot
  rw [h, Rat.sqrt_eq, abs_of_nonneg hd]

end CommonLemmas

namespace F32

theorem bitLenAux_spec (fuel : ℕ) : ∀ n : ℕ, n ≠ 0 → n < 2 ^ fuel →
    2 ^ (bitLenAux fuel n - 1) ≤ n ∧ n < 2 ^ bitLenAux fuel n ∧ 1 ≤ bitLenAux fuel n := by
  induction fuel with
  | zero =>
    intro n hn h
    simp at h
    exact absurd h hn
  | succ f ih =>
    intro n hn h
    unfold bitLenAux
    rw [if_neg hn]
    by_cases h2 : n / 2 = 0
    · have h1 : n = 1 := by omega
      subst h1
      cases f <;> simp [bitLenAux]
    · have hlt : n / 2 < 2 ^ f := by
        rw [pow_succ] at h
        omega
      obtain ⟨i1, i2, i3⟩ := ih (n / 2) h2 hlt
      refine ⟨?_, ?_, by omega⟩
      · simp only [Nat.add_sub_cancel]
        obtain ⟨b, hb⟩ : ∃ b, bitLenAux f (n / 2) = b + 1 := ⟨bitLenAux f (n / 2) - 1, by omega⟩
        rw [hb] at i1 ⊢
        simp only [Nat.add_sub_cancel] at i1
        rw [pow_succ]
        omega
      · rw [pow_succ]
        omega

theorem bitLen_spec (n : ℕ) (hn : n ≠ 0) (h : n < 2 ^ maxBits) :
    2 ^ (bitLen n - 1) ≤ n ∧ n < 2 ^ bitLen n ∧ 1 ≤ bitLen n :=
  bitLenAux_spec maxBits n hn h

theorem ilog2_spec (a : ℚ) (ha : 0 < a) (hn : a.num.natAbs < 2 ^ maxBits) (hd : a.den < 2 ^ maxBits) :
    (2 : ℚ) ^ ilog2 a ≤ a ∧ a < (2 : ℚ) ^ (ilog2 a + 1) := by
  have hnum : 0 < a.num := Rat.num_pos.2 ha
  have hn0 : a.num.natAbs ≠ 0 := by
    intro h
    rw [Int.natAbs_eq_zero] at h
    omega
  obtain ⟨n1, n2, n3⟩ := bitLen_spec _ hn0 hn
  obtain ⟨d1, d2, d3⟩ := bitLen_spec _ a.den_nz hd
  clear hn hd
  have hdpos : (0 : ℚ) < (a.den : ℚ) := by exact_mod_cast a.den_pos
  have ha_eq : a = (a.num.natAbs : ℚ) / (a.den : ℚ) := by
    have hz : ((a.num.natAbs : ℕ) : ℤ) = a.num := Int.natAbs_of_nonneg hnum.le
    have h1 : ((a.num.natAbs : ℕ) : ℚ) = (a.num : ℚ) := by
      rw [← Int.cast_natCast, hz]
    rw [h1]
    exact (Rat.num_div_den a).symm
  generalize hbn : bitLen a.num.natAbs = bn at *
  generalize hbd : bitLen a.den = bd at *
  generalize hN : a.num.natAbs = N at *
  generalize hD : a.den = D at *
  have q1 : ((2 : ℚ) ^ (bn - 1 : ℕ)) ≤ (N : ℚ) := by exact_mod_cast n1
  have q2 : (N : ℚ) < (2 : ℚ) ^ bn := by exact_mod_cast n2
  have q3 : ((2 : ℚ) ^ (bd - 1 : ℕ)) ≤ (D : ℚ) := by exact_mod_cast d1
  have q4 : (D : ℚ) < (2 : ℚ) ^ bd := by exact_mod_cast d2
  have two_pos : (0 : ℚ) < 2 := by norm_num
  have two_ne : (2 : ℚ) ≠ 0 := by norm_num
  -- a < 2 ^ (e0 + 1)
  have up : a < (2 : ℚ) ^ ((bn : ℤ) - (bd : ℤ) + 1) := by
    rw [ha_eq, div_lt_iff₀ hdpos]
    have e : (2 : ℚ) ^ ((bn : ℤ) - (bd : ℤ) + 1) * (2 : ℚ) ^ (bd - 1 : ℕ) = (2 : ℚ) ^ bn := by
      rw [← zpow_natCast, ← zpow_natCast, ← zpow_add₀ two_ne]
      congr 1
      push_cast [Nat.cast_sub d3]
      ring
    calc (N : ℚ) < (2 : ℚ) ^ bn := q2
      _ = (2 : ℚ) ^ ((bn : ℤ) - (bd : ℤ) + 1) * (2 : ℚ) ^ (bd - 1 : ℕ) := e.symm
      _ ≤ (2 : ℚ) ^ ((bn : ℤ) - (bd : ℤ) + 1) * (D : ℚ) :=
        mul_le_mul_of_nonneg_left q3 (zpow_pos two_pos _).le
  have lo : (2 : ℚ) ^ ((bn : ℤ) - (bd : ℤ) - 1) ≤ a := by
    rw [ha_eq, le_div_iff₀ hdpos]
    have e : (2 : ℚ) ^ ((bn : ℤ) - (bd : ℤ) - 1) * (2 : ℚ) ^ bd = (2 : ℚ) ^ (bn - 1 : ℕ) := by
      rw [← zpow_natCast, ← zpow_natCast, ← zpow_add₀ two_ne]
      congr 1
      push_cast [Nat.cast_sub n3]
      ring
    calc (2 : ℚ) ^ ((bn : ℤ) - (bd : ℤ) - 1) * (D : ℚ)
        ≤ (2 : ℚ) ^ ((bn : ℤ) - (bd : ℤ) - 1) * (2 : ℚ) ^ bd :=
          mul_le_mul_of_nonneg_left q4.le (zpow_pos two_pos _).le
      _ = (2 : ℚ) ^ (bn - 1 : ℕ) := e
      _ ≤ (N : ℚ) := q1
  unfold ilog2
  rw [hN, hD, hbn, hbd]
  dsimp only
  by_cases hc : (2 : ℚ) ^ ((bn : ℤ) - (bd : ℤ)) ≤ a
  · rw [if_pos hc]
    exact ⟨hc, up⟩
  · rw [if_neg hc]
    refine ⟨lo, ?_⟩
    rw [sub_add_cancel]
    exact not_le.mp hc

theorem round_zero : round 0 = 0 := by
  unfold round
  rw [if_pos rfl]

theorem two_pow_24_lt : (16777216 : ℕ) < 2 ^ maxBits :=
  calc (16777216 : ℕ) = 2 ^ 24 := by norm_num
    _ < 2 ^ maxBits := Nat.pow_lt_pow_right (by norm_num) (by decide)

/-- A multiple `M * 2^(-j)` with `1 ≤ M ≤ 2^24` and `j ≤ 149` is a multiple of the unit
in the last place of its binade. -/
theorem dyadic_quantum (M j : ℕ) (hM0 : 1 ≤ M) (hM : M ≤ 16777216) (hj : j ≤ 149) :
    ∃ T : ℕ, ((M : ℚ) / 2 ^ j) / 2 ^ (max (ilog2 ((M : ℚ) / 2 ^ j)) (-126) - 23) = (T : ℚ) := by
  have two_pos : (0 : ℚ) < 2 := by norm_num
  have two_ne : (2 : ℚ) ≠ 0 := by norm_num
  have one_lt : (1 : ℚ) < 2 := by norm_num
  have hapos : (0 : ℚ) < (M : ℚ) / 2 ^ j :=
    div_pos (by exact_mod_cast hM0) (pow_pos two_pos j)
  have ha_eq : (M : ℚ) / 2 ^ j = (M : ℚ) * (2 : ℚ) ^ (-(j : ℤ)) := by
    rw [zpow_neg, zpow_natCast, div_eq_mul_inv]
  -- numerator and denominator are small
  have hdiv : (M : ℚ) / 2 ^ j = Rat.divInt (M : ℤ) ((2 ^ j : ℕ) : ℤ) := by
    rw [Rat.divInt_eq_div]
    push_cast
    rfl
  have hnum : ((M : ℚ) / 2 ^ j).num.natAbs < 2 ^ maxBits := by
    have h1 : ((M : ℚ) / 2 ^ j).num ∣ (M : ℤ) := by
      rw [hdiv]
      exact Rat.num_dvd _ (by positivity)
    have h2 : ((M : ℚ) / 2 ^ j).num.natAbs ∣ M := by
      have := Int.natAbs_dvd_natAbs.2 h1
      simpa using this
    exact lt_of_le_of_lt (Nat.le_of_dvd (by omega) h2) (lt_of_le_of_lt hM two_pow_24_lt)
  have hden : ((M : ℚ) / 2 ^ j).den < 2 ^ maxBits := by
    have h1 : (((M : ℚ) / 2 ^ j).den : ℤ) ∣ ((2 ^ j : ℕ) : ℤ) := by
      rw [hdiv]
      exact Rat.den_dvd _ _
    have h2 : ((M : ℚ) / 2 ^ j).den ∣ 2 ^ j := by exact_mod_cast h1
    exact lt_of_le_of_lt (Nat.le_of_dvd (by positivity) h2)
      (Nat.pow_lt_pow_right (by norm_num) (lt_of_le_of_lt hj (by decide)))
  obtain ⟨lo, hi⟩ := ilog2_spec _ hapos hnum hden
  generalize ilog2 ((M : ℚ) / 2 ^ j) = e' at lo hi ⊢
  rw [ha_eq] at lo hi ⊢
  by_cases hU : max e' (-126) - 23 ≤ -(j : ℤ)
  · -- the quantum divides 2^(-j)
    obtain ⟨d, hd⟩ : ∃ d : ℕ, (d : ℤ) = -(j : ℤ) - (max e' (-126) - 23) :=
      ⟨(-(j : ℤ) - (max e' (-126) - 23)).toNat, Int.toNat_of_nonneg (by omega)⟩
    refine ⟨M * 2 ^ d, ?_⟩
    rw [mul_div_assoc, ← zpow_sub₀ two_ne, ← hd, zpow_natCast]
    push_cast
    rfl
  · -- the value is the top of the range: M = 2^24
    have hmax : max e' (-126) = e' := by omega
    rw [hmax] at hU ⊢
    have hMle : (M : ℚ) ≤ (2 : ℚ) ^ (24 : ℤ) := by
      have : ((2 : ℚ) ^ (24 : ℤ)) = ((16777216 : ℕ) : ℚ) := by norm_num
      rw [this]
      exact_mod_cast hM
    have h1 : (2 : ℚ) ^ e' ≤ (2 : ℚ) ^ ((24 : ℤ) + -(j : ℤ)) := by
      rw [zpow_add₀ two_ne]
      exact le_trans lo (mul_le_mul_of_nonneg_right hMle (zpow_pos two_pos _).le)
    have h2 : e' ≤ 24 + -(j : ℤ) := (zpow_le_zpow_iff_right₀ one_lt).1 h1
    have he : e' = 24 - (j : ℤ) := by omega
    subst he
    have h3 : (2 : ℚ) ^ (24 : ℤ) ≤ (M : ℚ) := by
      have : (2 : ℚ) ^ ((24 : ℤ) - (j : ℤ)) = (2 : ℚ) ^ (24 : ℤ) * (2 : ℚ) ^ (-(j : ℤ)) := by
        rw [← zpow_add₀ two_ne]
        rfl
      rw [this] at lo
      exact le_of_mul_le_mul_right lo (zpow_pos two_pos _)
    have hMeq : (M : ℚ) = (2 : ℚ) ^ (24 : ℤ) := le_antisymm hMle h3
    refine ⟨8388608, ?_⟩
    rw [hMeq, mul_div_assoc, ← zpow_sub₀ two_ne, ← zpow_add₀ two_ne]
    have : (24 : ℤ) + (-(j : ℤ) - (24 - (j : ℤ) - 23)) = 23 := by ring
    rw [this]
    norm_num

/-- Every `k / 2^j` with `|k| ≤ 2^24` and `j ≤ 149` is a binary32 value: rounding leaves
it unchanged. -/
theorem round_dyadic (k : ℤ) (j : ℕ) (hk : |k| ≤ 16777216) (hj : j ≤ 149) :
    round ((k : ℚ) / 2 ^ j) = (k : ℚ) / 2 ^ j := by
  by_cases hk0 : k = 0
  · subst hk0
    simp [round_zero]
  have hx : (k : ℚ) / 2 ^ j ≠ 0 := by
    apply div_ne_zero
    · exact_mod_cast hk0
    · positivity
  have habs : |(k : ℚ) / 2 ^ j| = ((k.natAbs : ℕ) : ℚ) / 2 ^ j := by
    rw [abs_div, abs_of_pos (by positivity : (0 : ℚ) < 2 ^ j)]
    congr 1
    rw [Nat.cast_natAbs, Int.cast_abs]
  have hM0 : 1 ≤ k.natAbs := Nat.one_le_iff_ne_zero.2 (by simpa using hk0)
  have hM : k.natAbs ≤ 16777216 := by
    have : (k.natAbs : ℤ) = |k| := Int.natCast_natAbs k
    omega
  obtain ⟨T, hT⟩ := dyadic_quantum k.natAbs j hM0 hM hj
  unfold round
  rw [if_neg hx]
  dsimp only
  rw [habs, hT]
  have hr : (T : ℚ) - ((⌊(T : ℚ)⌋ : ℤ) : ℚ) < 1 / 2 := by
    rw [Int.floor_natCast]
    simp
  rw [if_pos hr, Int.floor_natCast]
  have hT' : ((T : ℤ) : ℚ) * 2 ^ (max (ilog2 ((k.natAbs : ℚ) / 2 ^ j)) (-126) - 23)
      = (k.natAbs : ℚ) / 2 ^ j := by
    rw [Int.cast_natCast, ← hT]
    rw [div_mul_cancel₀]
    positivity
  rw [mul_assoc, hT', ← habs]
  by_cases hneg : (k : ℚ) / 2 ^ j < 0
  · rw [if_pos hneg, abs_of_neg hneg]
    ring
  · rw [if_neg hneg, abs_of_nonneg (not_lt.mp hneg)]
    ring

theorem round_int (k : ℤ) (hk : |k| ≤ 16777216) : round (k : ℚ) = (k : ℚ) := by
  have := round_dyadic k 0 hk (by norm_num)
  simpa using this

theorem round_nat (n : ℕ) (hn : n ≤ 16777216) : round (n : ℚ) = (n : ℚ) := by
  have := round_int (n : ℤ) (by rw [abs_of_nonneg (Int.natCast_nonneg n)]; exact_mod_cast hn)
  simpa using this

end F32

namespace Hw01

section Theorems

variable {K : Type} [LinearOrderedField K]

theorem collisionWith_true_iff (hypot : K → K → K) (a b : BallEntity K) :
    (collisionWith hypot a b).1 = true ↔ interpenetration_dist hypot a b > epsilon := by
  unfold collisionWith
  by_cases h : interpenetration_dist hypot a b > epsilon
  · simp [h]
  · simp [h]

theorem collisionWith_of_overlap (hypot : K → K → K) (a b : BallEntity K)
    (h : interpenetration_dist hypot a b > epsilon)
    (hma : a.material.mass > epsilon) (hmb : b.material.mass > epsilon) :
    collisionWith hypot a b =
      (true,
        { a with
          position := a.position +
            vmul (-collision_normal hypot a b) (interpenetration_dist hypot a b),
          velocity := a.velocity + vmul (collision_normal hypot a b)
            (-(((1 + a.material.elasticity) *
                dot (a.velocity - b.velocity) (collision_normal hypot a b)) /
              (1 / a.material.mass + 1 / b.material.mass)) / a.material.mass) },
        { b with
          velocity := b.velocity + vmul (collision_normal hypot a b)
            (-(((1 + b.material.elasticity) *
                dot (-(a.velocity - b.velocity)) (collision_normal hypot a b)) /
              (1 / a.material.mass + 1 / b.material.mass)) / b.material.mass) }) := by
  have ha : |a.material.mass| > epsilon := lt_of_lt_of_le hma (le_abs_self _)
  have hb : |b.material.mass| > epsilon := lt_of_lt_of_le hmb (le_abs_self _)
  simp only [collisionWith, if_pos h, if_pos ha, if_pos hb]

theorem collision_normal_eq_vmul (hypot : K → K → K) (a b : BallEntity K) (n : Vector2 K)
    (hn : vmul n (dist hypot a b) = difference_vector a b) :
    ∃ c : K, collision_normal hypot a b = vmul n c := by
  unfold collision_normal
  by_cases hd : |dist hypot a b| > epsilon
  · refine ⟨1, ?_⟩
    have hne : dist hypot a b ≠ 0 := by
      intro h0
      rw [h0, abs_zero] at hd
      exact absurd hd (not_lt.mpr epsilon_pos.le)
    rw [if_pos hd, ← hn]
    simp [vmul, vdiv, hne]
  · exact ⟨0, by simp [hd, vmul]⟩

theorem dist_ballA_ballB : dist ratHypot ballA ballB = 4 := by
  unfold dist
  exact ratHypot_eq _ _ 4 (by norm_num)
    (by norm_num [difference_vector, ballA, ballB])

theorem dist_ballA_ballC : dist ratHypot ballA ballC = 5 := by
  unfold dist
  exact ratHypot_eq _ _ 5 (by norm_num)
    (by norm_num [difference_vector, ballA, ballC])

/-- C1: when `collisionWith` returns true and both masses exceed epsilon, the
velocity change of each ball is a scalar multiple of the collision normal `n`
(any vector with `dist * n = other centre - this centre`, in particular the
unit vector from this centre to the other), and the velocity component along
`perp n` is unchanged for both balls. -/
theorem collisionWith_velocity_change_along_normal (hypot : K → K → K)
    (a b : BallEntity K) (n : Vector2 K)
    (hn : vmul n (dist hypot a b) = difference_vector a b)
    (hret : (collisionWith hypot a b).1 = true)
    (hma : a.material.mass > epsilon) (hmb : b.material.mass > epsilon) :
    (∃ k : K, (collisionWith hypot a b).2.1.velocity - a.velocity = vmul n k) ∧
    (∃ k : K, (collisionWith hypot a b).2.2.velocity - b.velocity = vmul n k) ∧
    dot (perp n) (collisionWith hypot a b).2.1.velocity = dot (perp n) a.velocity ∧
    dot (perp n) (collisionWith hypot a b).2.2.velocity = dot (perp n) b.velocity := by
  have hov := (collisionWith_true_iff hypot a b).1 hret
  obtain ⟨c, hc⟩ := collision_normal_eq_vmul hypot a b n hn
  rw [collisionWith_of_overlap hypot a b hov hma hmb, hc]
  have key : ∀ (v : Vector2 K) (k : K), v + vmul (vmul n c) k - v = vmul n (c * k) := by
    intro v k
    simp only [vmul, add_sub_cancel_left, mul_assoc]
  dsimp only
  refine ⟨⟨_, key _ _⟩, ⟨_, key _ _⟩, ?_, ?_⟩
  · simp only [dot, perp, vmul, Prod.fst_add, Prod.snd_add]
    ring
  · simp only [dot, perp, vmul, Prod.fst_add, Prod.snd_add]
    ring

theorem overlap_ballA_ballB : interpenetration_dist ratHypot ballA ballB > epsilon := by
  unfold interpenetration_dist
  rw [dist_ballA_ballB]
  norm_num [ballA, ballB, epsilon]

theorem overlap_ballA_ballC : interpenetration_dist ratHypot ballA ballC > epsilon := by
  unfold interpenetration_dist
  rw [dist_ballA_ballC]
  norm_num [ballA, ballC, epsilon]

theorem collision_normal_ballA_ballB : collision_normal ratHypot ballA ballB = (1, 0) := by
  unfold collision_normal
  rw [dist_ballA_ballB]
  norm_num [difference_vector, vdiv, ballA, ballB, epsilon]

theorem collision_normal_ballA_ballC :
    collision_normal ratHypot ballA ballC = (3 / 5, 4 / 5) := by
  unfold collision_normal
  rw [dist_ballA_ballC]
  norm_num [difference_vector, vdiv, ballA, ballC, epsilon]

theorem collisionWith_ballA_ballB :
    collisionWith ratHypot ballA ballB =
      (true, ⟨(-2, 0), ⟨1, 0, 0⟩, 3, (1 / 2, 0)⟩, ⟨(4, 0), ⟨1, 1, 0⟩, 3, (1, 0)⟩) := by
  rw [collisionWith_of_overlap ratHypot ballA ballB overlap_ballA_ballB
    (by norm_num [ballA, epsilon]) (by norm_num [ballB, epsilon])]
  rw [collision_normal_ballA_ballB]
  unfold interpenetration_dist
  rw [dist_ballA_ballB]
  norm_num [ballA, ballB, vmul, dot]

theorem collisionWith_ballA_ballC :
    collisionWith ratHypot ballA ballC =
      (true, ⟨(-3 / 5, -4 / 5), ⟨1, 0, 0⟩, 3, (19 / 25, -8 / 25)⟩,
        ⟨(3, 4), ⟨2, 0, 0⟩, 3, (3 / 25, 4 / 25)⟩) := by
  rw [collisionWith_of_overlap ratHypot ballA ballC overlap_ballA_ballC
    (by norm_num [ballA, epsilon]) (by norm_num [ballC, epsilon])]
  rw [collision_normal_ballA_ballC]
  unfold interpenetration_dist
  rw [dist_ballA_ballC]
  norm_num [ballA, ballC, vmul, dot]

/-- Witness of C1: balls `ballA` and `ballC` overlap, the normal is
`(3/5, 4/5)`, and the theorem applies. -/
theorem collisionWith_velocity_change_along_normal_witness :
    (collisionWith ratHypot ballA ballC).1 = true ∧
    (∃ k : ℚ, (collisionWith ratHypot ballA ballC).2.1.velocity - ballA.velocity
      = vmul (3 / 5, 4 / 5) k) ∧
    (∃ k : ℚ, (collisionWith ratHypot ballA ballC).2.2.velocity - ballC.velocity
      = vmul (3 / 5, 4 / 5) k) ∧
    dot (perp (3 / 5, 4 / 5)) (collisionWith ratHypot ballA ballC).2.1.velocity
      = dot (perp (3 / 5, 4 / 5)) ballA.velocity ∧
    dot (perp (3 / 5, 4 / 5)) (collisionWith ratHypot ballA ballC).2.2.velocity
      = dot (perp (3 / 5, 4 / 5)) ballC.velocity :=
  ⟨by rw [collisionWith_ballA_ballC],
    collisionWith_velocity_change_along_normal ratHypot ballA ballC (3 / 5, 4 / 5)
      (by rw [dist_ballA_ballC]; norm_num [vmul, difference_vector, ballA, ballC])
      (by rw [collisionWith_ballA_ballC])
      (by norm_num [ballA, epsilon]) (by norm_num [ballC, epsilon])⟩

/-- C2, counterexample: `ballA` (elasticity 0) and `ballB` (elasticity 1) overlap and
both have mass 1 > epsilon, yet the total momentum is `(1, 0)` before the call
and `(3/2, 0)` after it: the two impulses are `-1/2` and `1` along the normal. -/
theorem collisionWith_momentum_counterexample :
    (collisionWith ratHypot ballA ballB).1 = true ∧
    ballA.material.mass > epsilon ∧ ballB.material.mass > epsilon ∧
    momentum ballA ballB = (1, 0) ∧
    momentum (collisionWith ratHypot ballA ballB).2.1 (collisionWith ratHypot ballA ballB).2.2
      = (3 / 2, 0) ∧
    momentum (collisionWith ratHypot ballA ballB).2.1 (collisionWith ratHypot ballA ballB).2.2
      ≠ momentum ballA ballB := by
  rw [collisionWith_ballA_ballB]
  norm_num [momentum, vmul, ballA, ballB, epsilon]

/-- C2, amended: for overlapping balls with masses above epsilon and the same
elasticity, the momentum change of this ball is the opposite of the momentum
change of the other ball, so the total momentum is the same after the call as
before it. -/
theorem collisionWith_momentum_same_elasticity (hypot : K → K → K)
    (a b : BallEntity K)
    (hret : (collisionWith hypot a b).1 = true)
    (hma : a.material.mass > epsilon) (hmb : b.material.mass > epsilon)
    (he : a.material.elasticity = b.material.elasticity) :
    vmul ((collisionWith hypot a b).2.1.velocity - a.velocity) a.material.mass
      = -vmul ((collisionWith hypot a b).2.2.velocity - b.velocity) b.material.mass ∧
    momentum (collisionWith hypot a b).2.1 (collisionWith hypot a b).2.2 = momentum a b := by
  have hov := (collisionWith_true_iff hypot a b).1 hret
  have ha : a.material.mass ≠ 0 := (lt_trans epsilon_pos hma).ne.symm
  have hb : b.material.mass ≠ 0 := (lt_trans epsilon_pos hmb).ne.symm
  have hab : a.material.mass + b.material.mass ≠ 0 :=
    (add_pos (lt_trans epsilon_pos hma) (lt_trans epsilon_pos hmb)).ne.symm
  have hba : b.material.mass + a.material.mass ≠ 0 := by rwa [add_comm]
  rw [collisionWith_of_overlap hypot a b hov hma hmb]
  dsimp only [momentum]
  rw [he]
  generalize collision_normal hypot a b = n
  generalize a.material.mass = m₁ at *
  generalize b.material.mass = m₂ at *
  generalize b.material.elasticity = e
  obtain ⟨n₁, n₂⟩ := n
  constructor
  · ext
    · simp only [vmul, dot, Prod.fst_add, Prod.fst_sub, Prod.snd_sub, Prod.fst_neg, Prod.snd_neg,
        add_sub_cancel_left]
      field_simp
      ring
    · simp only [vmul, dot, Prod.snd_add, Prod.fst_sub, Prod.snd_sub, Prod.fst_neg, Prod.snd_neg,
        add_sub_cancel_left]
      field_simp
      ring
  · ext
    · simp only [vmul, dot, Prod.fst_add, Prod.fst_sub, Prod.snd_sub, Prod.fst_neg, Prod.snd_neg]
      field_simp
      ring
    · simp only [vmul, dot, Prod.snd_add, Prod.fst_sub, Prod.snd_sub, Prod.fst_neg, Prod.snd_neg]
      field_simp
      ring

/-- Witness of C2 (amended): `ballA` and `ballC` overlap and both have elasticity 0. -/
theorem collisionWith_momentum_same_elasticity_witness :
    (collisionWith ratHypot ballA ballC).1 = true ∧
    ballA.material.elasticity = ballC.material.elasticity ∧
    momentum (collisionWith ratHypot ballA ballC).2.1 (collisionWith ratHypot ballA ballC).2.2
      = momentum ballA ballC :=
  ⟨by rw [collisionWith_ballA_ballC], rfl,
    (collisionWith_momentum_same_elasticity ratHypot ballA ballC
      (by rw [collisionWith_ballA_ballC])
      (by norm_num [ballA, epsilon]) (by norm_num [ballC, epsilon]) rfl).2⟩

theorem collisionWith_positions (hypot : K → K → K) (a b : BallEntity K)
    (h : interpenetration_dist hypot a b > epsilon) :
    (collisionWith hypot a b).2.1.position =
      a.position + vmul (-collision_normal hypot a b) (interpenetration_dist hypot a b) ∧
    (collisionWith hypot a b).2.1.radius = a.radius ∧
    (collisionWith hypot a b).2.2.position = b.position ∧
    (collisionWith hypot a b).2.2.radius = b.radius := by
  simp only [collisionWith, if_pos h, and_self]

theorem collision_normal_of_dist (hypot : K → K → K) (a b : BallEntity K)
    (hd : dist hypot a b > epsilon) :
    collision_normal hypot a b = vdiv (difference_vector a b) (dist hypot a b) := by
  have hd' : |dist hypot a b| > epsilon := lt_of_lt_of_le hd (le_abs_self _)
  simp only [collision_normal, if_pos hd']

theorem collision_normal_unit (hypot : K → K → K) (a b : BallEntity K)
    (hd : dist hypot a b > epsilon)
    (hh : IsHypot hypot (difference_vector a b).1 (difference_vector a b).2) :
    dot (collision_normal hypot a b) (collision_normal hypot a b) = 1 := by
  have hne : dist hypot a b ≠ 0 := (lt_trans epsilon_pos hd).ne.symm
  have h2 : dist hypot a b * dist hypot a b =
      (difference_vector a b).1 * (difference_vector a b).1 +
      (difference_vector a b).2 * (difference_vector a b).2 := hh.2
  rw [collision_normal_of_dist hypot a b hd]
  simp only [dot, vdiv]
  field_simp
  linear_combination -h2

/-- C3, amended: in exact arithmetic, when the centre distance and the interpenetration
depth both exceed epsilon, `collisionWith` moves only this ball, by the interpenetration
depth against the collision normal; afterwards the centre distance is exactly the sum of
the radii, so the interpenetration depth that a second call would compute is zero.
(Nothing is said about the value returned by a second call of the binary32 program,
where rounding of the collision normal can leave an interpenetration above epsilon.) -/
theorem collisionWith_makes_touching (hypot : K → K → K) (a b : BallEntity K)
    (hd : dist hypot a b > epsilon)
    (hi : interpenetration_dist hypot a b > epsilon)
    (hh : IsHypot hypot (difference_vector a b).1 (difference_vector a b).2)
    (hh' : IsHypot hypot
      (difference_vector (collisionWith hypot a b).2.1 (collisionWith hypot a b).2.2).1
      (difference_vector (collisionWith hypot a b).2.1 (collisionWith hypot a b).2.2).2) :
    dist hypot (collisionWith hypot a b).2.1 (collisionWith hypot a b).2.2
      = a.radius + b.radius ∧
    (collisionWith hypot a b).2.2.position = b.position ∧
    (collisionWith hypot a b).2.1.position = a.position -
      vmul (collision_normal hypot a b) (interpenetration_dist hypot a b) ∧
    interpenetration_dist hypot (collisionWith hypot a b).2.1 (collisionWith hypot a b).2.2
      = 0 := by
  obtain ⟨hpa, hra, hpb, hrb⟩ := collisionWith_positions hypot a b hi
  have hdpos : 0 < dist hypot a b := lt_trans epsilon_pos hd
  have hne : dist hypot a b ≠ 0 := hdpos.ne.symm
  have hR : 0 < a.radius + b.radius := by
    have : interpenetration_dist hypot a b = a.radius + b.radius - dist hypot a b := rfl
    have h0 := epsilon_pos (K := K)
    linarith
  have h2 : dist hypot a b * dist hypot a b =
      (difference_vector a b).1 * (difference_vector a b).1 +
      (difference_vector a b).2 * (difference_vector a b).2 := hh.2
  have hdist : dist hypot (collisionWith hypot a b).2.1 (collisionWith hypot a b).2.2
      = a.radius + b.radius := by
    have hsq := hh'.2
    have hnn := hh'.1
    have hdv : difference_vector (collisionWith hypot a b).2.1 (collisionWith hypot a b).2.2
        = vmul (difference_vector a b) ((a.radius + b.radius) / dist hypot a b) := by
      unfold difference_vector
      rw [hpa, hpb, collision_normal_of_dist hypot a b hd]
      unfold interpenetration_dist
      ext
      · simp only [vmul, vdiv, difference_vector, Prod.fst_sub, Prod.fst_add, Prod.fst_neg]
        field_simp
        ring
      · simp only [vmul, vdiv, difference_vector, Prod.snd_sub, Prod.snd_add, Prod.snd_neg]
        field_simp
        ring
    have hsq' : dist hypot (collisionWith hypot a b).2.1 (collisionWith hypot a b).2.2 *
        dist hypot (collisionWith hypot a b).2.1 (collisionWith hypot a b).2.2
        = (a.radius + b.radius) * (a.radius + b.radius) := by
      unfold dist
      rw [hsq, hdv]
      simp only [vmul]
      field_simp
      rw [h2]
      ring
    exact (mul_self_eq_mul_self_iff.mp hsq').resolve_right (by
      intro hneg
      have : 0 ≤ dist hypot (collisionWith hypot a b).2.1 (collisionWith hypot a b).2.2 := hnn
      linarith)
  refine ⟨hdist, hpb, ?_, ?_⟩
  · rw [hpa]
    ext <;> simp [vmul, sub_eq_add_neg]
  · unfold interpenetration_dist
    rw [hdist, hra, hrb, sub_self]

/-- C5: for an overlapping pair with centre distance above epsilon and both
masses above epsilon, the relative velocity along the collision normal after
`collisionWith` is `-e` times its value before, with
`e = (elasticity_this*m_other + elasticity_other*m_this)/(m_this + m_other)`;
when both elasticities are equal it is `-elasticity` times the old value. -/
theorem collisionWith_restitution (hypot : K → K → K) (a b : BallEntity K)
    (hd : dist hypot a b > epsilon)
    (hi : interpenetration_dist hypot a b > epsilon)
    (hma : a.material.mass > epsilon) (hmb : b.material.mass > epsilon)
    (hh : IsHypot hypot (difference_vector a b).1 (difference_vector a b).2) :
    dot ((collisionWith hypot a b).2.1.velocity - (collisionWith hypot a b).2.2.velocity)
        (collision_normal hypot a b)
      = -((a.material.elasticity * b.material.mass + b.material.elasticity * a.material.mass)
            / (a.material.mass + b.material.mass))
          * dot (a.velocity - b.velocity) (collision_normal hypot a b) ∧
    (a.material.elasticity = b.material.elasticity →
      dot ((collisionWith hypot a b).2.1.velocity - (collisionWith hypot a b).2.2.velocity)
          (collision_normal hypot a b)
        = -a.material.elasticity * dot (a.velocity - b.velocity) (collision_normal hypot a b)) := by
  have ha : a.material.mass ≠ 0 := (lt_trans epsilon_pos hma).ne.symm
  have hb : b.material.mass ≠ 0 := (lt_trans epsilon_pos hmb).ne.symm
  have hab : a.material.mass + b.material.mass ≠ 0 :=
    (add_pos (lt_trans epsilon_pos hma) (lt_trans epsilon_pos hmb)).ne.symm
  have hba : b.material.mass + a.material.mass ≠ 0 := by rwa [add_comm]
  have hunit := collision_normal_unit hypot a b hd hh
  have main : dot ((collisionWith hypot a b).2.1.velocity -
        (collisionWith hypot a b).2.2.velocity) (collision_normal hypot a b)
      = -((a.material.elasticity * b.material.mass + b.material.elasticity * a.material.mass)
            / (a.material.mass + b.material.mass))
          * dot (a.velocity - b.velocity) (collision_normal hypot a b) := by
    rw [collisionWith_of_overlap hypot a b hi hma hmb]
    dsimp only
    have hsplit : ∀ (v w n : Vector2 K) (k l : K),
        dot (v + vmul n k - (w + vmul n l)) n = dot (v - w) n + (k - l) * dot n n := by
      intro v w n k l
      simp only [dot, vmul, Prod.fst_add, Prod.snd_add, Prod.fst_sub, Prod.snd_sub]
      ring
    have hneg : ∀ (v n : Vector2 K), dot (-v) n = -dot v n := by
      intro v n
      simp only [dot, Prod.fst_neg, Prod.snd_neg]
      ring
    rw [hsplit, hneg, hunit]
    generalize dot (a.velocity - b.velocity) (collision_normal hypot a b) = u
    field_simp
    ring
  refine ⟨main, fun he => ?_⟩
  rw [main, he]
  congr 1
  field_simp
  ring

theorem isHypot_ratHypot (x y d : ℚ) (hd : 0 ≤ d) (h : x * x + y * y = d * d) :
    IsHypot ratHypot x y := by
  unfold IsHypot
  rw [ratHypot_eq x y d hd h]
  exact ⟨hd, h.symm⟩

/-- Witness of C3 (amended): `ballA` and `ballC` are 5 apart with radii 3 and 3; after
the call they are 6 apart and the interpenetration depth is 0. -/
theorem collisionWith_makes_touching_witness :
    dist ratHypot ballA ballC > epsilon ∧
    interpenetration_dist ratHypot ballA ballC > epsilon ∧
    dist ratHypot (collisionWith ratHypot ballA ballC).2.1
      (collisionWith ratHypot ballA ballC).2.2 = ballA.radius + ballC.radius ∧
    interpenetration_dist ratHypot (collisionWith ratHypot ballA ballC).2.1
      (collisionWith ratHypot ballA ballC).2.2 = 0 :=
  have h := collisionWith_makes_touching ratHypot ballA ballC
    (by rw [dist_ballA_ballC]; norm_num [epsilon])
    overlap_ballA_ballC
    (isHypot_ratHypot _ _ 5 (by norm_num) (by norm_num [difference_vector, ballA, ballC]))
    (by
      rw [collisionWith_ballA_ballC]
      exact isHypot_ratHypot _ _ 6 (by norm_num) (by norm_num [difference_vector]))
  ⟨by rw [dist_ballA_ballC]; norm_num [epsilon], overlap_ballA_ballC, h.1, h.2.2.2⟩

/-- C3, counterexample: in binary32 the second call returns true.  The user ball at
`(750, 870)` and an enemy ball at `(774, 877)` (default masses, elasticities and radii
30, both at rest) have centre distance `dist = 25 > epsilon` and interpenetration
`60 - 25 = 35 > epsilon`, all exact in binary32, and the call returns true.  It moves the
user ball by `-collision_normal * 35`, where the normal `(24/25, 7/25)` is rounded; the
new centre distance rounds to `15728633 / 262144 = 59.99997...`, which leaves an
interpenetration of `7 / 262144`, about `2.67e-5 > epsilon`: an immediate second call
returns true again. -/
theorem collisionWith_makes_touching_counterexample :
    distF32 ballUser ballEnemy = 25 ∧
    distF32 ballUser ballEnemy > F32.epsilon ∧
    interpenetration_distF32 ballUser ballEnemy = 35 ∧
    interpenetration_distF32 ballUser ballEnemy > F32.epsilon ∧
    (collisionWithF32 ballUser ballEnemy).1 = true ∧
    (collisionWithF32 ballUser ballEnemy).2.2.position = ballEnemy.position ∧
    distF32 (collisionWithF32 ballUser ballEnemy).2.1 (collisionWithF32 ballUser ballEnemy).2.2
      = 15728633 / 262144 ∧
    distF32 (collisionWithF32 ballUser ballEnemy).2.1 (collisionWithF32 ballUser ballEnemy).2.2
      ≠ ballUser.radius + ballEnemy.radius ∧
    interpenetration_distF32 (collisionWithF32 ballUser ballEnemy).2.1
      (collisionWithF32 ballUser ballEnemy).2.2 = 7 / 262144 ∧
    (collisionWithF32 (collisionWithF32 ballUser ballEnemy).2.1
      (collisionWithF32 ballUser ballEnemy).2.2).1 = true := by
  refine ⟨?_, ?_, ?_, ?_, ?_, ?_, ?_, ?_, ?_, ?_⟩
  · decide!
  · decide!
  · decide!
  · decide!
  · decide!
  · decide!
  · decide!
  · decide!
  · decide!
  · decide!

/-- Witness of C5: `ballA` (elasticity 0) and `ballB` (elasticity 1), both of mass
1: the relative normal velocity goes from `1` to `-1/2`. -/
theorem collisionWith_restitution_witness :
    dist ratHypot ballA ballB > epsilon ∧
    interpenetration_dist ratHypot ballA ballB > epsilon ∧
    dot (ballA.velocity - ballB.velocity) (collision_normal ratHypot ballA ballB) = 1 ∧
    dot ((collisionWith ratHypot ballA ballB).2.1.velocity -
        (collisionWith ratHypot ballA ballB).2.2.velocity)
        (collision_normal ratHypot ballA ballB)
      = -((ballA.material.elasticity * ballB.material.mass +
            ballB.material.elasticity * ballA.material.mass)
            / (ballA.material.mass + ballB.material.mass))
          * dot (ballA.velocity - ballB.velocity) (collision_normal ratHypot ballA ballB) :=
  ⟨by rw [dist_ballA_ballB]; norm_num [epsilon], overlap_ballA_ballB,
    by rw [collision_normal_ballA_ballB]; norm_num [dot, ballA, ballB],
    (collisionWith_restitution ratHypot ballA ballB
      (by rw [dist_ballA_ballB]; norm_num [epsilon])
      overlap_ballA_ballB
      (by norm_num [ballA, epsilon]) (by norm_num [ballB, epsilon])
      (isHypot_ratHypot _ _ 4 (by norm_num)
        (by norm_num [difference_vector, ballA, ballB]))).1⟩

/-- C10: when the settings file cannot be opened, `initializeSettings` leaves the
user ball with mass 1000, elasticity 0, friction 0.05 and radius 30, creates exactly 8
other balls, each with mass 500, elasticity 0.5, friction 0.05 and radius 30, and
keeps the 1500 by 900 window and force 10000. -/
theorem initializeSettings_defaults :
    (initializeSettings none (initialGlobals : Globals K)).userBallEntity.material
      = ⟨1000, 0, 1 / 20⟩ ∧
    (initializeSettings none (initialGlobals : Globals K)).userBallEntity.radius = 30 ∧
    (initializeSettings none (initialGlobals : Globals K)).otherBallEntities.length = 8 ∧
    (∀ b ∈ (initializeSettings none (initialGlobals : Globals K)).otherBallEntities,
      b.material = ⟨500, 1 / 2, 1 / 20⟩ ∧ b.radius = 30) ∧
    (initializeSettings none (initialGlobals : Globals K)).window_w = 1500 ∧
    (initializeSettings none (initialGlobals : Globals K)).window_h = 900 ∧
    (initializeSettings none (initialGlobals : Globals K)).force = 10000 := by
  refine ⟨rfl, rfl, ?_, ?_, rfl, rfl, rfl⟩
  · simp [initializeSettings, readFromAvailableText, initialGlobals]
  · intro b hb
    simp only [initializeSettings, readFromAvailableText, initialGlobals, List.mem_map] at hb
    obtain ⟨i, _, rfl⟩ := hb
    exact ⟨rfl, rfl⟩

/-- C18: for a ball of radius `r ≥ 0` and bounds with `x_bound ≥ 2r` and
`y_bound ≥ 2r`, after `wallBounce` the centre satisfies `r ≤ x ≤ x_bound - r` and
`r ≤ y ≤ y_bound - r`, whatever the position was before. -/
theorem wallBounce_inside (b : BallEntity K) (x_bound y_bound : K)
    (_hr : 0 ≤ b.radius) (hx : 2 * b.radius ≤ x_bound) (hy : 2 * b.radius ≤ y_bound) :
    b.radius ≤ (wallBounce b x_bound y_bound).position.1 ∧
    (wallBounce b x_bound y_bound).position.1 ≤ x_bound - b.radius ∧
    b.radius ≤ (wallBounce b x_bound y_bound).position.2 ∧
    (wallBounce b x_bound y_bound).position.2 ≤ y_bound - b.radius := by
  simp only [wallBounce]
  split_ifs <;> dsimp only at * <;> refine ⟨?_, ?_, ?_, ?_⟩ <;> linarith

/-- Witness of C18: `ballOut` at `(-5, -7)` with radius 3 is put at `(3, 3)` in a
`100 × 100` window. -/
theorem wallBounce_inside_witness :
    (wallBounce ballOut 100 100).position = (3, 3) ∧
    ballOut.radius ≤ (wallBounce ballOut 100 100).position.1 ∧
    (wallBounce ballOut 100 100).position.1 ≤ 100 - ballOut.radius ∧
    ballOut.radius ≤ (wallBounce ballOut 100 100).position.2 ∧
    (wallBounce ballOut 100 100).position.2 ≤ 100 - ballOut.radius :=
  ⟨by norm_num [wallBounce, ballOut],
    wallBounce_inside ballOut 100 100 (by norm_num [ballOut]) (by norm_num [ballOut])
      (by norm_num [ballOut])⟩

theorem fixedStepLoop_aux (D : ℤ) (hD : 0 < D) (fuel : ℕ) :
    ∀ (T : ℤ) (calls : List ℤ), 0 ≤ T → (T / D).toNat < fuel →
      fixedStepLoop D fuel T calls
        = some (T % D, calls ++ List.replicate (T / D).toNat D) := by
  induction fuel with
  | zero => intro T calls _ h; exact absurd h (Nat.not_lt_zero _)
  | succ fuel ih =>
    intro T calls hT hfuel
    unfold fixedStepLoop
    by_cases hge : T ≥ D
    · rw [if_pos hge]
      have hq : (T - D) / D = T / D - 1 := by
        have h := Int.add_mul_ediv_right T (-1) hD.ne.symm
        rw [neg_one_mul, ← sub_eq_add_neg] at h
        rw [h]
        rfl
      have hr : (T - D) % D = T % D := by
        have h := @Int.add_mul_emod_self T (-1) D
        rw [neg_one_mul, ← sub_eq_add_neg] at h
        exact h
      have hq1 : 1 ≤ T / D := by
        have := Int.ediv_le_ediv hD hge
        rwa [Int.ediv_self hD.ne.symm] at this
      have hnat : (T / D).toNat = (T / D - 1).toNat + 1 := by omega
      rw [ih (T - D) (calls ++ [D]) (by omega) (by rw [hq]; omega), hq, hr, hnat,
        List.replicate_succ, List.append_assoc]
      rfl
    · rw [if_neg hge]
      have hlt : T < D := not_le.mp hge
      rw [Int.ediv_eq_zero_of_lt hT hlt, Int.emod_eq_of_lt hT hlt]
      simp

/-- C12: for accumulated time `T ≥ 0` and fixed step `D > 0` (integer microseconds),
the inner loop of `main` ends (any fuel above `T / D` is enough) after calling
`update` exactly `T / D` times, each time with `elapsed = D`, and leaves
`timeSinceLastUpdate = T mod D` with `0 ≤ T mod D < D`. -/
theorem fixedStepLoop_spec (D T : ℤ) (hT : 0 ≤ T) (hD : 0 < D) (fuel : ℕ)
    (hfuel : (T / D).toNat < fuel) :
    fixedStepLoop D fuel T [] = some (T % D, List.replicate (T / D).toNat D) ∧
    0 ≤ T % D ∧ T % D < D := by
  refine ⟨?_, Int.emod_nonneg T hD.ne.symm, Int.emod_lt_of_pos T hD⟩
  rw [fixedStepLoop_aux D hD fuel T [] hT hfuel]
  rfl

/-- Witness of C12: with the step of hw01, `6944` microseconds (1/144 s), and
`20000` microseconds accumulated, `update` is called twice and `6112` microseconds
remain. -/
theorem fixedStepLoop_spec_witness :
    fixedStepLoop 6944 3 20000 [] = some (6112, [6944, 6944]) :=
  (fixedStepLoop_spec 6944 20000 (by decide) (by decide) 3 (by decide)).1

end Theorems

end Hw01


namespace Hw022

section Theorems

variable {K : Type} [LinearOrderedField K]

/-- The world-space vertex `j` of a shape, for given `cos` and `sin`. -/
theorem projection_eq (naxis : Vector2 K) (a : ConvexShape K) (c s : K) (j : ℕ) :
    projection naxis a c s j = dot naxis (vectorRotate (getPoint a j) c s + a.position) := rfl

theorem minmax_foldl_bounds (g : ℕ → K) (l : List ℕ) (m : K × K) :
    (l.foldl (fun (m : K × K) j => (min m.1 (g j), max m.2 (g j))) m).1 ≤ m.1 ∧
    m.2 ≤ (l.foldl (fun (m : K × K) j => (min m.1 (g j), max m.2 (g j))) m).2 ∧
    ∀ j ∈ l, (l.foldl (fun (m : K × K) j => (min m.1 (g j), max m.2 (g j))) m).1 ≤ g j ∧
      g j ≤ (l.foldl (fun (m : K × K) j => (min m.1 (g j), max m.2 (g j))) m).2 := by
  induction l generalizing m with
  | nil => simp
  | cons x xs ih =>
    simp only [List.foldl_cons, List.mem_cons, forall_eq_or_imp]
    obtain ⟨h1, h2, h3⟩ := ih (min m.1 (g x), max m.2 (g x))
    refine ⟨le_trans h1 (min_le_left _ _), le_trans (le_max_left _ _) h2, ⟨?_, ?_⟩, h3⟩
    · exact le_trans h1 (min_le_right _ _)
    · exact le_trans (le_max_right _ _) h2

theorem minmax_foldl_attained (g : ℕ → K) (l : List ℕ) (m : K × K) :
    ((l.foldl (fun (m : K × K) j => (min m.1 (g j), max m.2 (g j))) m).1 = m.1 ∨
      ∃ j ∈ l, (l.foldl (fun (m : K × K) j => (min m.1 (g j), max m.2 (g j))) m).1 = g j) ∧
    ((l.foldl (fun (m : K × K) j => (min m.1 (g j), max m.2 (g j))) m).2 = m.2 ∨
      ∃ j ∈ l, (l.foldl (fun (m : K × K) j => (min m.1 (g j), max m.2 (g j))) m).2 = g j) := by
  induction l generalizing m with
  | nil => simp
  | cons x xs ih =>
    simp only [List.foldl_cons, List.mem_cons, exists_eq_or_imp]
    obtain ⟨h1, h2⟩ := ih (min m.1 (g x), max m.2 (g x))
    constructor
    · rcases h1 with h | ⟨j, hj, h⟩
      · rw [h]
        rcases min_choice m.1 (g x) with h' | h'
        · exact Or.inl h'
        · exact Or.inr (Or.inl h')
      · exact Or.inr (Or.inr ⟨j, hj, h⟩)
    · rcases h2 with h | ⟨j, hj, h⟩
      · rw [h]
        rcases max_choice m.2 (g x) with h' | h'
        · exact Or.inl h'
        · exact Or.inr (Or.inl h')
      · exact Or.inr (Or.inr ⟨j, hj, h⟩)

theorem mem_range'_one (n j : ℕ) : j ∈ List.range' 1 (n - 1) ↔ 1 ≤ j ∧ j < n := by
  rw [List.mem_range'_1]
  omega

/-- Every projection of a point of the shape lies between the computed `min` and `max`. -/
theorem project_bounds (naxis : Vector2 K) (a : ConvexShape K) (c s : K) (j : ℕ)
    (hj : j < getPointCount a) :
    (project naxis a c s).1 ≤ projection naxis a c s j ∧
    projection naxis a c s j ≤ (project naxis a c s).2 := by
  obtain ⟨h1, h2, h3⟩ := minmax_foldl_bounds (projection naxis a c s)
    (List.range' 1 (getPointCount a - 1))
    (projection naxis a c s 0, projection naxis a c s 0)
  rcases Nat.eq_zero_or_pos j with h0 | hpos
  · subst h0
    exact ⟨h1, h2⟩
  · exact h3 j ((mem_range'_one _ _).2 ⟨hpos, hj⟩)

/-- The computed `min` and `max` are projections of points of the shape. -/
theorem project_attained (naxis : Vector2 K) (a : ConvexShape K) (c s : K)
    (hn : 0 < getPointCount a) :
    (∃ j, j < getPointCount a ∧ (project naxis a c s).1 = projection naxis a c s j) ∧
    (∃ j, j < getPointCount a ∧ (project naxis a c s).2 = projection naxis a c s j) := by
  obtain ⟨h1, h2⟩ := minmax_foldl_attained (projection naxis a c s)
    (List.range' 1 (getPointCount a - 1))
    (projection naxis a c s 0, projection naxis a c s 0)
  constructor
  · rcases h1 with h | ⟨j, hj, h⟩
    · exact ⟨0, hn, h⟩
    · exact ⟨j, ((mem_range'_one _ _).1 hj).2, h⟩
  · rcases h2 with h | ⟨j, hj, h⟩
    · exact ⟨0, hn, h⟩
    · exact ⟨j, ((mem_range'_one _ _).1 hj).2, h⟩

/-- The separation test compares the two projection intervals. -/
theorem separatedOn_iff (naxis : Vector2 K) (a b : ConvexShape K) (ca sa cb sb : K) :
    separatedOn naxis a b ca sa cb sb ↔
      (project naxis a ca sa).2 < (project naxis b cb sb).1 ∨
      (project naxis b cb sb).2 < (project naxis a ca sa).1 := by
  unfold separatedOn
  simp only [gt_iff_lt, lt_abs]
  constructor
  · rintro (h | h)
    · left; linarith
    · right; linarith
  · rintro (h | h)
    · left; linarith
    · right; linarith

theorem satLoop_eq_false_iff (a b : ConvexShape K) (ca sa cb sb : K) (axes : List (Vector2 K)) :
    satLoop a b ca sa cb sb axes = false ↔
      ∃ naxis ∈ axes, separatedOn naxis a b ca sa cb sb := by
  induction axes with
  | nil => simp [satLoop]
  | cons x xs ih =>
    unfold satLoop
    by_cases h : separatedOn x a b ca sa cb sb
    · simp [h]
    · simp [h, ih]

theorem dot_isLinearMap (n : Vector2 K) : IsLinearMap K (fun p : Vector2 K => dot n p) := by
  constructor
  · intro x y
    simp only [dot, Prod.fst_add, Prod.snd_add]
    ring
  · intro c x
    simp only [dot, Prod.smul_fst, Prod.smul_snd, smul_eq_mul]
    ring

theorem getPoint_mem (a : ConvexShape K) (j : ℕ) (hj : j < getPointCount a) :
    getPoint a j ∈ a.points := by
  unfold getPoint
  unfold getPointCount at hj
  rw [List.getD_eq_getElem _ _ hj]
  exact List.getElem_mem hj

theorem exists_getPoint_of_mem (a : ConvexShape K) (p : Vector2 K) (hp : p ∈ a.points) :
    ∃ j, j < getPointCount a ∧ getPoint a j = p := by
  obtain ⟨j, hj, rfl⟩ := List.getElem_of_mem hp
  exact ⟨j, hj, by unfold getPoint; rw [List.getD_eq_getElem _ _ hj]⟩

theorem mem_worldVertices (T : Trig K) (a : ConvexShape K) (p : Vector2 K) :
    p ∈ worldVertices T a ↔ ∃ j, j < getPointCount a ∧
      p = vectorRotate (getPoint a j) (T.cos (a.rotation * T.deg_to_rad))
        (T.sin (a.rotation * T.deg_to_rad)) + a.position := by
  unfold worldVertices
  rw [List.mem_map]
  constructor
  · rintro ⟨q, hq, rfl⟩
    obtain ⟨j, hj, rfl⟩ := exists_getPoint_of_mem a q hq
    exact ⟨j, hj, rfl⟩
  · rintro ⟨j, hj, rfl⟩
    exact ⟨getPoint a j, getPoint_mem a j hj, rfl⟩

/-- Every point of the convex hull of the world vertices projects into the
computed interval. -/
theorem hull_projection_bounds (T : Trig K) (a : ConvexShape K) (naxis : Vector2 K) :
    convexHull K {p | p ∈ worldVertices T a} ⊆
      {p | (project naxis a (T.cos (a.rotation * T.deg_to_rad))
              (T.sin (a.rotation * T.deg_to_rad))).1 ≤ dot naxis p} ∩
      {p | dot naxis p ≤ (project naxis a (T.cos (a.rotation * T.deg_to_rad))
              (T.sin (a.rotation * T.deg_to_rad))).2} := by
  apply convexHull_min
  · intro p hp
    obtain ⟨j, hj, rfl⟩ := (mem_worldVertices T a p).1 hp
    exact project_bounds naxis a _ _ j hj
  · exact (convex_halfSpace_ge (dot_isLinearMap naxis) _).inter
      (convex_halfSpace_le (dot_isLinearMap naxis) _)

/-- A separating axis found by `SAT` separates the two convex hulls. -/
theorem disjoint_of_SAT_false (T : Trig K) (a b : ConvexShape K)
    (h : SAT T a b = false) :
    Disjoint (convexHull K {p | p ∈ worldVertices T a})
      (convexHull K {p | p ∈ worldVertices T b}) := by
  unfold SAT at h
  obtain ⟨naxis, -, hsep⟩ := (satLoop_eq_false_iff a b _ _ _ _ _).1 h
  rw [separatedOn_iff] at hsep
  rw [Set.disjoint_left]
  intro p hpa hpb
  have ha := hull_projection_bounds T a naxis hpa
  have hb := hull_projection_bounds T b naxis hpb
  simp only [Set.mem_inter_iff, Set.mem_setOf_eq] at ha hb
  rcases hsep with hs | hs
  · linarith [ha.2, hb.1]
  · linarith [ha.1, hb.2]

theorem SAT_triangleA_triangleB : SAT quarterTrig triangleA triangleB = false := by
  simp [SAT, satLoop, separatedOn, project, projection, axesOf, getPoint, getPointCount,
    vectorRotate, perp, dot, quarterTrig, triangleA, triangleB, List.range_succ, List.range']
  norm_num

/-! ### The float test on the pixel grid -/

theorem isPixel_iff (B : ℕ) (x : ℚ) : IsPixel B x ↔ ∃ k : ℤ, x = k ∧ |k| ≤ (B : ℤ) := by
  constructor
  · rintro ⟨hd, hb⟩
    have hx : ((x.num : ℤ) : ℚ) = x := Rat.coe_int_num_of_den_eq_one hd
    refine ⟨x.num, hx.symm, ?_⟩
    rw [← hx] at hb
    exact_mod_cast hb
  · rintro ⟨k, rfl, hk⟩
    refine ⟨Rat.intCast_den k, ?_⟩
    exact_mod_cast hk

theorem IsPixel.mono {A B : ℕ} {x : ℚ} (h : IsPixel A x) (hAB : A ≤ B) : IsPixel B x :=
  ⟨h.1, le_trans h.2 (by exact_mod_cast hAB)⟩

theorem isPixel_zero (B : ℕ) : IsPixel B 0 := by
  rw [isPixel_iff]
  exact ⟨0, by simp, by simp⟩

theorem IsPixel.neg {A : ℕ} {x : ℚ} (h : IsPixel A x) : IsPixel A (-x) := by
  rw [isPixel_iff] at *
  obtain ⟨k, rfl, hk⟩ := h
  exact ⟨-k, by push_cast; rfl, by rwa [abs_neg]⟩

theorem IsPixel.add {A B : ℕ} {x y : ℚ} (hx : IsPixel A x) (hy : IsPixel B y) :
    IsPixel (A + B) (x + y) := by
  rw [isPixel_iff] at *
  obtain ⟨k, rfl, hk⟩ := hx
  obtain ⟨l, rfl, hl⟩ := hy
  refine ⟨k + l, by push_cast; rfl, ?_⟩
  have := abs_add k l
  push_cast
  omega

theorem IsPixel.sub {A B : ℕ} {x y : ℚ} (hx : IsPixel A x) (hy : IsPixel B y) :
    IsPixel (A + B) (x - y) := by
  rw [sub_eq_add_neg]
  exact hx.add hy.neg

theorem IsPixel.mul {A B : ℕ} {x y : ℚ} (hx : IsPixel A x) (hy : IsPixel B y) :
    IsPixel (A * B) (x * y) := by
  rw [isPixel_iff] at *
  obtain ⟨k, rfl, hk⟩ := hx
  obtain ⟨l, rfl, hl⟩ := hy
  refine ⟨k * l, by push_cast; rfl, ?_⟩
  rw [abs_mul]
  push_cast
  exact mul_le_mul hk hl (abs_nonneg l) (Int.natCast_nonneg A)

theorem IsPixel.min {A : ℕ} {x y : ℚ} (hx : IsPixel A x) (hy : IsPixel A y) :
    IsPixel A (min x y) := by
  rcases min_choice x y with h | h <;> rw [h] <;> assumption

theorem IsPixel.max {A : ℕ} {x y : ℚ} (hx : IsPixel A x) (hy : IsPixel A y) :
    IsPixel A (max x y) := by
  rcases max_choice x y with h | h <;> rw [h] <;> assumption

/-- An integer of absolute value at most `2^24` is a float. -/
theorem round_pixel {x : ℚ} (h : IsPixel 16777216 x) : F32.round x = x := by
  obtain ⟨k, rfl, hk⟩ := (isPixel_iff _ _).1 h
  exact F32.round_int k (by exact_mod_cast hk)

/-- Half an integer of absolute value at most `2^24` is a float. -/
theorem round_half_pixel {x : ℚ} (h : IsPixel 16777216 x) : F32.round (x / 2) = x / 2 := by
  obtain ⟨k, rfl, hk⟩ := (isPixel_iff _ _).1 h
  have := F32.round_dyadic k 1 (by exact_mod_cast hk) (by norm_num)
  simpa using this

theorem add_pixel {A B : ℕ} {x y : ℚ} (hx : IsPixel A x) (hy : IsPixel B y)
    (h : A + B ≤ 16777216) : F32.add x y = x + y :=
  round_pixel ((hx.add hy).mono h)

theorem sub_pixel {A B : ℕ} {x y : ℚ} (hx : IsPixel A x) (hy : IsPixel B y)
    (h : A + B ≤ 16777216) : F32.sub x y = x - y :=
  round_pixel ((hx.sub hy).mono h)

theorem mul_pixel {A B : ℕ} {x y : ℚ} (hx : IsPixel A x) (hy : IsPixel B y)
    (h : A * B ≤ 16777216) : F32.mul x y = x * y :=
  round_pixel ((hx.mul hy).mono h)

theorem div_two_pixel {x : ℚ} (h : IsPixel 16777216 x) : F32.div x 2 = x / 2 :=
  round_half_pixel h

theorem add_half_pixel {A B : ℕ} {x y : ℚ} (hx : IsPixel A x) (hy : IsPixel B y)
    (h : A + B ≤ 16777216) : F32.add (x / 2) (y / 2) = x / 2 + y / 2 := by
  have := round_half_pixel ((hx.add hy).mono h)
  unfold F32.add
  rw [← add_div]
  exact this

theorem sub_half_pixel {A B : ℕ} {x y : ℚ} (hx : IsPixel A x) (hy : IsPixel B y)
    (h : A + B ≤ 16777216) : F32.sub (x / 2) (y / 2) = x / 2 - y / 2 := by
  have := round_half_pixel ((hx.sub hy).mono h)
  unfold F32.sub
  rw [← sub_div]
  exact this

/-- With `cos = 1` and `sin = 0` the float rotation of a grid point is the point. -/
theorem vectorRotateF32_one_zero (p : Vector2 ℚ) (h1 : IsPixel 512 p.1)
    (h2 : IsPixel 512 p.2) : vectorRotateF32 p 1 0 = p := by
  have e1 : F32.round p.1 = p.1 := round_pixel (h1.mono (by norm_num))
  have e2 : F32.round p.2 = p.2 := round_pixel (h2.mono (by norm_num))
  unfold vectorRotateF32 F32.sub F32.add F32.mul
  simp only [mul_one, mul_zero, F32.round_zero, sub_zero, zero_add, e1, e2]

theorem vectorRotate_one_zero (p : Vector2 ℚ) : vectorRotate p 1 0 = p := by
  unfold vectorRotate
  simp

theorem getPoint_pixel (a : ConvexShape ℚ)
    (h : ∀ p ∈ a.points, IsPixel 512 p.1 ∧ IsPixel 512 p.2) (j : ℕ) :
    IsPixel 512 (getPoint a j).1 ∧ IsPixel 512 (getPoint a j).2 := by
  by_cases hj : j < getPointCount a
  · exact h _ (getPoint_mem a j hj)
  · unfold getPoint
    unfold getPointCount at hj
    rw [List.getD_eq_default _ _ (not_lt.1 hj)]
    exact ⟨isPixel_zero _, isPixel_zero _⟩

/-- On the grid the float axes are the exact axes, with integer coordinates of absolute
value at most 1024. -/
theorem axesOfF32_eq (a : ConvexShape ℚ)
    (h : ∀ p ∈ a.points, IsPixel 512 p.1 ∧ IsPixel 512 p.2) :
    axesOfF32 a 1 0 = axesOf a 1 0 ∧
    ∀ n ∈ axesOf a 1 0, IsPixel 1024 n.1 ∧ IsPixel 1024 n.2 := by
  have key : ∀ i : ℕ,
      perp (F32.vsub (vectorRotateF32 (getPoint a ((i + 1) % getPointCount a)) 1 0)
        (vectorRotateF32 (getPoint a i) 1 0)) =
      perp (vectorRotate (getPoint a ((i + 1) % getPointCount a)) 1 0
        - vectorRotate (getPoint a i) 1 0) ∧
      IsPixel 1024 (perp (vectorRotate (getPoint a ((i + 1) % getPointCount a)) 1 0
        - vectorRotate (getPoint a i) 1 0)).1 ∧
      IsPixel 1024 (perp (vectorRotate (getPoint a ((i + 1) % getPointCount a)) 1 0
        - vectorRotate (getPoint a i) 1 0)).2 := by
    intro i
    obtain ⟨p1, p2⟩ := getPoint_pixel a h ((i + 1) % getPointCount a)
    obtain ⟨q1, q2⟩ := getPoint_pixel a h i
    rw [vectorRotateF32_one_zero _ p1 p2, vectorRotateF32_one_zero _ q1 q2,
      vectorRotate_one_zero, vectorRotate_one_zero]
    unfold F32.vsub
    rw [sub_pixel p1 q1 (by norm_num), sub_pixel p2 q2 (by norm_num)]
    refine ⟨rfl, ?_, ?_⟩
    · exact (p2.sub q2).neg
    · exact p1.sub q1
  constructor
  · unfold axesOfF32 axesOf
    exact List.map_congr_left (fun i _ => (key i).1)
  · intro n hn
    unfold axesOf at hn
    obtain ⟨i, -, rfl⟩ := List.mem_map.1 hn
    exact (key i).2

/-- On the grid the float projection is the exact projection, an integer of absolute
value at most `2^22`. -/
theorem projectionF32_eq (n : Vector2 ℚ) (a : ConvexShape ℚ) (hn1 : IsPixel 1024 n.1)
    (hn2 : IsPixel 1024 n.2) (h : ∀ p ∈ a.points, IsPixel 512 p.1 ∧ IsPixel 512 p.2)
    (hp1 : IsPixel 1536 a.position.1) (hp2 : IsPixel 1536 a.position.2) (j : ℕ) :
    projectionF32 n a 1 0 j = projection n a 1 0 j ∧
    IsPixel 4194304 (projection n a 1 0 j) := by
  obtain ⟨q1, q2⟩ := getPoint_pixel a h j
  unfold projectionF32 projection
  rw [vectorRotateF32_one_zero _ q1 q2, vectorRotate_one_zero]
  unfold F32.vadd F32.dot dot
  simp only [Prod.fst_add, Prod.snd_add]
  rw [add_pixel q1 hp1 (by norm_num), add_pixel q2 hp2 (by norm_num),
    mul_pixel hn1 (q1.add hp1) (by norm_num), mul_pixel hn2 (q2.add hp2) (by norm_num),
    add_pixel (hn1.mul (q1.add hp1)) (hn2.mul (q2.add hp2)) (by norm_num)]
  exact ⟨rfl, ((hn1.mul (q1.add hp1)).add (hn2.mul (q2.add hp2))).mono (by norm_num)⟩

/-- On the grid the float interval of projections is the exact interval, with integer
ends of absolute value at most `2^22`. -/
theorem projectF32_eq (n : Vector2 ℚ) (a : ConvexShape ℚ) (hn1 : IsPixel 1024 n.1)
    (hn2 : IsPixel 1024 n.2) (h : ∀ p ∈ a.points, IsPixel 512 p.1 ∧ IsPixel 512 p.2)
    (hp1 : IsPixel 1536 a.position.1) (hp2 : IsPixel 1536 a.position.2) :
    projectF32 n a 1 0 = project n a 1 0 ∧
    IsPixel 4194304 (project n a 1 0).1 ∧ IsPixel 4194304 (project n a 1 0).2 := by
  have hfun : projectionF32 n a 1 0 = projection n a 1 0 :=
    funext fun j => (projectionF32_eq n a hn1 hn2 h hp1 hp2 j).1
  refine ⟨?_, ?_, ?_⟩
  · unfold projectF32 project
    rw [hfun]
  · rcases (minmax_foldl_attained (projection n a 1 0)
      (List.range' 1 (getPointCount a - 1))
      (projection n a 1 0 0, projection n a 1 0 0)).1 with e | ⟨j, -, e⟩
    · unfold project
      rw [e]
      exact (projectionF32_eq n a hn1 hn2 h hp1 hp2 0).2
    · unfold project
      rw [e]
      exact (projectionF32_eq n a hn1 hn2 h hp1 hp2 j).2
  · rcases (minmax_foldl_attained (projection n a 1 0)
      (List.range' 1 (getPointCount a - 1))
      (projection n a 1 0 0, projection n a 1 0 0)).2 with e | ⟨j, -, e⟩
    · unfold project
      rw [e]
      exact (projectionF32_eq n a hn1 hn2 h hp1 hp2 0).2
    · unfold project
      rw [e]
      exact (projectionF32_eq n a hn1 hn2 h hp1 hp2 j).2

/-- On the grid the float separation test is the exact separation test. -/
theorem separatedOnF32_iff (n : Vector2 ℚ) (a b : ConvexShape ℚ) (hn1 : IsPixel 1024 n.1)
    (hn2 : IsPixel 1024 n.2) (ha : OnGrid a) (hb : OnGrid b) :
    separatedOnF32 n a b 1 0 1 0 ↔ separatedOn n a b 1 0 1 0 := by
  obtain ⟨ea, a1, a2⟩ := projectF32_eq n a hn1 hn2 ha.2.1 ha.2.2.1 ha.2.2.2
  obtain ⟨eb, b1, b2⟩ := projectF32_eq n b hn1 hn2 hb.2.1 hb.2.2.1 hb.2.2.2
  unfold separatedOnF32 separatedOn
  simp only [ea, eb]
  rw [add_pixel a1 a2 (by norm_num), add_pixel b1 b2 (by norm_num),
    sub_pixel a2 a1 (by norm_num), sub_pixel b2 b1 (by norm_num),
    div_two_pixel ((a1.add a2).mono (by norm_num)),
    div_two_pixel ((b1.add b2).mono (by norm_num)),
    div_two_pixel ((a2.sub a1).mono (by norm_num)),
    div_two_pixel ((b2.sub b1).mono (by norm_num)),
    sub_half_pixel (b1.add b2) (a1.add a2) (by norm_num),
    add_half_pixel (a2.sub a1) (b2.sub b1) (by norm_num)]

theorem satLoopF32_eq (a b : ConvexShape ℚ) (ha : OnGrid a) (hb : OnGrid b) :
    ∀ axes : List (Vector2 ℚ), (∀ n ∈ axes, IsPixel 1024 n.1 ∧ IsPixel 1024 n.2) →
      satLoopF32 a b 1 0 1 0 axes = satLoop a b 1 0 1 0 axes := by
  intro axes
  induction axes with
  | nil => intro _; rfl
  | cons n rest ih =>
    intro h
    have hn := h n (List.mem_cons_self _ _)
    have hrest := ih (fun m hm => h m (List.mem_cons_of_mem _ hm))
    unfold satLoopF32 satLoop
    by_cases hs : separatedOn n a b 1 0 1 0
    · rw [if_pos hs, if_pos ((separatedOnF32_iff n a b hn.1 hn.2 ha hb).2 hs)]
    · rw [if_neg hs, if_neg (fun h' => hs ((separatedOnF32_iff n a b hn.1 hn.2 ha hb).1 h')),
        hrest]

/-- For two shapes on the pixel grid, and library functions with `cos(0) = 1` and
`sin(0) = 0`, the binary32 `SAT` computes exactly: it returns what `SAT` returns in
exact arithmetic. -/
theorem SATF32_eq_SAT (T : Trig ℚ) (a b : ConvexShape ℚ) (hc : T.cos 0 = 1)
    (hs : T.sin 0 = 0) (ha : OnGrid a) (hb : OnGrid b) : SATF32 T a b = SAT T a b := by
  obtain ⟨xa, ya⟩ := axesOfF32_eq a ha.2.1
  obtain ⟨xb, yb⟩ := axesOfF32_eq b hb.2.1
  unfold SATF32 SAT
  simp only [ha.1, hb.1, F32.mul, zero_mul, F32.round_zero, hc, hs]
  rw [xa, xb]
  apply satLoopF32_eq a b ha hb
  intro n hn
  rcases List.mem_append.1 hn with h | h
  · exact ya n h
  · exact yb n h

theorem SATF32_triangleA_triangleB : SATF32 quarterTrig triangleA triangleB = false := by
  decide!

theorem SATF32_triangleA_triangleC : SATF32 quarterTrig triangleA triangleC = true := by
  decide!

/-- C6, amended: for two shapes with at least one point each that lie on the pixel grid
(not rotated, integer point coordinates of absolute value at most 512, integer position
coordinates of absolute value at most 1536), with `cos(0) = 1` and `sin(0) = 0`, if the
binary32 `SAT(a, b)` returns false then the convex hulls of the world-space vertices of
`a` and of `b` have no point in common. -/
theorem SAT_false_hulls_disjoint (T : Trig ℚ) (a b : ConvexShape ℚ)
    (_ha : 1 ≤ getPointCount a) (_hb : 1 ≤ getPointCount b)
    (hc : T.cos 0 = 1) (hs : T.sin 0 = 0) (hga : OnGrid a) (hgb : OnGrid b)
    (h : SATF32 T a b = false) :
    ∀ p : Vector2 ℚ, ¬ (p ∈ convexHull ℚ {p | p ∈ worldVertices T a} ∧
      p ∈ convexHull ℚ {p | p ∈ worldVertices T b}) := by
  intro p hp
  rw [SATF32_eq_SAT T a b hc hs hga hgb] at h
  exact Set.disjoint_left.1 (disjoint_of_SAT_false T a b h) hp.1 hp.2

/-- Witness of C6 (amended): `triangleA` and `triangleB` lie on the pixel grid, 5 apart,
and the binary32 `SAT` returns false. -/
theorem SAT_false_hulls_disjoint_witness :
    OnGrid triangleA ∧ OnGrid triangleB ∧
    SATF32 quarterTrig triangleA triangleB = false ∧
    ∀ p : Vector2 ℚ, ¬ (p ∈ convexHull ℚ {p | p ∈ worldVertices quarterTrig triangleA} ∧
      p ∈ convexHull ℚ {p | p ∈ worldVertices quarterTrig triangleB}) :=
  ⟨by decide, by decide, SATF32_triangleA_triangleB,
    SAT_false_hulls_disjoint quarterTrig triangleA triangleB (by decide) (by decide)
      (by decide) (by decide) (by decide) (by decide) SATF32_triangleA_triangleB⟩

/-- The binary32 `SAT` returns false for `triangleP` and `triangleQ`: on the axis
`(-2.0000002, -1)` of the first edge of `triangleP` the rounded projections of the
shared vertex differ from those of the other vertices by enough to separate the two
intervals. -/
theorem SATF32_triangleP_triangleQ : SATF32 quarterTrig triangleP triangleQ = false := by
  decide!

theorem worldVertices_triangleP :
    worldVertices quarterTrig triangleP =
      [(5 / 2, 9646899 / 4194304), (3 / 2, 4508877 / 1048576),
        (3 / 2, 13841203 / 4194304)] := by
  simp [worldVertices, vectorRotate, quarterTrig, triangleP]

theorem worldVertices_triangleQ :
    worldVertices quarterTrig triangleQ =
      [(5 / 2, 9646899 / 4194304), (9 / 2, 4508877 / 1048576),
        (7 / 2, 4508877 / 1048576)] := by
  simp [worldVertices, vectorRotate, quarterTrig, triangleQ]

/-- The first vertex `(2.5, 2.3f)` of `triangleP` is also the first vertex of
`triangleQ`. -/
theorem common_point_triangleP_triangleQ :
    ((5 / 2, 9646899 / 4194304) : Vector2 ℚ) ∈
      convexHull ℚ {p | p ∈ worldVertices quarterTrig triangleP} ∧
    ((5 / 2, 9646899 / 4194304) : Vector2 ℚ) ∈
      convexHull ℚ {p | p ∈ worldVertices quarterTrig triangleQ} := by
  rw [worldVertices_triangleP, worldVertices_triangleQ]
  exact ⟨subset_convexHull ℚ _ (by simp), subset_convexHull ℚ _ (by simp)⟩

/-- C6, counterexample: the triangles `(2.5, 2.3f), (1.5, 4.3f), (1.5, 3.3f)` and
`(2.5, 2.3f), (4.5, 4.3f), (3.5, 4.3f)`, not rotated and both at the origin, share the
vertex `(2.5, 2.3f)`, which lies in both convex hulls, and yet the binary32 `SAT` returns
false. -/
theorem SAT_false_hulls_disjoint_counterexample :
    1 ≤ getPointCount triangleP ∧ 1 ≤ getPointCount triangleQ ∧
    SATF32 quarterTrig triangleP triangleQ = false ∧
    ((5 / 2, 9646899 / 4194304) : Vector2 ℚ) ∈
      convexHull ℚ {p | p ∈ worldVertices quarterTrig triangleP} ∧
    ((5 / 2, 9646899 / 4194304) : Vector2 ℚ) ∈
      convexHull ℚ {p | p ∈ worldVertices quarterTrig triangleQ} :=
  ⟨by decide, by decide, SATF32_triangleP_triangleQ, common_point_triangleP_triangleQ⟩


/-! ### Completeness of the separating axis test -/

theorem exists_switch (P : ℕ → Prop) (lo hi : ℕ) (h : lo ≤ hi) (hlo : P lo) (hhi : ¬ P hi) :
    ∃ i, lo ≤ i ∧ i < hi ∧ P i ∧ ¬ P (i + 1) := by
  induction hi with
  | zero =>
    have : lo = 0 := Nat.le_zero.mp h
    subst this
    exact absurd hlo hhi
  | succ k ih =>
    rcases Nat.eq_or_lt_of_le h with heq | hlt
    · subst heq
      exact absurd hlo hhi
    · by_cases hk : P k
      · exact ⟨k, Nat.lt_succ_iff.mp hlt, Nat.lt_succ_self k, hk, hhi⟩
      · obtain ⟨i, h1, h2, h3, h4⟩ := ih (Nat.lt_succ_iff.mp hlt) hk
        exact ⟨i, h1, Nat.lt_succ_of_lt h2, h3, h4⟩

theorem cross_triple (p q r : Vector2 K) :
    cross q r • p + cross r p • q + cross p q • r = 0 := by
  ext
  · simp only [cross, Prod.fst_add, Prod.smul_fst, smul_eq_mul, Prod.fst_zero]
    ring
  · simp only [cross, Prod.snd_add, Prod.smul_snd, smul_eq_mul, Prod.snd_zero]
    ring

theorem cross_parallel (w p q : Vector2 K) (hw : w ≠ 0)
    (hp : cross w p = 0) (hq : cross w q = 0) : cross p q = 0 := by
  unfold cross at *
  have h1 : w.1 * (p.1 * q.2 - q.1 * p.2) = 0 := by linear_combination p.1 * hq - q.1 * hp
  have h2 : w.2 * (p.1 * q.2 - q.1 * p.2) = 0 := by linear_combination p.2 * hq - q.2 * hp
  by_contra hne
  have hw1 : w.1 = 0 := (mul_eq_zero.mp h1).resolve_right hne
  have hw2 : w.2 = 0 := (mul_eq_zero.mp h2).resolve_right hne
  exact hw (Prod.ext hw1 hw2)

theorem combo3_mem_hull (S : Set (Vector2 K)) (x p q r : Vector2 K)
    (hp : p ∈ S) (hq : q ∈ S) (hr : r ∈ S) (a b c : K)
    (ha : 0 ≤ a) (hb : 0 ≤ b) (hc : 0 ≤ c) (hpos : 0 < a + b + c)
    (hx : a • (p - x) + b • (q - x) + c • (r - x) = 0) :
    x ∈ convexHull K S := by
  have hne : a + b + c ≠ 0 := hpos.ne.symm
  have hconv := convex_convexHull K S
  have hsub := subset_convexHull K S
  have hsum : ∑ i : Fin 3, (![a / (a + b + c), b / (a + b + c), c / (a + b + c)] i) •
      (![p, q, r] i) ∈ convexHull K S := by
    apply hconv.sum_mem
    · intro i _
      fin_cases i
      · exact div_nonneg ha hpos.le
      · exact div_nonneg hb hpos.le
      · exact div_nonneg hc hpos.le
    · simp only [Fin.sum_univ_three, Matrix.cons_val_zero, Matrix.cons_val_one,
        Matrix.head_cons, Matrix.cons_val_two, Matrix.tail_cons]
      field_simp
    · intro i _
      fin_cases i
      · exact hsub hp
      · exact hsub hq
      · exact hsub hr
  have hxe : x = ∑ i : Fin 3, (![a / (a + b + c), b / (a + b + c), c / (a + b + c)] i) •
      (![p, q, r] i) := by
    simp only [Fin.sum_univ_three, Matrix.cons_val_zero, Matrix.cons_val_one,
      Matrix.head_cons, Matrix.cons_val_two, Matrix.tail_cons]
    have h1 := congrArg Prod.fst hx
    have h2 := congrArg Prod.snd hx
    simp only [Prod.fst_add, Prod.smul_fst, Prod.fst_sub, smul_eq_mul, Prod.fst_zero,
      Prod.snd_add, Prod.smul_snd, Prod.snd_sub, Prod.snd_zero] at h1 h2
    ext
    · simp only [Prod.fst_add, Prod.smul_fst, smul_eq_mul]
      field_simp
      linear_combination -h1
    · simp only [Prod.snd_add, Prod.smul_snd, smul_eq_mul]
      field_simp
      linear_combination -h2
  rw [hxe]
  exact hsum

theorem vertex_mem (W : List (Vector2 K)) (i : ℕ) (hi : i < W.length) : vertex W i ∈ W := by
  unfold vertex
  rw [List.getD_eq_getElem _ _ hi]
  exact List.getElem_mem hi

/-- A point on the inner side of every edge of a closed chain of vertices that
are not all collinear lies in the convex hull of the vertices. -/
theorem mem_hull_of_inside (W : List (Vector2 K)) (σ : K) (hσ : σ ≠ 0) (x : Vector2 K)
    (hnc : ∃ i, i < W.length ∧ ∃ k, k < W.length ∧ edgeSide W i k ≠ 0)
    (hx : ∀ i, i < W.length →
      0 ≤ σ * cross (vertex W ((i + 1) % W.length) - vertex W i) (x - vertex W i)) :
    x ∈ convexHull K {p | p ∈ W} := by
  have hn : 0 < W.length := by
    obtain ⟨i, hi, _⟩ := hnc
    omega
  have hedge : ∀ i, i < W.length →
      0 ≤ σ * cross (vertex W i - x) (vertex W ((i + 1) % W.length) - x) := by
    intro i hi
    have h := hx i hi
    have e : cross (vertex W i - x) (vertex W ((i + 1) % W.length) - x)
        = cross (vertex W ((i + 1) % W.length) - vertex W i) (x - vertex W i) := by
      simp only [cross, Prod.fst_sub, Prod.snd_sub]
      ring
    rw [e]
    exact h
  have hlast : σ * cross (vertex W 0 - x) (vertex W (W.length - 1) - x) ≤ 0 := by
    have h := hedge (W.length - 1) (by omega)
    have hmod : (W.length - 1 + 1) % W.length = 0 := by
      rw [Nat.sub_add_cancel hn, Nat.mod_self]
    rw [hmod] at h
    have e : cross (vertex W 0 - x) (vertex W (W.length - 1) - x)
        = -cross (vertex W (W.length - 1) - x) (vertex W 0 - x) := by
      simp only [cross]
      ring
    rw [e]
    linarith
  have step : ∀ i, i + 1 < W.length →
      0 ≤ σ * cross (vertex W 0 - x) (vertex W i - x) →
      σ * cross (vertex W 0 - x) (vertex W (i + 1) - x) ≤ 0 →
      σ * cross (vertex W 0 - x) (vertex W (i + 1) - x)
        < σ * cross (vertex W 0 - x) (vertex W i - x) →
      x ∈ convexHull K {p | p ∈ W} := by
    intro i hi h1 h2 h3
    have hα := hedge i (by omega)
    rw [Nat.mod_eq_of_lt hi] at hα
    have hβ : 0 ≤ σ * cross (vertex W (i + 1) - x) (vertex W 0 - x) := by
      have e : cross (vertex W (i + 1) - x) (vertex W 0 - x)
          = -cross (vertex W 0 - x) (vertex W (i + 1) - x) := by
        simp only [cross]
        ring
      rw [e]
      linarith
    apply combo3_mem_hull {p | p ∈ W} x (vertex W 0) (vertex W i) (vertex W (i + 1))
      (vertex_mem W 0 hn) (vertex_mem W i (by omega)) (vertex_mem W (i + 1) hi)
      (σ * cross (vertex W i - x) (vertex W (i + 1) - x))
      (σ * cross (vertex W (i + 1) - x) (vertex W 0 - x))
      (σ * cross (vertex W 0 - x) (vertex W i - x)) hα hβ h1
    · have e : cross (vertex W (i + 1) - x) (vertex W 0 - x)
          = -cross (vertex W 0 - x) (vertex W (i + 1) - x) := by
        simp only [cross]
        ring
      rw [e]
      linarith
    · have h := cross_triple (vertex W 0 - x) (vertex W i - x) (vertex W (i + 1) - x)
      have h' := congrArg (fun v => σ • v) h
      simp only [smul_add, smul_smul, smul_zero] at h'
      exact h'
  by_cases hA : ∃ j, j < W.length ∧ 0 < σ * cross (vertex W 0 - x) (vertex W j - x)
  · obtain ⟨j, hj, hgj⟩ := hA
    obtain ⟨i, _, h2, h3, h4⟩ := exists_switch
      (fun i => 0 < σ * cross (vertex W 0 - x) (vertex W i - x)) j (W.length - 1)
      (by omega) hgj (not_lt.mpr hlast)
    have h4' := not_lt.mp h4
    exact step i (by omega) h3.le h4' (lt_of_le_of_lt h4' h3)
  · by_cases hB : ∃ j, j < W.length ∧ σ * cross (vertex W 0 - x) (vertex W j - x) < 0
    · obtain ⟨j, hj, hgj⟩ := hB
      have h0 : 0 ≤ σ * cross (vertex W 0 - x) (vertex W 0 - x) := by
        have e : cross (vertex W 0 - x) (vertex W 0 - x) = 0 := by
          simp only [cross]
          ring
        rw [e, mul_zero]
      obtain ⟨i, _, h2, h3, h4⟩ := exists_switch
        (fun i => 0 ≤ σ * cross (vertex W 0 - x) (vertex W i - x)) 0 j
        (Nat.zero_le j) h0 (not_le.mpr hgj)
      have h4' := not_le.mp h4
      exact step i (by omega) h3 h4'.le (lt_of_lt_of_le h4' h3)
    · push_neg at hA hB
      have hz : ∀ j, j < W.length → cross (vertex W 0 - x) (vertex W j - x) = 0 := by
        intro j hj
        have h := le_antisymm (hA j hj) (hB j hj)
        exact (mul_eq_zero.mp h).resolve_left hσ
      by_cases hw : vertex W 0 - x = 0
      · have hx0 : x = vertex W 0 := (sub_eq_zero.mp hw).symm
        rw [hx0]
        exact subset_convexHull K _ (vertex_mem W 0 hn)
      · exfalso
        obtain ⟨i, hi, k, hk, hne⟩ := hnc
        apply hne
        have hi' : (i + 1) % W.length < W.length := Nat.mod_lt _ hn
        have c1 := cross_parallel _ _ _ hw (hz _ hi') (hz _ hk)
        have c2 := cross_parallel _ _ _ hw (hz _ hi') (hz _ hi)
        have c3 := cross_parallel _ _ _ hw (hz _ hi) (hz _ hk)
        unfold edgeSide
        simp only [cross, Prod.fst_sub, Prod.snd_sub] at c1 c2 c3 ⊢
        linear_combination c1 - c2 - c3

theorem convex_halfPlane (σ : K) (e v : Vector2 K) :
    Convex K {x : Vector2 K | 0 ≤ σ * cross e (x - v)} := by
  intro x hx y hy a b ha hb hab
  simp only [Set.mem_setOf_eq] at hx hy ⊢
  have key : σ * cross e (a • x + b • y - v)
      = a * (σ * cross e (x - v)) + b * (σ * cross e (y - v)) := by
    simp only [cross, Prod.fst_sub, Prod.snd_sub, Prod.fst_add, Prod.snd_add, Prod.smul_fst,
      Prod.smul_snd, smul_eq_mul]
    linear_combination (σ * (e.1 * v.2 - e.2 * v.1)) * hab
  rw [key]
  exact add_nonneg (mul_nonneg ha hx) (mul_nonneg hb hy)

theorem finrank_vector2 : Module.finrank K (Vector2 K) = 2 := by
  rw [Module.finrank_prod, Module.finrank_self]

/-- Two disjoint convex polygons are strictly separated by the line of an edge of
one of them. -/
theorem exists_separating_edge (WA WB : List (Vector2 K)) (σA σB : K)
    (hσA : σA ≠ 0) (hσB : σB ≠ 0)
    (hncA : ∃ i, i < WA.length ∧ ∃ k, k < WA.length ∧ edgeSide WA i k ≠ 0)
    (hncB : ∃ i, i < WB.length ∧ ∃ k, k < WB.length ∧ edgeSide WB i k ≠ 0)
    (hA : ∀ i, i < WA.length → ∀ k, k < WA.length → 0 ≤ σA * edgeSide WA i k)
    (hB : ∀ i, i < WB.length → ∀ k, k < WB.length → 0 ≤ σB * edgeSide WB i k)
    (hdisj : Disjoint (convexHull K {p | p ∈ WA}) (convexHull K {p | p ∈ WB})) :
    (∃ j, j < WB.length ∧ ∀ k, k < WA.length →
      σB * cross (vertex WB ((j + 1) % WB.length) - vertex WB j)
        (vertex WA k - vertex WB j) < 0) ∨
    (∃ i, i < WA.length ∧ ∀ l, l < WB.length →
      σA * cross (vertex WA ((i + 1) % WA.length) - vertex WA i)
        (vertex WB l - vertex WA i) < 0) := by
  classical
  by_contra hcon
  push_neg at hcon
  obtain ⟨h1, h2⟩ := hcon
  have hnA : 0 < WA.length := by
    obtain ⟨i, hi, _⟩ := hncA
    omega
  have hnB : 0 < WB.length := by
    obtain ⟨i, hi, _⟩ := hncB
    omega
  let F : Fin WA.length ⊕ Fin WB.length → Set (Vector2 K) :=
    Sum.elim
      (fun i => {x | 0 ≤ σA * cross (vertex WA ((i.1 + 1) % WA.length) - vertex WA i.1)
        (x - vertex WA i.1)})
      (fun j => {x | 0 ≤ σB * cross (vertex WB ((j.1 + 1) % WB.length) - vertex WB j.1)
        (x - vertex WB j.1)})
  have hconv : ∀ t ∈ (Finset.univ : Finset (Fin WA.length ⊕ Fin WB.length)),
      Convex K (F t) := by
    intro t _
    cases t with
    | inl i => exact convex_halfPlane σA _ _
    | inr j => exact convex_halfPlane σB _ _
  have hinter : ∀ I ⊆ (Finset.univ : Finset (Fin WA.length ⊕ Fin WB.length)),
      I.card ≤ Module.finrank K (Vector2 K) + 1 → (⋂ t ∈ I, F t).Nonempty := by
    intro I _ hcard
    rw [finrank_vector2] at hcard
    by_cases c1 : ∃ j0 : Fin WB.length, ∀ j, Sum.inr j ∈ I → j = j0
    · obtain ⟨j0, hj0⟩ := c1
      obtain ⟨k, hk, hk0⟩ := h1 j0.1 j0.2
      refine ⟨vertex WA k, ?_⟩
      simp only [Set.mem_iInter]
      intro t ht
      cases t with
      | inl i => exact hA i.1 i.2 k hk
      | inr j =>
        rw [hj0 j ht]
        exact hk0
    · by_cases c2 : ∃ i0 : Fin WA.length, ∀ i, Sum.inl i ∈ I → i = i0
      · obtain ⟨i0, hi0⟩ := c2
        obtain ⟨l, hl, hl0⟩ := h2 i0.1 i0.2
        refine ⟨vertex WB l, ?_⟩
        simp only [Set.mem_iInter]
        intro t ht
        cases t with
        | inl i =>
          rw [hi0 i ht]
          exact hl0
        | inr j => exact hB j.1 j.2 l hl
      · exfalso
        push_neg at c1 c2
        obtain ⟨j1, hj1, _⟩ := c1 ⟨0, hnB⟩
        obtain ⟨j2, hj2, hjne⟩ := c1 j1
        obtain ⟨i1, hi1, _⟩ := c2 ⟨0, hnA⟩
        obtain ⟨i2, hi2, hine⟩ := c2 i1
        have hsub : ({Sum.inl i1, Sum.inl i2, Sum.inr j1, Sum.inr j2} :
            Finset (Fin WA.length ⊕ Fin WB.length)) ⊆ I := by
          intro t ht
          simp only [Finset.mem_insert, Finset.mem_singleton] at ht
          rcases ht with rfl | rfl | rfl | rfl <;> assumption
        have hc4 : ({Sum.inl i1, Sum.inl i2, Sum.inr j1, Sum.inr j2} :
            Finset (Fin WA.length ⊕ Fin WB.length)).card = 4 := by
          rw [Finset.card_insert_of_not_mem, Finset.card_insert_of_not_mem,
            Finset.card_insert_of_not_mem, Finset.card_singleton]
          · simp [hjne.symm]
          · simp
          · simp [hine.symm]
        have := Finset.card_le_card hsub
        omega
  obtain ⟨x, hx⟩ := Convex.helly_theorem' hconv hinter
  simp only [Set.mem_iInter] at hx
  have hxA : x ∈ convexHull K {p | p ∈ WA} :=
    mem_hull_of_inside WA σA hσA x hncA
      (fun i hi => hx (Sum.inl ⟨i, hi⟩) (Finset.mem_univ _))
  have hxB : x ∈ convexHull K {p | p ∈ WB} :=
    mem_hull_of_inside WB σB hσB x hncB
      (fun i hi => hx (Sum.inr ⟨i, hi⟩) (Finset.mem_univ _))
  exact Set.disjoint_left.1 hdisj hxA hxB

theorem length_worldVertices (T : Trig K) (a : ConvexShape K) :
    (worldVertices T a).length = getPointCount a := by
  simp only [worldVertices, List.length_map, getPointCount]

theorem vertex_worldVertices (T : Trig K) (a : ConvexShape K) (k : ℕ)
    (hk : k < getPointCount a) :
    vertex (worldVertices T a) k =
      vectorRotate (getPoint a k) (T.cos (a.rotation * T.deg_to_rad))
        (T.sin (a.rotation * T.deg_to_rad)) + a.position := by
  have hk' : k < a.points.length := hk
  unfold vertex worldVertices getPoint
  rw [List.getD_eq_getElem _ _ (by simpa using hk'), List.getD_eq_getElem _ _ hk',
    List.getElem_map]

theorem mem_axesOf (T : Trig K) (a : ConvexShape K) (i : ℕ) (hi : i < getPointCount a) :
    perp (vertex (worldVertices T a) ((i + 1) % (worldVertices T a).length)
        - vertex (worldVertices T a) i)
      ∈ axesOf a (T.cos (a.rotation * T.deg_to_rad)) (T.sin (a.rotation * T.deg_to_rad)) := by
  have hi' : (i + 1) % getPointCount a < getPointCount a :=
    Nat.mod_lt _ (Nat.lt_of_le_of_lt (Nat.zero_le i) hi)
  rw [length_worldVertices, vertex_worldVertices T a _ hi', vertex_worldVertices T a _ hi,
    add_sub_add_right_eq_sub]
  unfold axesOf
  exact List.mem_map.2 ⟨i, List.mem_range.2 hi, rfl⟩

theorem cross_sub_eq_dot_perp (e p q : Vector2 K) :
    cross e (p - q) = dot (perp e) p - dot (perp e) q := by
  simp only [cross, dot, perp, Prod.fst_sub, Prod.snd_sub]
  ring

/-- An axis on which every vertex of `a` is strictly on one side of a level and
every vertex of `b` is on the other side is a separating axis for the test. -/
theorem separatedOn_of_level (T : Trig K) (a b : ConvexShape K) (naxis : Vector2 K)
    (c0 σ : K) (hσ : σ = 1 ∨ σ = -1)
    (hna : 0 < getPointCount a) (hnb : 0 < getPointCount b)
    (ha : ∀ k, k < getPointCount a →
      σ * (dot naxis (vertex (worldVertices T a) k) - c0) < 0)
    (hb : ∀ l, l < getPointCount b →
      0 ≤ σ * (dot naxis (vertex (worldVertices T b) l) - c0)) :
    separatedOn naxis a b (T.cos (a.rotation * T.deg_to_rad))
      (T.sin (a.rotation * T.deg_to_rad)) (T.cos (b.rotation * T.deg_to_rad))
      (T.sin (b.rotation * T.deg_to_rad)) ∧
    separatedOn naxis b a (T.cos (b.rotation * T.deg_to_rad))
      (T.sin (b.rotation * T.deg_to_rad)) (T.cos (a.rotation * T.deg_to_rad))
      (T.sin (a.rotation * T.deg_to_rad)) := by
  obtain ⟨⟨k1, hk1, e1⟩, ⟨k2, hk2, e2⟩⟩ := project_attained naxis a
    (T.cos (a.rotation * T.deg_to_rad)) (T.sin (a.rotation * T.deg_to_rad)) hna
  obtain ⟨⟨l1, hl1, f1⟩, ⟨l2, hl2, f2⟩⟩ := project_attained naxis b
    (T.cos (b.rotation * T.deg_to_rad)) (T.sin (b.rotation * T.deg_to_rad)) hnb
  rw [projection_eq, ← vertex_worldVertices T a k1 hk1] at e1
  rw [projection_eq, ← vertex_worldVertices T a k2 hk2] at e2
  rw [projection_eq, ← vertex_worldVertices T b l1 hl1] at f1
  rw [projection_eq, ← vertex_worldVertices T b l2 hl2] at f2
  have a1 := ha k1 hk1
  have a2 := ha k2 hk2
  have b1 := hb l1 hl1
  have b2 := hb l2 hl2
  rw [separatedOn_iff, separatedOn_iff, e1, e2, f1, f2]
  rcases hσ with rfl | rfl
  · have h : dot naxis (vertex (worldVertices T a) k2)
        < dot naxis (vertex (worldVertices T b) l1) := by linarith
    exact ⟨Or.inl h, Or.inr h⟩
  · have h : dot naxis (vertex (worldVertices T b) l2)
        < dot naxis (vertex (worldVertices T a) k1) := by linarith
    exact ⟨Or.inr h, Or.inl h⟩

/-- An orientation sign for a convex polygon. -/
theorem IsConvexPolygon.exists_sign {W : List (Vector2 K)} (h : IsConvexPolygon W) :
    ∃ σ : K, (σ = 1 ∨ σ = -1) ∧
      ∀ i, i < W.length → ∀ k, k < W.length → 0 ≤ σ * edgeSide W i k := by
  rcases h.2.2 with h1 | h1
  · exact ⟨1, Or.inl rfl, fun i hi k hk => by rw [one_mul]; exact h1 i hi k hk⟩
  · refine ⟨-1, Or.inr rfl, fun i hi k hk => ?_⟩
    have := h1 i hi k hk
    linarith

/-- Completeness of the test: disjoint convex polygons make `SAT` return false. -/
theorem SAT_false_of_disjoint (T : Trig K) (a b : ConvexShape K)
    (hA : IsConvexPolygon (worldVertices T a)) (hB : IsConvexPolygon (worldVertices T b))
    (hdisj : Disjoint (convexHull K {p | p ∈ worldVertices T a})
      (convexHull K {p | p ∈ worldVertices T b})) :
    SAT T a b = false := by
  obtain ⟨σA, hσA, hsA⟩ := hA.exists_sign
  obtain ⟨σB, hσB, hsB⟩ := hB.exists_sign
  have hσA0 : σA ≠ 0 := by rcases hσA with rfl | rfl <;> norm_num
  have hσB0 : σB ≠ 0 := by rcases hσB with rfl | rfl <;> norm_num
  have hna : 0 < getPointCount a := by
    have := hA.1
    rw [length_worldVertices] at this
    omega
  have hnb : 0 < getPointCount b := by
    have := hB.1
    rw [length_worldVertices] at this
    omega
  unfold SAT
  rw [satLoop_eq_false_iff]
  rcases exists_separating_edge _ _ σA σB hσA0 hσB0 hA.2.1 hB.2.1 hsA hsB hdisj with
    ⟨j, hj, hsep⟩ | ⟨i, hi, hsep⟩
  · rw [length_worldVertices] at hj
    refine ⟨_, List.mem_append_right _ (mem_axesOf T b j hj), ?_⟩
    refine (separatedOn_of_level T a b _
      (dot (perp (vertex (worldVertices T b) ((j + 1) % (worldVertices T b).length)
        - vertex (worldVertices T b) j)) (vertex (worldVertices T b) j))
      σB hσB hna hnb ?_ ?_).1
    · intro k hk
      rw [← cross_sub_eq_dot_perp]
      exact hsep k (by rw [length_worldVertices]; exact hk)
    · intro l hl
      rw [← cross_sub_eq_dot_perp]
      exact hsB j (by rw [length_worldVertices]; exact hj) l
        (by rw [length_worldVertices]; exact hl)
  · rw [length_worldVertices] at hi
    refine ⟨_, List.mem_append_left _ (mem_axesOf T a i hi), ?_⟩
    refine (separatedOn_of_level T b a _
      (dot (perp (vertex (worldVertices T a) ((i + 1) % (worldVertices T a).length)
        - vertex (worldVertices T a) i)) (vertex (worldVertices T a) i))
      σA hσA hnb hna ?_ ?_).2
    · intro l hl
      rw [← cross_sub_eq_dot_perp]
      exact hsep l (by rw [length_worldVertices]; exact hl)
    · intro k hk
      rw [← cross_sub_eq_dot_perp]
      exact hsA i (by rw [length_worldVertices]; exact hi) k
        (by rw [length_worldVertices]; exact hk)

/-- In exact arithmetic, for two non-degenerate convex polygons listed in boundary order:
if the convex hulls of their world-space vertices have no point in common then `SAT`
returns false; and `SAT` returns true exactly when the two regions have a point
in common (touching included). -/
theorem SAT_true_iff_common_point (T : Trig K) (a b : ConvexShape K)
    (hA : IsConvexPolygon (worldVertices T a)) (hB : IsConvexPolygon (worldVertices T b)) :
    ((∀ p : Vector2 K, ¬ (p ∈ convexHull K {p | p ∈ worldVertices T a} ∧
        p ∈ convexHull K {p | p ∈ worldVertices T b})) → SAT T a b = false) ∧
    (SAT T a b = true ↔
      ∃ p : Vector2 K, p ∈ convexHull K {p | p ∈ worldVertices T a} ∧
        p ∈ convexHull K {p | p ∈ worldVertices T b}) := by
  have h1 : (∀ p : Vector2 K, ¬ (p ∈ convexHull K {p | p ∈ worldVertices T a} ∧
        p ∈ convexHull K {p | p ∈ worldVertices T b})) → SAT T a b = false := by
    intro h
    apply SAT_false_of_disjoint T a b hA hB
    rw [Set.disjoint_left]
    intro p hpa hpb
    exact h p ⟨hpa, hpb⟩
  refine ⟨h1, ?_, ?_⟩
  · intro ht
    by_contra hne
    push_neg at hne
    have := h1 (fun p hp => hne p hp.1 hp.2)
    rw [ht] at this
    exact Bool.noConfusion this
  · rintro ⟨p, hpa, hpb⟩
    by_contra hf
    have hf' : SAT T a b = false := by
      cases h : SAT T a b
      · rfl
      · exact absurd h hf
    exact Set.disjoint_left.1 (disjoint_of_SAT_false T a b hf') hpa hpb

/-- Under a rotation (`cos^2 + sin^2 = 1`) the side of a world-space vertex with
respect to a world-space edge is the side of the point with respect to the edge
of the shape. -/
theorem edgeSide_worldVertices (T : Trig K) (a : ConvexShape K)
    (hT : T.cos (a.rotation * T.deg_to_rad) ^ 2 + T.sin (a.rotation * T.deg_to_rad) ^ 2 = 1)
    (i k : ℕ) (hi : i < getPointCount a) (hk : k < getPointCount a) :
    edgeSide (worldVertices T a) i k = edgeSide a.points i k := by
  have hi' : (i + 1) % getPointCount a < getPointCount a :=
    Nat.mod_lt _ (Nat.lt_of_le_of_lt (Nat.zero_le i) hi)
  unfold edgeSide
  rw [length_worldVertices, vertex_worldVertices T a _ hi', vertex_worldVertices T a _ hi,
    vertex_worldVertices T a _ hk]
  have e : ∀ j, getPoint a j = vertex a.points j := fun _ => rfl
  have hn : a.points.length = getPointCount a := rfl
  rw [e, e, e, hn]
  simp only [cross, vectorRotate, Prod.fst_sub, Prod.snd_sub, Prod.fst_add, Prod.snd_add]
  linear_combination
    ((((vertex a.points ((i + 1) % getPointCount a)).1 - (vertex a.points i).1) *
        ((vertex a.points k).2 - (vertex a.points i).2)) -
      (((vertex a.points k).1 - (vertex a.points i).1) *
        ((vertex a.points ((i + 1) % getPointCount a)).2 - (vertex a.points i).2))) * hT

/-- A shape whose points form a convex polygon keeps this property in world space
when `cos` and `sin` of its rotation satisfy `cos^2 + sin^2 = 1`. -/
theorem isConvexPolygon_worldVertices (T : Trig K) (a : ConvexShape K)
    (hT : T.cos (a.rotation * T.deg_to_rad) ^ 2 + T.sin (a.rotation * T.deg_to_rad) ^ 2 = 1)
    (h : IsConvexPolygon a.points) : IsConvexPolygon (worldVertices T a) := by
  obtain ⟨h3, ⟨i, hi, k, hk, hne⟩, hside⟩ := h
  have hlen := length_worldVertices T a
  have hn : a.points.length = getPointCount a := rfl
  refine ⟨by rw [hlen, ← hn]; exact h3, ⟨i, by rw [hlen, ← hn]; exact hi, k,
    by rw [hlen, ← hn]; exact hk, ?_⟩, ?_⟩
  · rw [edgeSide_worldVertices T a hT i k hi hk]
    exact hne
  · rcases hside with hs | hs
    · left
      intro i hi k hk
      rw [hlen] at hi hk
      rw [edgeSide_worldVertices T a hT i k hi hk]
      exact hs i hi k hk
    · right
      intro i hi k hk
      rw [hlen] at hi hk
      rw [edgeSide_worldVertices T a hT i k hi hk]
      exact hs i hi k hk

theorem worldVertices_triangleA :
    worldVertices quarterTrig triangleA = [(0, 0), (2, 0), (0, 2)] := by
  simp [worldVertices, vectorRotate, quarterTrig, triangleA]

theorem worldVertices_triangleB :
    worldVertices quarterTrig triangleB = [(5, 0), (7, 0), (5, 2)] := by
  simp [worldVertices, vectorRotate, quarterTrig, triangleB]
  norm_num

theorem worldVertices_triangleC :
    worldVertices quarterTrig triangleC = [(1, 0), (3, 0), (1, 2)] := by
  simp [worldVertices, vectorRotate, quarterTrig, triangleC]
  norm_num

theorem isConvexPolygon_of_ccw (W : List (Vector2 ℚ)) (h3 : 3 ≤ W.length)
    (hne : edgeSide W 0 2 ≠ 0)
    (h : ∀ i, i < W.length → ∀ k, k < W.length → 0 ≤ edgeSide W i k) :
    IsConvexPolygon W :=
  ⟨h3, ⟨0, by omega, 2, by omega, hne⟩, Or.inl h⟩

theorem isConvexPolygon_triangleA : IsConvexPolygon (worldVertices quarterTrig triangleA) := by
  rw [worldVertices_triangleA]
  apply isConvexPolygon_of_ccw
  · simp
  · norm_num [edgeSide, vertex, cross]
  · intro i hi k hk
    simp only [List.length_cons, List.length_nil] at hi hk
    interval_cases i <;> interval_cases k <;> norm_num [edgeSide, vertex, cross]

theorem isConvexPolygon_triangleB : IsConvexPolygon (worldVertices quarterTrig triangleB) := by
  rw [worldVertices_triangleB]
  apply isConvexPolygon_of_ccw
  · simp
  · norm_num [edgeSide, vertex, cross]
  · intro i hi k hk
    simp only [List.length_cons, List.length_nil] at hi hk
    interval_cases i <;> interval_cases k <;> norm_num [edgeSide, vertex, cross]

theorem isConvexPolygon_triangleC : IsConvexPolygon (worldVertices quarterTrig triangleC) := by
  rw [worldVertices_triangleC]
  apply isConvexPolygon_of_ccw
  · simp
  · norm_num [edgeSide, vertex, cross]
  · intro i hi k hk
    simp only [List.length_cons, List.length_nil] at hi hk
    interval_cases i <;> interval_cases k <;> norm_num [edgeSide, vertex, cross]

/-- The point `(1, 0)` lies in `triangleA` (on the edge from `(0,0)` to `(2,0)`) and
is a vertex of `triangleC`. -/
theorem common_point_triangleA_triangleC :
    ((1, 0) : Vector2 ℚ) ∈ convexHull ℚ {p | p ∈ worldVertices quarterTrig triangleA} ∧
    ((1, 0) : Vector2 ℚ) ∈ convexHull ℚ {p | p ∈ worldVertices quarterTrig triangleC} := by
  rw [worldVertices_triangleA, worldVertices_triangleC]
  constructor
  · have h := convex_convexHull ℚ {p : Vector2 ℚ | p ∈ [((0 : ℚ), (0 : ℚ)), (2, 0), (0, 2)]}
    have h0 : ((0, 0) : Vector2 ℚ) ∈
        convexHull ℚ {p : Vector2 ℚ | p ∈ [((0 : ℚ), (0 : ℚ)), (2, 0), (0, 2)]} :=
      subset_convexHull ℚ _ (by simp)
    have h2 : ((2, 0) : Vector2 ℚ) ∈
        convexHull ℚ {p : Vector2 ℚ | p ∈ [((0 : ℚ), (0 : ℚ)), (2, 0), (0, 2)]} :=
      subset_convexHull ℚ _ (by simp)
    have hm := h h0 h2 (by norm_num : (0 : ℚ) ≤ 1 / 2) (by norm_num : (0 : ℚ) ≤ 1 / 2)
      (by norm_num)
    have e : ((1 / 2 : ℚ) • ((0, 0) : Vector2 ℚ) + (1 / 2 : ℚ) • ((2, 0) : Vector2 ℚ))
        = (1, 0) := by
      ext <;> simp
    rw [e] at hm
    exact hm
  · exact subset_convexHull ℚ _ (by simp)

/-- The triangles `triangleA` (with `x ≤ 2`) and `triangleB` (with `5 ≤ x`) have no
point in common. -/
theorem no_common_point_triangleA_triangleB (p : Vector2 ℚ) :
    ¬ (p ∈ convexHull ℚ {p | p ∈ worldVertices quarterTrig triangleA} ∧
      p ∈ convexHull ℚ {p | p ∈ worldVertices quarterTrig triangleB}) := by
  rw [worldVertices_triangleA, worldVertices_triangleB]
  rintro ⟨ha, hb⟩
  have hA : convexHull ℚ {p : Vector2 ℚ | p ∈ [((0 : ℚ), (0 : ℚ)), (2, 0), (0, 2)]}
      ⊆ {p | dot (1, 0) p ≤ 2} := by
    apply convexHull_min
    · intro q hq
      simp only [Set.mem_setOf_eq, List.mem_cons, List.mem_singleton, List.not_mem_nil,
        or_false] at hq
      rcases hq with rfl | rfl | rfl <;> norm_num [dot]
    · exact convex_halfSpace_le (dot_isLinearMap _) _
  have hB : convexHull ℚ {p : Vector2 ℚ | p ∈ [((5 : ℚ), (0 : ℚ)), (7, 0), (5, 2)]}
      ⊆ {p | 5 ≤ dot (1, 0) p} := by
    apply convexHull_min
    · intro q hq
      simp only [Set.mem_setOf_eq, List.mem_cons, List.mem_singleton, List.not_mem_nil,
        or_false] at hq
      rcases hq with rfl | rfl | rfl <;> norm_num [dot]
    · exact convex_halfSpace_ge (dot_isLinearMap _) _
  have h1 := hA ha
  have h2 := hB hb
  simp only [Set.mem_setOf_eq] at h1 h2
  linarith

/-- C7, amended: for two non-degenerate convex polygons listed in boundary order that lie
on the pixel grid (not rotated, integer point coordinates of absolute value at most
512, integer position coordinates of absolute value at most 1536), with `cos(0) = 1` and
`sin(0) = 0`: if the convex hulls of their world-space vertices have no point in common
then the binary32 `SAT` returns false; and the binary32 `SAT` returns true exactly when
the two regions have a point in common (touching included). -/
theorem SAT_complete (T : Trig ℚ) (a b : ConvexShape ℚ)
    (hc : T.cos 0 = 1) (hs : T.sin 0 = 0) (hga : OnGrid a) (hgb : OnGrid b)
    (hA : IsConvexPolygon (worldVertices T a)) (hB : IsConvexPolygon (worldVertices T b)) :
    ((∀ p : Vector2 ℚ, ¬ (p ∈ convexHull ℚ {p | p ∈ worldVertices T a} ∧
        p ∈ convexHull ℚ {p | p ∈ worldVertices T b})) → SATF32 T a b = false) ∧
    (SATF32 T a b = true ↔
      ∃ p : Vector2 ℚ, p ∈ convexHull ℚ {p | p ∈ worldVertices T a} ∧
        p ∈ convexHull ℚ {p | p ∈ worldVertices T b}) := by
  rw [SATF32_eq_SAT T a b hc hs hga hgb]
  exact SAT_true_iff_common_point T a b hA hB

/-- Witness of C7 (amended): `triangleA`, `triangleB` and `triangleC` lie on the pixel
grid; `triangleA` and `triangleB` are disjoint convex polygons and the binary32 `SAT`
returns false; `triangleA` and `triangleC` share the point `(1, 0)` and the binary32
`SAT` returns true. -/
theorem SAT_complete_witness :
    OnGrid triangleA ∧ OnGrid triangleB ∧ OnGrid triangleC ∧
    IsConvexPolygon (worldVertices quarterTrig triangleA) ∧
    IsConvexPolygon (worldVertices quarterTrig triangleB) ∧
    IsConvexPolygon (worldVertices quarterTrig triangleC) ∧
    SATF32 quarterTrig triangleA triangleB = false ∧
    SATF32 quarterTrig triangleA triangleC = true :=
  ⟨by decide, by decide, by decide,
    isConvexPolygon_triangleA, isConvexPolygon_triangleB, isConvexPolygon_triangleC,
    (SAT_complete quarterTrig triangleA triangleB (by decide) (by decide) (by decide)
      (by decide) isConvexPolygon_triangleA isConvexPolygon_triangleB).1
      no_common_point_triangleA_triangleB,
    (SAT_complete quarterTrig triangleA triangleC (by decide) (by decide) (by decide)
      (by decide) isConvexPolygon_triangleA isConvexPolygon_triangleC).2.2
      ⟨(1, 0), common_point_triangleA_triangleC⟩⟩

theorem isConvexPolygon_triangleP : IsConvexPolygon (worldVertices quarterTrig triangleP) := by
  rw [worldVertices_triangleP]
  apply isConvexPolygon_of_ccw
  · simp
  · norm_num [edgeSide, vertex, cross]
  · intro i hi k hk
    simp only [List.length_cons, List.length_nil] at hi hk
    interval_cases i <;> interval_cases k <;> norm_num [edgeSide, vertex, cross]

theorem isConvexPolygon_triangleQ : IsConvexPolygon (worldVertices quarterTrig triangleQ) := by
  rw [worldVertices_triangleQ]
  apply isConvexPolygon_of_ccw
  · simp
  · norm_num [edgeSide, vertex, cross]
  · intro i hi k hk
    simp only [List.length_cons, List.length_nil] at hi hk
    interval_cases i <;> interval_cases k <;> norm_num [edgeSide, vertex, cross]

/-- C7, counterexample: `triangleP` and `triangleQ` are non-degenerate convex polygons in
boundary order that touch at the vertex `(2.5, 2.3f)`, so they intersect, and the
binary32 `SAT` does not return true. -/
theorem SAT_complete_counterexample :
    IsConvexPolygon (worldVertices quarterTrig triangleP) ∧
    IsConvexPolygon (worldVertices quarterTrig triangleQ) ∧
    (∃ p : Vector2 ℚ, p ∈ convexHull ℚ {p | p ∈ worldVertices quarterTrig triangleP} ∧
      p ∈ convexHull ℚ {p | p ∈ worldVertices quarterTrig triangleQ}) ∧
    ¬ SATF32 quarterTrig triangleP triangleQ = true :=
  ⟨isConvexPolygon_triangleP, isConvexPolygon_triangleQ,
    ⟨_, common_point_triangleP_triangleQ⟩, by
      rw [SATF32_triangleP_triangleQ]
      exact Bool.false_ne_true⟩

/-- C11, the code at the failing input: without the settings file `polysCount` is `0`
and `polys` is empty, yet `update` evaluates `polys[0]`, so not every index made by
`update` is within bounds. -/
theorem update_defaults_out_of_bounds :
    (initializeSettings none).polysCount = 0 ∧
    (initializeSettings none).sizes.size Vec.polys = 0 ∧
    (Vec.polys, 0) ∈ updateIndices (initializeSettings none).polysCount ∧
    ¬ ∀ a ∈ updateIndices (initializeSettings none).polysCount,
        a.2 < (initializeSettings none).sizes.size a.1 := by
  refine ⟨rfl, rfl, by decide, ?_⟩
  intro h
  exact absurd (h (Vec.polys, 0) (by decide)) (by decide)

/-- With a settings file that gives at least one polygon every index made by `update`
is within bounds. -/
theorem update_indices_in_bounds (polysCount : ℕ) (h : 1 ≤ polysCount) :
    ∀ a ∈ updateIndices (initializeSettings (some polysCount)).polysCount,
      a.2 < (initializeSettings (some polysCount)).sizes.size a.1 := by
  intro a ha
  simp only [initializeSettings, updateIndices, List.mem_append, List.mem_singleton,
    List.mem_flatMap, List.mem_range, List.mem_range'_1, List.mem_cons, List.mem_nil_iff,
    or_false] at ha
  rcases ha with (rfl | ⟨i, hi, rfl | rfl | rfl⟩) | ⟨i, hi, j, hj, rfl | rfl | rfl | rfl⟩ <;>
    simp only [initializeSettings, resizeVectors, VecSizes.size] <;> omega

end Theorems

end Hw022

namespace Hw03

section Theorems

variable {K : Type} [LinearOrderedField K]

/-- C8: `make_curve` is the quadratic Bezier curve
`(1-t)^2*v0 + 2*t*(1-t)*v1 + t^2*v2`; it returns `v0` at `t = 0` and `v2` at `t = 1`. -/
theorem make_curve_eq_bezier (v0 v1 v2 : Vector2 K) (t : K) :
    make_curve v0 v1 v2 t
      = vmul v0 ((1 - t) ^ 2) + vmul v1 (2 * t * (1 - t)) + vmul v2 (t ^ 2) ∧
    make_curve v0 v1 v2 0 = v0 ∧ make_curve v0 v1 v2 1 = v2 := by
  refine ⟨?_, ?_, ?_⟩
  · ext
    · simp only [make_curve, lerp, vmul, Prod.fst_add, Prod.fst_sub]
      ring
    · simp only [make_curve, lerp, vmul, Prod.snd_add, Prod.snd_sub]
      ring
  · ext <;> simp [make_curve, lerp, vmul]
  · ext <;> simp [make_curve, lerp, vmul]

end Theorems

end Hw03

namespace Hw04

section Theorems

variable {K : Type} [LinearOrderedField K]

theorem wrap64_of_bounds (x : ℤ) (h0 : 0 ≤ x) (h1 : x < 9223372036854775808) :
    wrap64 x = x := by
  unfold wrap64
  rw [Int.emod_eq_of_lt (by omega) (by omega)]
  omega

theorem updatePascalTriangle_succ (k : ℕ) :
    updatePascalTriangle (k + 1) =
      updatePascalTriangle k ++ [pascalRow ((updatePascalTriangle k).getD k []) (k + 1)] := by
  unfold updatePascalTriangle
  rw [List.range_succ (k + 1), List.foldl_append]
  simp

theorem length_updatePascalTriangle (k : ℕ) : (updatePascalTriangle k).length = k + 1 := by
  induction k with
  | zero => rfl
  | succ k ih => rw [updatePascalTriangle_succ, List.length_append, ih]; simp

theorem lastRow_zero : (updatePascalTriangle 0).getD 0 [] = [1] := by
  rfl

theorem lastRow_succ (k : ℕ) :
    (updatePascalTriangle (k + 1)).getD (k + 1) [] =
      pascalRow ((updatePascalTriangle k).getD k []) (k + 1) := by
  rw [updatePascalTriangle_succ]
  have h := length_updatePascalTriangle k
  rw [List.getD_eq_getElem _ _ (by simp [h]), List.getElem_append_right (by omega)]
  simp [h]

theorem choose_lt_of_le_66 (n j : ℕ) (hn : n ≤ 66) : n.choose j < 9223372036854775808 := by
  have h1 : n.choose j ≤ Nat.choose 66 j := Nat.choose_le_choose j hn
  have h2 : Nat.choose 66 j ≤ Nat.choose 66 (66 / 2) := Nat.choose_le_middle j 66
  have h3 : Nat.choose 66 (66 / 2) = 7219428434016265740 := by
    rw [Nat.choose_eq_factorial_div_factorial (by norm_num)]
    norm_num [Nat.factorial]
  omega

/-- For `order ≤ 66` the last row of `pascal` holds the binomial coefficients. -/
theorem lastRow_eq_choose (n : ℕ) (hn : n ≤ 66) :
    (updatePascalTriangle n).getD n [] = (List.range (n + 1)).map fun j => (n.choose j : ℤ) := by
  induction n with
  | zero => rw [lastRow_zero]; rfl
  | succ k ih =>
    rw [lastRow_succ, ih (by omega)]
    unfold pascalRow
    apply List.map_congr_left
    intro j hj
    rw [List.mem_range] at hj
    by_cases h0 : j = 0
    · subst h0
      simp
    · by_cases hk : j = k + 1
      · subst hk
        simp
      · rw [if_neg (by tauto)]
        have hj1 : j - 1 < k + 1 := by omega
        have hj2 : j < k + 1 := by omega
        rw [List.getD_eq_getElem _ _ (by simpa using hj1),
          List.getD_eq_getElem _ _ (by simpa using hj2)]
        simp only [List.getElem_map, List.getElem_range]
        obtain ⟨m, rfl⟩ : ∃ m, j = m + 1 := ⟨j - 1, by omega⟩
        have hc : ((k.choose m : ℤ) + (k.choose (m + 1) : ℤ)) = ((k + 1).choose (m + 1) : ℤ) := by
          rw [Nat.choose_succ_succ]
          push_cast
          ring
        simp only [Nat.add_sub_cancel]
        rw [hc]
        apply wrap64_of_bounds
        · exact Int.natCast_nonneg _
        · have := choose_lt_of_le_66 (k + 1) (m + 1) hn
          omega

theorem pascal_67_33 :
    ((updatePascalTriangle 67).getD 67 []).getD 33 0 = -4220223336089263246 := by
  decide!

theorem pascal_66_33 :
    ((updatePascalTriangle 66).getD 66 []).getD 33 0 = 7219428434016265740 := by
  decide!

theorem getD_set_self {α : Type} (l : List α) (k : ℕ) (d v : α) (hk : k < l.length) :
    (l.set k v).getD k d = v := by
  rw [List.getD_eq_getElem _ _ (by simpa using hk)]
  simp

theorem getD_set_other {α : Type} (l : List α) (k k' : ℕ) (d v : α) (hne : k ≠ k') :
    (l.set k v).getD k' d = l.getD k' d := by
  simp [List.getD_eq_getElem?_getD, List.getElem?_set_ne hne]

/-- The inner loop of `updateVertexPoint` run for the terms `j < m` keeps the
length and every other entry. -/
theorem inner_loop_frame (ctrl : ℕ → Vector2 K) (coef : ℕ → K) (k m : ℕ)
    (ap : List (Vector2 K)) :
    ((List.range m).foldl (fun ap j => ap.set k (ap.getD k 0 + vmul (ctrl j) (coef j)))
        (ap.set k zero_vector)).length = ap.length ∧
    ∀ k', k ≠ k' →
      ((List.range m).foldl (fun ap j => ap.set k (ap.getD k 0 + vmul (ctrl j) (coef j)))
        (ap.set k zero_vector)).getD k' 0 = ap.getD k' 0 := by
  induction m with
  | zero =>
    refine ⟨by simp, fun k' hne => ?_⟩
    simp only [List.range_zero, List.foldl_nil]
    exact getD_set_other _ _ _ _ _ hne
  | succ m ih =>
    obtain ⟨h1, h3⟩ := ih
    rw [List.range_succ, List.foldl_append]
    simp only [List.foldl_cons, List.foldl_nil]
    refine ⟨by rw [List.length_set, h1], fun k' hne => ?_⟩
    rw [getD_set_other _ _ _ _ _ hne]
    exact h3 k' hne

/-- The inner loop of `updateVertexPoint` run for the terms `j < m` leaves their sum
in the sample. -/
theorem inner_loop_value (ctrl : ℕ → Vector2 K) (coef : ℕ → K) (k m : ℕ)
    (ap : List (Vector2 K)) (hk : k < ap.length) :
    ((List.range m).foldl (fun ap j => ap.set k (ap.getD k 0 + vmul (ctrl j) (coef j)))
        (ap.set k zero_vector)).getD k 0 = ∑ j ∈ Finset.range m, vmul (ctrl j) (coef j) := by
  induction m with
  | zero =>
    simp only [List.range_zero, List.foldl_nil, Finset.range_zero, Finset.sum_empty]
    rw [getD_set_self _ _ _ _ hk]
    rfl
  | succ m ih =>
    rw [List.range_succ, List.foldl_append]
    simp only [List.foldl_cons, List.foldl_nil]
    rw [getD_set_self _ _ _ _
      (by rw [(inner_loop_frame ctrl coef k m ap).1]; exact hk), ih, Finset.sum_range_succ]

theorem getD_ctrl67 (j : ℕ) (hj : j < 68) :
    state67.ctrlPoints.getD (0 * state67.curve_order + j) 0
      = if j = 33 then ((1 : ℚ), (0 : ℚ)) else (0, 0) := by
  have hlen : j < state67.ctrlPoints.length := by
    simp only [state67, List.length_map, List.length_range]
    exact hj
  rw [Nat.zero_mul, Nat.zero_add, List.getD_eq_getElem _ _ hlen]
  simp only [state67, List.getElem_map, List.getElem_range]

theorem sum_ctrl67_fst (c : ℕ → ℚ) :
    (∑ j ∈ Finset.range (67 + 1),
      vmul (state67.ctrlPoints.getD (0 * state67.curve_order + j) 0) (c j)).1 = c 33 := by
  rw [Prod.fst_sum]
  have h : ∀ j ∈ Finset.range (67 + 1),
      (vmul (state67.ctrlPoints.getD (0 * state67.curve_order + j) 0) (c j)).1
        = if j = 33 then c 33 else 0 := by
    intro j hj
    rw [getD_ctrl67 j (Finset.mem_range.1 hj)]
    by_cases h33 : j = 33
    · subst h33
      simp [vmul]
    · simp [vmul, h33]
  rw [Finset.sum_congr rfl h, Finset.sum_ite_eq']
  simp

/-- The loop of `updateVertexPoint` leaves alone every entry that is not a sample of the
segment. -/
theorem updateVertexPoint_frame (st : State K) (idx j : ℕ)
    (h : ∀ i, i ≤ st.smoothness → j ≠ idx * st.smoothness + i) :
    (updateVertexPoint st idx).allPoints.getD j 0 = st.allPoints.getD j 0 := by
  have key : ∀ (l : List ℕ) (ap : List (Vector2 K)),
      (∀ i, i ∈ l → j ≠ idx * st.smoothness + i) →
      (l.foldl (fun ap i => writeSample st idx i ap) ap).getD j 0 = ap.getD j 0 := by
    intro l
    induction l with
    | nil => intro ap _; rfl
    | cons x xs ih =>
      intro ap hl
      simp only [List.foldl_cons]
      rw [ih _ (fun i hi => hl i (List.mem_cons_of_mem _ hi))]
      exact (inner_loop_frame _ _ _ _ ap).2 j (hl x (List.mem_cons_self _ _)).symm
  unfold updateVertexPoint
  dsimp only
  exact key _ _ (fun i hi => h i (Nat.lt_succ_iff.mp (List.mem_range.1 hi)))

theorem dragLoop_cons (hypot : K → K → K) (mouse : Vector2 K) (e : Editor K) (i : ℕ)
    (rest : List ℕ) :
    dragLoop hypot mouse e (i :: rest) =
      if hypot (e.circles.getD i 0 - mouse).1 (e.circles.getD i 0 - mouse).2 < e.c_radius
      then dragPoint mouse e i else dragLoop hypot mouse e rest := rfl

theorem update_editor3 :
    update ratHypot true (0, 0) editor3 = redraw (movePoint (0, 0) editor3 3) 1 := by
  have h0 : ratHypot (editor3.circles.getD 0 0 - ((0 : ℚ), (0 : ℚ))).1
      (editor3.circles.getD 0 0 - ((0 : ℚ), (0 : ℚ))).2 = 50 :=
    ratHypot_eq _ _ 50 (by norm_num) (by norm_num [editor3])
  have h1 : ratHypot (editor3.circles.getD 1 0 - ((0 : ℚ), (0 : ℚ))).1
      (editor3.circles.getD 1 0 - ((0 : ℚ), (0 : ℚ))).2 = 100 :=
    ratHypot_eq _ _ 100 (by norm_num) (by norm_num [editor3])
  have h2 : ratHypot (editor3.circles.getD 2 0 - ((0 : ℚ), (0 : ℚ))).1
      (editor3.circles.getD 2 0 - ((0 : ℚ), (0 : ℚ))).2 = 150 :=
    ratHypot_eq _ _ 150 (by norm_num) (by norm_num [editor3])
  have h3 : ratHypot (editor3.circles.getD 3 0 - ((0 : ℚ), (0 : ℚ))).1
      (editor3.circles.getD 3 0 - ((0 : ℚ), (0 : ℚ))).2 = 5 :=
    ratHypot_eq _ _ 5 (by norm_num) (by norm_num [editor3])
  have hr : editor3.c_radius = 10 := rfl
  have hrange : List.range editor3.control_points = [0, 1, 2, 3, 4, 5, 6] := by decide
  unfold update
  rw [if_pos rfl, hrange, dragLoop_cons, h0, hr, if_neg (by norm_num), dragLoop_cons, h1, hr,
    if_neg (by norm_num), dragLoop_cons, h2, hr, if_neg (by norm_num), dragLoop_cons, h3, hr,
    if_pos (by norm_num)]
  rfl

theorem consistent_editor3 : Consistent editor3 := by
  intro k hk m hm
  have hk' : k < 2 := hk
  have hm' : m ≤ 2 := hm
  interval_cases k <;> interval_cases m <;>
    norm_num [editor3, bezierPoint, Finset.sum_range_succ, Nat.choose, vmul]

/-- C14, the code at the failing input: in the cubic editor `editor3` (consistent
before the drag) the mouse at `(0, 0)` drags control point 3, which segments 0 and 1
share.  `i%2 == 0` is false for `i = 3`, so only segment 1 is recomputed: sample 1 of
segment 0 keeps `(483/8, 161/2)` while the Bezier point of the new control points is
`(60, 80)`, and the curve is no longer consistent. -/
theorem update_stale_segment :
    Consistent editor3 ∧
    (update ratHypot true (0, 0) editor3).ctrlPoints.getD 3 0 = (0, 0) ∧
    (update ratHypot true (0, 0) editor3).allPoints.getD (0 * 2 + 1) 0
      = (483 / 8, 161 / 2) ∧
    bezierPoint (update ratHypot true (0, 0) editor3).ctrlPoints (0 * 3) 3 (((1 : ℕ) : ℚ) / 2)
      = (60, 80) ∧
    ¬ Consistent (update ratHypot true (0, 0) editor3) := by
  have hctrl : (update ratHypot true (0, 0) editor3).ctrlPoints
      = [(30, 40), (60, 80), (90, 120), (0, 0), (100, 0), (200, 0), (300, 0)] := by
    rw [update_editor3]
    rfl
  have hold : (update ratHypot true (0, 0) editor3).allPoints.getD (0 * 2 + 1) 0
      = (483 / 8, 161 / 2) := by
    rw [update_editor3]
    have h := updateVertexPoint_frame (movePoint (0, 0) editor3 3).toState 1 (0 * 2 + 1)
      (by
        intro i _
        have : (movePoint ((0 : ℚ), (0 : ℚ)) editor3 3).smoothness = 2 := rfl
        rw [this]
        omega)
    unfold redraw
    dsimp only
    rw [h]
    rfl
  have hbez : bezierPoint (update ratHypot true (0, 0) editor3).ctrlPoints (0 * 3) 3
      (((1 : ℕ) : ℚ) / 2) = (60, 80) := by
    rw [hctrl]
    norm_num [bezierPoint, Finset.sum_range_succ, Nat.choose, vmul]
  refine ⟨consistent_editor3, by rw [hctrl]; rfl, hold, hbez, ?_⟩
  intro hcons
  have hcurves : (update ratHypot true (0, 0) editor3).curves = 2 := by
    rw [update_editor3]
    rfl
  have hsm : (update ratHypot true (0, 0) editor3).smoothness = 2 := by
    rw [update_editor3]
    rfl
  have hco : (update ratHypot true (0, 0) editor3).curve_order = 3 := by
    rw [update_editor3]
    rfl
  have h := hcons 0 (by rw [hcurves]; decide) 1 (by rw [hsm]; decide)
  rw [hsm, hco, hold] at h
  simp only [Nat.cast_ofNat] at h
  rw [hbez] at h
  norm_num at h

end Theorems

end Hw04

namespace Hw021

section Theorems

variable {K : Type} [LinearOrderedField K]

theorem u32_of_lt (x : ℕ) (h : x < 4294967296) : u32 x = x := Nat.mod_eq_of_lt h

theorem exists_least_sqr (n : ℕ) (hn : n ≤ 4294836225) :
    ∃ r, 0 < r ∧ r ≤ 65535 ∧ n ≤ r * r ∧ ∀ q, 0 < q → n ≤ q * q → r ≤ q := by
  classical
  have hP : ∃ q, 0 < q ∧ n ≤ q * q := ⟨65535, by norm_num, by omega⟩
  refine ⟨Nat.find hP, (Nat.find_spec hP).1, Nat.find_min' hP ⟨by norm_num, by omega⟩,
    (Nat.find_spec hP).2, fun q hq hq2 => Nat.find_min' hP ⟨hq, hq2⟩⟩

theorem mul_self_lt_of_le_65535 (a b : ℕ) (ha : a ≤ 65535) (hb : b ≤ 65535) :
    a * b < 4294967296 := by
  have := Nat.mul_le_mul ha hb
  omega

theorem findSqr_eq (n r : ℕ) (hr : r ≤ 65535) (hnr : n ≤ r * r)
    (hmin : ∀ q, 0 < q → n ≤ q * q → r ≤ q) :
    ∀ fuel sqr, 0 < sqr → sqr ≤ r → r - sqr < fuel → findSqr n fuel sqr = some r := by
  intro fuel
  induction fuel with
  | zero => intro sqr _ _ h; exact absurd h (Nat.not_lt_zero _)
  | succ fuel ih =>
    intro sqr hpos hle hfuel
    unfold findSqr
    rw [u32_of_lt _ (mul_self_lt_of_le_65535 sqr sqr (by omega) (by omega))]
    by_cases h : sqr * sqr < n
    · rw [if_pos h]
      have hlt : sqr < r := by
        rcases Nat.lt_or_ge sqr r with h1 | h1
        · exact h1
        · have : sqr = r := Nat.le_antisymm hle h1
          subst this
          omega
      rw [u32_of_lt _ (by omega)]
      exact ih (sqr + 1) (Nat.succ_pos _) hlt (by omega)
    · rw [if_neg h]
      have := hmin sqr hpos (not_lt.mp h)
      have : sqr = r := Nat.le_antisymm hle this
      rw [this]

theorem row_index_lt (r i a : ℕ) (hi : i < r) (ha : a < r) : i * r + a < r * r := by
  have h1 : (i + 1) * r ≤ r * r := Nat.mul_le_mul_right r hi
  have h2 : (i + 1) * r = i * r + r := by ring
  omega

theorem gridRow_range' (w h n r i : ℕ) (hr : r ≤ 65535) (hi : i < r) :
    ∀ m a, a + m ≤ r →
      gridRow w h n r i (List.range' a m) =
        (List.range' a (min m (n - (i * r + a)))).map fun j =>
          (⟨i * r + j, ((j : K) + 1 / 2) * (w : K) / (r : K),
            ((i : K) + 1 / 2) * (h : K) / (r : K)⟩ : SetPosition K) := by
  intro m
  induction m with
  | zero => intro a _; simp [gridRow]
  | succ m ih =>
    intro a ham
    have har : a < r := by omega
    have hidx := row_index_lt r i a hi har
    have hrr : r * r < 4294967296 := mul_self_lt_of_le_65535 r r hr hr
    have hir : i * r < 4294967296 := by omega
    rw [List.range'_succ]
    unfold gridRow
    rw [u32_of_lt _ hir, u32_of_lt _ (by omega)]
    by_cases hge : i * r + a ≥ n
    · rw [if_pos hge]
      have : n - (i * r + a) = 0 := by omega
      rw [this]
      simp
    · rw [if_neg hge, ih (a + 1) (by omega)]
      have hmin : min (m + 1) (n - (i * r + a)) = min m (n - (i * r + (a + 1))) + 1 := by
        omega
      rw [hmin, List.range'_succ, List.map_cons]

theorem cellCentre_add (w h r i j : ℕ) (hj : j < r) :
    (cellCentre w h r (i * r + j) : SetPosition K) =
      ⟨i * r + j, ((j : K) + 1 / 2) * (w : K) / (r : K),
        ((i : K) + 1 / 2) * (h : K) / (r : K)⟩ := by
  have hr : 0 < r := by omega
  have h1 : (i * r + j) % r = j := by
    rw [Nat.add_comm, Nat.add_mul_mod_self_right, Nat.mod_eq_of_lt hj]
  have h2 : (i * r + j) / r = i := by
    rw [Nat.add_comm, Nat.add_mul_div_right _ _ hr, Nat.div_eq_of_lt hj, Nat.zero_add]
  unfold cellCentre
  rw [h1, h2]

theorem gridCalls_rows (w h n r : ℕ) (hr : r ≤ 65535) :
    ∀ m, m ≤ r →
      ((List.range m).flatMap fun i => gridRow w h n r i (List.range r)) =
        (List.range (min (m * r) n)).map fun k => (cellCentre w h r k : SetPosition K) := by
  intro m
  induction m with
  | zero => intro _; simp
  | succ m ih =>
    intro hm
    rw [List.range_succ, List.flatMap_append, ih (by omega)]
    simp only [List.flatMap_cons, List.flatMap_nil, List.append_nil]
    rw [List.range_eq_range' r, gridRow_range' w h n r m hr (by omega) r 0 (by omega)]
    simp only [Nat.add_zero]
    by_cases hn : n ≤ m * r
    · have h1 : min (m * r) n = n := by omega
      have h2 : min r (n - m * r) = 0 := by omega
      have h3 : min ((m + 1) * r) n = n := by
        have : (m + 1) * r = m * r + r := by ring
        omega
      rw [h1, h2, h3]
      simp
    · have h1 : min (m * r) n = m * r := by omega
      have h3 : min ((m + 1) * r) n = m * r + min r (n - m * r) := by
        have : (m + 1) * r = m * r + r := by ring
        omega
      rw [h1, h3, List.range_add, List.map_append, List.map_map, ← List.range_eq_range']
      congr 1
      apply List.map_congr_left
      intro j hj
      rw [List.mem_range] at hj
      simp only [Function.comp]
      rw [cellCentre_add w h r m j (by omega)]

theorem findSqr_stops (n : ℕ) :
    ∀ fuel sqr r, findSqr n fuel sqr = some r → ¬ u32 (r * r) < n := by
  intro fuel
  induction fuel with
  | zero => intro sqr r h; exact Option.noConfusion h
  | succ fuel ih =>
    intro sqr r h
    unfold findSqr at h
    by_cases hc : u32 (sqr * sqr) < n
    · rw [if_pos hc] at h
      exact ih _ r h
    · rw [if_neg hc] at h
      injection h with h
      rw [← h]
      exact hc

theorem cellCentre_inside (w h r k : ℕ) (hw : 0 < w) (hh : 0 < h) (hr : 0 < r)
    (hk : k / r < r) :
    0 < (cellCentre w h r k : SetPosition K).x ∧
    (cellCentre w h r k : SetPosition K).x < (w : K) ∧
    0 < (cellCentre w h r k : SetPosition K).y ∧
    (cellCentre w h r k : SetPosition K).y < (h : K) := by
  have hrK : (0 : K) < (r : K) := Nat.cast_pos.2 hr
  have hwK : (0 : K) < (w : K) := Nat.cast_pos.2 hw
  have hhK : (0 : K) < (h : K) := Nat.cast_pos.2 hh
  have hc : ((k % r : ℕ) : K) + 1 ≤ (r : K) := by
    exact_mod_cast Nat.succ_le_of_lt (Nat.mod_lt k hr)
  have hd : ((k / r : ℕ) : K) + 1 ≤ (r : K) := by
    exact_mod_cast Nat.succ_le_of_lt hk
  have hc0 : (0 : K) ≤ ((k % r : ℕ) : K) := Nat.cast_nonneg _
  have hd0 : (0 : K) ≤ ((k / r : ℕ) : K) := Nat.cast_nonneg _
  unfold cellCentre
  dsimp only
  refine ⟨by positivity, ?_, by positivity, ?_⟩
  · rw [div_lt_iff₀ hrK]
    nlinarith
  · rw [div_lt_iff₀ hrK]
    nlinarith

theorem cellCentre_injective (w h r k1 k2 : ℕ) (hw : 0 < w) (hh : 0 < h) (hr : 0 < r)
    (hx : (cellCentre w h r k1 : SetPosition K).x = (cellCentre w h r k2 : SetPosition K).x)
    (hy : (cellCentre w h r k1 : SetPosition K).y = (cellCentre w h r k2 : SetPosition K).y) :
    k1 = k2 := by
  have hrK : (r : K) ≠ 0 := Nat.cast_ne_zero.2 (Nat.pos_iff_ne_zero.1 hr)
  have hwK : (w : K) ≠ 0 := Nat.cast_ne_zero.2 (Nat.pos_iff_ne_zero.1 hw)
  have hhK : (h : K) ≠ 0 := Nat.cast_ne_zero.2 (Nat.pos_iff_ne_zero.1 hh)
  unfold cellCentre at hx hy
  dsimp only at hx hy
  have hx' : ((k1 % r : ℕ) : K) = ((k2 % r : ℕ) : K) := by
    have := (div_left_inj' hrK).1 hx
    have := mul_right_cancel₀ hwK this
    linarith
  have hy' : ((k1 / r : ℕ) : K) = ((k2 / r : ℕ) : K) := by
    have := (div_left_inj' hrK).1 hy
    have := mul_right_cancel₀ hhK this
    linarith
  have hmod : k1 % r = k2 % r := Nat.cast_injective hx'
  have hdiv : k1 / r = k2 / r := Nat.cast_injective hy'
  rw [← Nat.div_add_mod k1 r, ← Nat.div_add_mod k2 r, hmod, hdiv]

/-- C20, amended: for `1 ≤ boxes_count ≤ 65535^2 = 4294836225` with
`boxes_count ≠ 5`, the loop ends with `sqr` the least positive integer with
`sqr*sqr ≥ boxes_count`; the calls of `setPosition` are exactly one per box
`k < boxes_count`, in increasing order of `k`, at
`((k mod sqr + 0.5)*window_w/sqr, (k div sqr + 0.5)*window_h/sqr)`, with
`k div sqr < sqr`; for a window with positive width and height distinct boxes get
distinct positions strictly inside the window. -/
theorem placeBoxes_grid (w h n : ℕ) (hn1 : 1 ≤ n) (hn5 : n ≠ 5) (hn : n ≤ 4294836225) :
    ∃ sqr, 0 < sqr ∧ n ≤ sqr * sqr ∧ (∀ q, 0 < q → n ≤ q * q → sqr ≤ q) ∧
      (∀ fuel, n < fuel → findSqr n fuel 1 = some sqr) ∧
      (∀ fuel, n < fuel →
        (placeBoxes w h n fuel : Option (List (SetPosition K)))
          = some ((List.range n).map fun k => cellCentre w h sqr k)) ∧
      (∀ k, k < n → k / sqr < sqr) ∧
      (0 < w → 0 < h → ∀ k1 k2, k1 < n → k2 < n → k1 ≠ k2 →
        ¬ ((cellCentre w h sqr k1 : SetPosition K).x = (cellCentre w h sqr k2 : SetPosition K).x ∧
          (cellCentre w h sqr k1 : SetPosition K).y
            = (cellCentre w h sqr k2 : SetPosition K).y)) ∧
      (0 < w → 0 < h → ∀ k, k < n →
        0 < (cellCentre w h sqr k : SetPosition K).x ∧
        (cellCentre w h sqr k : SetPosition K).x < (w : K) ∧
        0 < (cellCentre w h sqr k : SetPosition K).y ∧
        (cellCentre w h sqr k : SetPosition K).y < (h : K)) := by
  obtain ⟨r, hr0, hr, hnr, hmin⟩ := exists_least_sqr n hn
  have hrn : r ≤ n := hmin n hn1 (Nat.le_mul_self n)
  have hfind : ∀ fuel, n < fuel → findSqr n fuel 1 = some r := fun fuel hf =>
    findSqr_eq n r hr hnr hmin fuel 1 Nat.one_pos hr0 (by omega)
  have hdiv : ∀ k, k < n → k / r < r := fun k hk =>
    Nat.div_lt_of_lt_mul (lt_of_lt_of_le hk hnr)
  refine ⟨r, hr0, hnr, hmin, hfind, ?_, hdiv, ?_, ?_⟩
  · intro fuel hf
    unfold placeBoxes
    rw [if_neg hn5, hfind fuel hf, Option.map_some']
    unfold gridCalls
    rw [gridCalls_rows w h n r hr r (le_refl r)]
    have : min (r * r) n = n := by omega
    rw [this]
  · intro hw hh k1 k2 _ _ hne hxy
    exact hne (cellCentre_injective w h r k1 k2 hw hh hr0 hxy.1 hxy.2)
  · intro hw hh k hk
    exact cellCentre_inside w h r k hw hh hr0 (hdiv k hk)

/-- Witness of C20 (amended): 7 boxes in an `800 × 600` window are placed on a grid
of `sqr = 3` columns. -/
theorem placeBoxes_grid_witness :
    findSqr 7 8 1 = some 3 ∧
    ∃ sqr, 0 < sqr ∧ 7 ≤ sqr * sqr ∧ (∀ q, 0 < q → 7 ≤ q * q → sqr ≤ q) ∧
      (∀ fuel, 7 < fuel →
        (placeBoxes 800 600 7 fuel : Option (List (SetPosition ℚ)))
          = some ((List.range 7).map fun k => cellCentre 800 600 sqr k)) :=
  ⟨by decide,
    match @placeBoxes_grid ℚ _ 800 600 7 (by decide) (by decide) (by decide) with
    | ⟨sqr, h1, h2, h3, _, h5, _⟩ => ⟨sqr, h1, h2, h3, h5⟩⟩

/-- C20, counterexample: for `boxes_count = 4294836226 = 65535^2 + 1` the least
positive integer with `sqr*sqr ≥ boxes_count` is `65536`, but `65536*65536` is `0` as
an `unsigned int`, so the loop does not stop at `65536`. -/
theorem findSqr_counterexample :
    1 ≤ 4294836226 ∧ 4294836226 ≠ 5 ∧
    (0 < 65536 ∧ 4294836226 ≤ 65536 * 65536 ∧
      ∀ q, 0 < q → 4294836226 ≤ q * q → 65536 ≤ q) ∧
    u32 (65536 * 65536) = 0 ∧
    ¬ ∃ fuel, findSqr 4294836226 fuel 1 = some 65536 := by
  refine ⟨by decide, by decide, ⟨by decide, by decide, ?_⟩, by decide, ?_⟩
  · intro q _ hq
    by_contra hlt
    have h1 : q ≤ 65535 := by omega
    have := Nat.mul_le_mul h1 h1
    omega
  · rintro ⟨fuel, hf⟩
    have := findSqr_stops 4294836226 fuel 1 65536 hf
    exact this (by decide)

end Theorems

end Hw021

/-! ## Loops that write array entries -/

section ArrayLoops

end ArrayLoops

namespace Hw03

section Drag

variable {K : Type} [LinearOrderedField K]

end Drag

end Hw03

namespace Hw05

section Theorems

variable {K : Type} [LinearOrderedField K]

/-- A loop whose body adds `d j` to entry `k` and keeps every other entry: after the
terms `j < m` entry `k` has grown by their sum. -/
theorem foldl_accumulate (step : List (Vector2 K) → ℕ → List (Vector2 K)) (k : ℕ)
    (d : ℕ → Vector2 K)
    (hlen : ∀ tp j, (step tp j).length = tp.length)
    (hk : ∀ tp j, k < tp.length → (step tp j).getD k 0 = tp.getD k 0 + d j)
    (hother : ∀ tp j k', k ≠ k' → (step tp j).getD k' 0 = tp.getD k' 0)
    (m : ℕ) (tp : List (Vector2 K)) :
    ((List.range m).foldl step tp).length = tp.length ∧
    (k < tp.length →
      ((List.range m).foldl step tp).getD k 0 = tp.getD k 0 + ∑ j ∈ Finset.range m, d j) ∧
    ∀ k', k ≠ k' → ((List.range m).foldl step tp).getD k' 0 = tp.getD k' 0 := by
  induction m with
  | zero => simp
  | succ m ih =>
    obtain ⟨h1, h2, h3⟩ := ih
    rw [List.range_succ, List.foldl_append]
    simp only [List.foldl_cons, List.foldl_nil]
    refine ⟨by rw [hlen, h1], fun hlt => ?_, fun k' hne => ?_⟩
    · rw [hk _ _ (by rw [h1]; exact hlt), h2 hlt, Finset.sum_range_succ, add_assoc]
    · rw [hother _ _ _ hne, h3 _ hne]

/-- The first inner loop of `updateTangentPoint` leaves the weighted sum of the control
points in `tanPoints[tanPtLoc]` and keeps the other entries. -/
theorem tangentStart_spec (st : State K) (idx i : ℕ) (tp : List (Vector2 K)) :
    (tangentStart st idx i tp).length = tp.length ∧
    ((idx * st.tanNorm + i) * 2 < tp.length →
      (tangentStart st idx i tp).getD ((idx * st.tanNorm + i) * 2) 0 =
        ∑ j ∈ Finset.range (st.curve_order + 1),
          vmul (st.ctrlPoints.getD (idx * st.curve_order + j) 0)
            ((st.tsrc_coefs.getD i []).getD j 0)) ∧
    ∀ k', (idx * st.tanNorm + i) * 2 ≠ k' →
      (tangentStart st idx i tp).getD k' 0 = tp.getD k' 0 :=
  ⟨(Hw04.inner_loop_frame _ _ _ _ tp).1,
    fun hlt => Hw04.inner_loop_value _ _ _ _ tp hlt,
    (Hw04.inner_loop_frame _ _ _ _ tp).2⟩

/-- The second inner loop of `updateTangentPoint` leaves the sum of the weighted
differences of consecutive control points in `tanPoints[tanPtLoc+1]` and keeps the
other entries. -/
theorem tangentDirection_spec (st : State K) (idx i : ℕ) (tp : List (Vector2 K)) :
    (tangentDirection st idx i tp).length = tp.length ∧
    ((idx * st.tanNorm + i) * 2 + 1 < tp.length →
      (tangentDirection st idx i tp).getD ((idx * st.tanNorm + i) * 2 + 1) 0 =
        ∑ j ∈ Finset.range st.curve_order,
          (vmul (st.ctrlPoints.getD (idx * st.curve_order + j + 1) 0)
              ((st.tang_coefs.getD i []).getD j 0) -
            vmul (st.ctrlPoints.getD (idx * st.curve_order + j) 0)
              ((st.tang_coefs.getD i []).getD j 0))) ∧
    ∀ k', (idx * st.tanNorm + i) * 2 + 1 ≠ k' →
      (tangentDirection st idx i tp).getD k' 0 = tp.getD k' 0 := by
  unfold tangentDirection
  obtain ⟨h1, h2, h3⟩ := foldl_accumulate
    (fun tp j =>
      let tp1 := tp.set ((idx * st.tanNorm + i) * 2 + 1)
        (tp.getD ((idx * st.tanNorm + i) * 2 + 1) 0 +
          vmul (st.ctrlPoints.getD (idx * st.curve_order + j + 1) 0)
            ((st.tang_coefs.getD i []).getD j 0))
      tp1.set ((idx * st.tanNorm + i) * 2 + 1)
        (tp1.getD ((idx * st.tanNorm + i) * 2 + 1) 0 -
          vmul (st.ctrlPoints.getD (idx * st.curve_order + j) 0)
            ((st.tang_coefs.getD i []).getD j 0)))
    ((idx * st.tanNorm + i) * 2 + 1)
    (fun j =>
      vmul (st.ctrlPoints.getD (idx * st.curve_order + j + 1) 0)
          ((st.tang_coefs.getD i []).getD j 0) -
        vmul (st.ctrlPoints.getD (idx * st.curve_order + j) 0)
          ((st.tang_coefs.getD i []).getD j 0))
    (fun tp j => by simp only [List.length_set])
    (fun tp j hlt => by
      dsimp only
      rw [Hw04.getD_set_self _ _ _ _ (by rw [List.length_set]; exact hlt),
        Hw04.getD_set_self _ _ _ _ hlt, add_sub_assoc])
    (fun tp j k' hne => by
      dsimp only
      rw [Hw04.getD_set_other _ _ _ _ _ hne, Hw04.getD_set_other _ _ _ _ _ hne])
    st.curve_order (tp.set ((idx * st.tanNorm + i) * 2 + 1) zero_vector)
  refine ⟨by rw [h1, List.length_set], fun hlt => ?_, fun k' hne => ?_⟩
  · rw [h2 (by rw [List.length_set]; exact hlt), Hw04.getD_set_self _ _ _ _ hlt]
    show (0 : Vector2 K) + _ = _
    rw [zero_add]
  · rw [h3 _ hne, Hw04.getD_set_other _ _ _ _ _ hne]

/-- One iteration of the loop of `updateTangentPoint`: the two entries of sample `i` in
`tanPoints` afterwards, and the frame. -/
theorem writeTangent_spec (hypot : K → K → K) (st : State K) (idx i : ℕ)
    (a : List (Vector2 K) × List (Vector2 K)) :
    (writeTangent hypot st idx i a).1.length = a.1.length ∧
    ((idx * st.tanNorm + i) * 2 + 1 < a.1.length →
      (writeTangent hypot st idx i a).1.getD ((idx * st.tanNorm + i) * 2) 0 =
        ∑ j ∈ Finset.range (st.curve_order + 1),
          vmul (st.ctrlPoints.getD (idx * st.curve_order + j) 0)
            ((st.tsrc_coefs.getD i []).getD j 0) ∧
      (writeTangent hypot st idx i a).1.getD ((idx * st.tanNorm + i) * 2 + 1) 0 =
        (∑ j ∈ Finset.range (st.curve_order + 1),
          vmul (st.ctrlPoints.getD (idx * st.curve_order + j) 0)
            ((st.tsrc_coefs.getD i []).getD j 0)) +
        vmul (vdiv
          (∑ j ∈ Finset.range st.curve_order,
            (vmul (st.ctrlPoints.getD (idx * st.curve_order + j + 1) 0)
                ((st.tang_coefs.getD i []).getD j 0) -
              vmul (st.ctrlPoints.getD (idx * st.curve_order + j) 0)
                ((st.tang_coefs.getD i []).getD j 0)))
          (hypot
            (∑ j ∈ Finset.range st.curve_order,
              (vmul (st.ctrlPoints.getD (idx * st.curve_order + j + 1) 0)
                  ((st.tang_coefs.getD i []).getD j 0) -
                vmul (st.ctrlPoints.getD (idx * st.curve_order + j) 0)
                  ((st.tang_coefs.getD i []).getD j 0))).1
            (∑ j ∈ Finset.range st.curve_order,
              (vmul (st.ctrlPoints.getD (idx * st.curve_order + j + 1) 0)
                  ((st.tang_coefs.getD i []).getD j 0) -
                vmul (st.ctrlPoints.getD (idx * st.curve_order + j) 0)
                  ((st.tang_coefs.getD i []).getD j 0))).2)) 20) ∧
    ∀ k', (idx * st.tanNorm + i) * 2 ≠ k' → (idx * st.tanNorm + i) * 2 + 1 ≠ k' →
      (writeTangent hypot st idx i a).1.getD k' 0 = a.1.getD k' 0 := by
  obtain ⟨s1, s2, s3⟩ := tangentStart_spec st idx i a.1
  obtain ⟨d1, d2, d3⟩ := tangentDirection_spec st idx i (tangentStart st idx i a.1)
  unfold writeTangent
  dsimp only
  refine ⟨by rw [List.length_set, d1, s1], fun hlt => ⟨?_, ?_⟩, fun k' hne hne1 => ?_⟩
  · rw [Hw04.getD_set_other _ _ _ _ _ (Nat.succ_ne_self _), d3 _ (Nat.succ_ne_self _),
      s2 (by omega)]
  · rw [Hw04.getD_set_self _ _ _ _ (by rw [d1, s1]; exact hlt),
      d3 _ (Nat.succ_ne_self _), s2 (by omega), d2 (by rw [s1]; exact hlt)]
  · rw [Hw04.getD_set_other _ _ _ _ _ hne1, d3 _ hne1, s3 _ hne]

/-- The `tanPoints` component of the loop of `updateTangentPoint` does not depend on
`normalPoints`. -/
theorem fst_foldl_writeTangent (hypot : K → K → K) (st : State K) (idx : ℕ) (l : List ℕ)
    (a : List (Vector2 K) × List (Vector2 K)) :
    (l.foldl (fun a i => writeTangent hypot st idx i a) a).1 =
      l.foldl (fun tp i => (writeTangent hypot st idx i (tp, [])).1) a.1 := by
  induction l generalizing a with
  | nil => rfl
  | cons x xs ih =>
    simp only [List.foldl_cons]
    rw [ih]
    rfl

/-- The loop of `updateTangentPoint` over a list of sample numbers: the two entries of
sample `i0` in `tanPoints` afterwards. -/
theorem tangent_loop (hypot : K → K → K) (st : State K) (idx i0 : ℕ) (l : List ℕ)
    (tp : List (Vector2 K)) (hb : (idx * st.tanNorm + i0) * 2 + 1 < tp.length) :
    (l.foldl (fun tp i => (writeTangent hypot st idx i (tp, [])).1) tp).length = tp.length ∧
    (l.foldl (fun tp i => (writeTangent hypot st idx i (tp, [])).1) tp).getD
        ((idx * st.tanNorm + i0) * 2) 0 =
      (if i0 ∈ l then (writeTangent hypot st idx i0 (tp, [])).1.getD
          ((idx * st.tanNorm + i0) * 2) 0
        else tp.getD ((idx * st.tanNorm + i0) * 2) 0) ∧
    (l.foldl (fun tp i => (writeTangent hypot st idx i (tp, [])).1) tp).getD
        ((idx * st.tanNorm + i0) * 2 + 1) 0 =
      (if i0 ∈ l then (writeTangent hypot st idx i0 (tp, [])).1.getD
          ((idx * st.tanNorm + i0) * 2 + 1) 0
        else tp.getD ((idx * st.tanNorm + i0) * 2 + 1) 0) := by
  induction l generalizing tp with
  | nil => simp
  | cons x xs ih =>
    obtain ⟨w1, w2, w3⟩ := writeTangent_spec hypot st idx x (tp, [])
    obtain ⟨v1, v2, _⟩ := writeTangent_spec hypot st idx i0 (tp, [])
    obtain ⟨u1, u2, _⟩ := writeTangent_spec hypot st idx i0
      ((writeTangent hypot st idx x (tp, [])).1, [])
    dsimp only at w1 w2 w3 v1 v2 u1 u2
    obtain ⟨h1, h2, h3⟩ := ih (writeTangent hypot st idx x (tp, [])).1
      (by rw [w1]; exact hb)
    simp only [List.foldl_cons]
    refine ⟨by rw [h1, w1], ?_, ?_⟩
    · rw [h2]
      by_cases hxs : i0 ∈ xs
      · rw [if_pos hxs, if_pos (List.mem_cons_of_mem _ hxs), (u2 (by rw [w1]; exact hb)).1,
          (v2 hb).1]
      · rw [if_neg hxs]
        by_cases hx : i0 = x
        · subst hx
          rw [if_pos (List.mem_cons_self _ _)]
        · rw [if_neg (by simp [hx, hxs])]
          exact w3 _ (by omega) (by omega)
    · rw [h3]
      by_cases hxs : i0 ∈ xs
      · rw [if_pos hxs, if_pos (List.mem_cons_of_mem _ hxs), (u2 (by rw [w1]; exact hb)).2,
          (v2 hb).2]
      · rw [if_neg hxs]
        by_cases hx : i0 = x
        · subst hx
          rw [if_pos (List.mem_cons_self _ _)]
        · rw [if_neg (by simp [hx, hxs])]
          exact w3 _ (by omega) (by omega)

/-- After `updateTangentPoint(idx)`, the start point of tangent `i` is the sum of the
control points of the segment weighted by `tsrc_coefs[i]`, and its end point is the
start point plus 20 times the normalised sum of the differences of consecutive control
points weighted by `tang_coefs[i]`. -/
theorem updateTangentPoint_value (hypot : K → K → K) (st : State K) (idx i : ℕ)
    (hi : i < st.tanNorm) (hb : (idx * st.tanNorm + i) * 2 + 1 < st.tanPoints.length) :
    (updateTangentPoint hypot st idx).tanPoints.getD ((idx * st.tanNorm + i) * 2) 0 =
        ∑ j ∈ Finset.range (st.curve_order + 1),
          vmul (st.ctrlPoints.getD (idx * st.curve_order + j) 0)
            ((st.tsrc_coefs.getD i []).getD j 0) ∧
    (updateTangentPoint hypot st idx).tanPoints.getD ((idx * st.tanNorm + i) * 2 + 1) 0 =
        (∑ j ∈ Finset.range (st.curve_order + 1),
          vmul (st.ctrlPoints.getD (idx * st.curve_order + j) 0)
            ((st.tsrc_coefs.getD i []).getD j 0)) +
        vmul (vdiv
          (∑ j ∈ Finset.range st.curve_order,
            (vmul (st.ctrlPoints.getD (idx * st.curve_order + j + 1) 0)
                ((st.tang_coefs.getD i []).getD j 0) -
              vmul (st.ctrlPoints.getD (idx * st.curve_order + j) 0)
                ((st.tang_coefs.getD i []).getD j 0)))
          (hypot
            (∑ j ∈ Finset.range st.curve_order,
              (vmul (st.ctrlPoints.getD (idx * st.curve_order + j + 1) 0)
                  ((st.tang_coefs.getD i []).getD j 0) -
                vmul (st.ctrlPoints.getD (idx * st.curve_order + j) 0)
                  ((st.tang_coefs.getD i []).getD j 0))).1
            (∑ j ∈ Finset.range st.curve_order,
              (vmul (st.ctrlPoints.getD (idx * st.curve_order + j + 1) 0)
                  ((st.tang_coefs.getD i []).getD j 0) -
                vmul (st.ctrlPoints.getD (idx * st.curve_order + j) 0)
                  ((st.tang_coefs.getD i []).getD j 0))).2)) 20 := by
  unfold updateTangentPoint
  dsimp only
  rw [fst_foldl_writeTangent]
  obtain ⟨_, h2, h3⟩ := tangent_loop hypot st idx i (List.range st.tanNorm) st.tanPoints hb
  obtain ⟨_, v2, _⟩ := writeTangent_spec hypot st idx i (st.tanPoints, [])
  rw [h2, h3, if_pos (List.mem_range.2 hi), if_pos (List.mem_range.2 hi)]
  exact v2 hb

/-- Entry `[i][j]` of `tsrc_coefs` after `updateTangCoefs(level, order)`. -/
theorem updateTangCoefs_tsrc (inv : K) (pascal : List (List ℤ)) (level order i j : ℕ)
    (hi : i < level) (hj : j ≤ order) :
    ((updateTangCoefs inv pascal level order).2.getD i []).getD j 0 =
      (((pascal.getD order []).getD j 0 : ℤ) : K)
        * (1 - inv * (i : K)) ^ (order - j) * (inv * (i : K)) ^ j := by
  unfold updateTangCoefs
  dsimp only
  have hi' : i < ((List.range level).map fun (i : ℕ) =>
      (List.range (order + 1)).map fun (j : ℕ) =>
        (((pascal.getD order []).getD j 0 : ℤ) : K)
          * (1 - inv * (i : K)) ^ (order - j) * (inv * (i : K)) ^ j).length := by
    simp only [List.length_map, List.length_range]
    exact hi
  rw [List.getD_eq_getElem _ _ hi', List.getElem_map, List.getElem_range]
  have hj' : j < ((List.range (order + 1)).map fun (j : ℕ) =>
        (((pascal.getD order []).getD j 0 : ℤ) : K)
          * (1 - inv * (i : K)) ^ (order - j) * (inv * (i : K)) ^ j).length := by
    simp only [List.length_map, List.length_range]
    omega
  rw [List.getD_eq_getElem _ _ hj', List.getElem_map, List.getElem_range]

/-- Entry `[i][j]` of `tang_coefs` after `updateTangCoefs(level, order)`. -/
theorem updateTangCoefs_tang (inv : K) (pascal : List (List ℤ)) (level order i j : ℕ)
    (hi : i < level) (hj : j < order) :
    ((updateTangCoefs inv pascal level order).1.getD i []).getD j 0 =
      (((pascal.getD (order - 1) []).getD j 0 : ℤ) : K)
        * (1 - inv * (i : K)) ^ (order - 1 - j) * (inv * (i : K)) ^ j * (order : K) := by
  unfold updateTangCoefs
  dsimp only
  have hi' : i < ((List.range level).map fun (i : ℕ) =>
      (List.range order).map fun (j : ℕ) =>
        (((pascal.getD (order - 1) []).getD j 0 : ℤ) : K)
          * (1 - inv * (i : K)) ^ (order - 1 - j) * (inv * (i : K)) ^ j
          * (order : K)).length := by
    simp only [List.length_map, List.length_range]
    exact hi
  rw [List.getD_eq_getElem _ _ hi', List.getElem_map, List.getElem_range]
  have hj' : j < ((List.range order).map fun (j : ℕ) =>
        (((pascal.getD (order - 1) []).getD j 0 : ℤ) : K)
          * (1 - inv * (i : K)) ^ (order - 1 - j) * (inv * (i : K)) ^ j
          * (order : K)).length := by
    simp only [List.length_map, List.length_range]
    exact hj
  rw [List.getD_eq_getElem _ _ hj', List.getElem_map, List.getElem_range]

/-- Row `order - 1` of `pascal` after `updatePascalTriangle(order)`, for
`1 ≤ order ≤ 67`, holds the binomial coefficients. -/
theorem prevRow_eq_choose (n : ℕ) (hn1 : 1 ≤ n) (hn : n ≤ 67) :
    (Hw04.updatePascalTriangle n).getD (n - 1) [] =
      (List.range n).map fun j => ((n - 1).choose j : ℤ) := by
  obtain ⟨m, rfl⟩ : ∃ m, n = m + 1 := ⟨n - 1, by omega⟩
  rw [Hw04.updatePascalTriangle_succ, Nat.add_sub_cancel]
  have h := Hw04.length_updatePascalTriangle m
  rw [List.getD_eq_getElem _ _
      (by rw [List.length_append, h, List.length_singleton]; omega),
    List.getElem_append_left (by omega),
    ← List.getD_eq_getElem _ [] (by omega), Hw04.lastRow_eq_choose m (by omega)]

theorem vmul_sum (s : Finset ℕ) (v : ℕ → Vector2 K) (c : K) :
    vmul (∑ j ∈ s, v j) c = ∑ j ∈ s, vmul (v j) c := by
  unfold vmul
  ext
  · simp only [Prod.fst_sum, Finset.sum_mul]
  · simp only [Prod.snd_sum, Finset.sum_mul]

/-- With the tables of `updateTangCoefs` and a curve order `n ≤ 66`, the sum weighted by
`tsrc_coefs[i]` is the Bezier point at `t = i/(tanNorm-1)`. -/
theorem tsrc_sum_eq_bezier (st : State K) (idx i : ℕ) (hn : st.curve_order ≤ 66)
    (hinv : st.inv_tanNorm = 1 / ((st.tanNorm - 1 : ℕ) : K))
    (htsrc : st.tsrc_coefs = (updateTangCoefs st.inv_tanNorm
      (Hw04.updatePascalTriangle st.curve_order) st.tanNorm st.curve_order).2)
    (hi : i < st.tanNorm) :
    ∑ j ∈ Finset.range (st.curve_order + 1),
        vmul (st.ctrlPoints.getD (idx * st.curve_order + j) 0)
          ((st.tsrc_coefs.getD i []).getD j 0) =
      Hw04.bezierPoint st.ctrlPoints (idx * st.curve_order) st.curve_order
        ((i : K) / ((st.tanNorm - 1 : ℕ) : K)) := by
  unfold Hw04.bezierPoint
  apply Finset.sum_congr rfl
  intro j hj
  rw [Finset.mem_range] at hj
  have hlen : j < ((List.range (st.curve_order + 1)).map
      fun j => (st.curve_order.choose j : ℤ)).length := by
    simp only [List.length_map, List.length_range]
    exact hj
  have hcoef : (st.tsrc_coefs.getD i []).getD j 0
      = (st.curve_order.choose j : K)
        * (1 - (i : K) / ((st.tanNorm - 1 : ℕ) : K)) ^ (st.curve_order - j)
        * ((i : K) / ((st.tanNorm - 1 : ℕ) : K)) ^ j := by
    rw [htsrc, updateTangCoefs_tsrc _ _ _ _ _ _ hi (Nat.lt_succ_iff.mp hj),
      Hw04.lastRow_eq_choose _ hn, List.getD_eq_getElem _ _ hlen, List.getElem_map,
      List.getElem_range, hinv, one_div_mul_eq_div]
    simp only [Int.cast_natCast]
  rw [hcoef]

/-- With the tables of `updateTangCoefs` and a curve order `1 ≤ n ≤ 67`, the sum of
differences weighted by `tang_coefs[i]` is the derivative of the Bezier curve at
`t = i/(tanNorm-1)`. -/
theorem tang_sum_eq_derivative (st : State K) (idx i : ℕ) (hn1 : 1 ≤ st.curve_order)
    (hn : st.curve_order ≤ 67)
    (hinv : st.inv_tanNorm = 1 / ((st.tanNorm - 1 : ℕ) : K))
    (htang : st.tang_coefs = (updateTangCoefs st.inv_tanNorm
      (Hw04.updatePascalTriangle st.curve_order) st.tanNorm st.curve_order).1)
    (hi : i < st.tanNorm) :
    ∑ j ∈ Finset.range st.curve_order,
        (vmul (st.ctrlPoints.getD (idx * st.curve_order + j + 1) 0)
            ((st.tang_coefs.getD i []).getD j 0) -
          vmul (st.ctrlPoints.getD (idx * st.curve_order + j) 0)
            ((st.tang_coefs.getD i []).getD j 0)) =
      bezierDerivative st.ctrlPoints (idx * st.curve_order) st.curve_order
        ((i : K) / ((st.tanNorm - 1 : ℕ) : K)) := by
  unfold bezierDerivative
  rw [vmul_sum]
  apply Finset.sum_congr rfl
  intro j hj
  rw [Finset.mem_range] at hj
  have hlen : j < ((List.range st.curve_order).map
      fun j => ((st.curve_order - 1).choose j : ℤ)).length := by
    simp only [List.length_map, List.length_range]
    exact hj
  have hcoef : (st.tang_coefs.getD i []).getD j 0
      = ((st.curve_order - 1).choose j : K)
        * (1 - (i : K) / ((st.tanNorm - 1 : ℕ) : K)) ^ (st.curve_order - 1 - j)
        * ((i : K) / ((st.tanNorm - 1 : ℕ) : K)) ^ j * (st.curve_order : K) := by
    rw [htang, updateTangCoefs_tang _ _ _ _ _ _ hi hj, prevRow_eq_choose _ hn1 hn,
      List.getD_eq_getElem _ _ hlen, List.getElem_map, List.getElem_range, hinv,
      one_div_mul_eq_div]
    simp only [Int.cast_natCast]
  rw [hcoef]
  unfold vmul
  ext
  · simp only [Prod.fst_sub]
    ring
  · simp only [Prod.snd_sub]
    ring

/-- C17, amended: for a curve order `1 ≤ n ≤ 66`, `tanNorm ≥ 2` (with
`inv_tanNorm = 1/(tanNorm-1)`), the tables `tsrc_coefs` and `tang_coefs` as computed by
`updateTangCoefs(tanNorm, n)`, and a sample `i < tanNorm` of segment `idx` inside
`tanPoints`, with `t = i/(tanNorm-1)`: after `updateTangentPoint(idx)` the start point
`tanPoints[(idx*tanNorm+i)*2]` is the Bezier point `B(t)`, and whenever the derivative
`B'(t)` is non-zero and has norm `d` (which is what `std::hypot` returns on it), the end
point `tanPoints[(idx*tanNorm+i)*2+1]` is `B(t) + 20 * B'(t) / d`. -/
theorem updateTangentPoint_tangent (hypot : K → K → K) (st : State K) (idx i : ℕ)
    (hn1 : 1 ≤ st.curve_order) (hn : st.curve_order ≤ 66) (_htn : 2 ≤ st.tanNorm)
    (hinv : st.inv_tanNorm = 1 / ((st.tanNorm - 1 : ℕ) : K))
    (htsrc : st.tsrc_coefs = (updateTangCoefs st.inv_tanNorm
      (Hw04.updatePascalTriangle st.curve_order) st.tanNorm st.curve_order).2)
    (htang : st.tang_coefs = (updateTangCoefs st.inv_tanNorm
      (Hw04.updatePascalTriangle st.curve_order) st.tanNorm st.curve_order).1)
    (hi : i < st.tanNorm) (hb : (idx * st.tanNorm + i) * 2 + 1 < st.tanPoints.length) :
    (updateTangentPoint hypot st idx).tanPoints.getD ((idx * st.tanNorm + i) * 2) 0 =
      Hw04.bezierPoint st.ctrlPoints (idx * st.curve_order) st.curve_order
        ((i : K) / ((st.tanNorm - 1 : ℕ) : K)) ∧
    ∀ d : K, 0 ≤ d →
      d * d =
        (bezierDerivative st.ctrlPoints (idx * st.curve_order) st.curve_order
            ((i : K) / ((st.tanNorm - 1 : ℕ) : K))).1 *
          (bezierDerivative st.ctrlPoints (idx * st.curve_order) st.curve_order
            ((i : K) / ((st.tanNorm - 1 : ℕ) : K))).1 +
        (bezierDerivative st.ctrlPoints (idx * st.curve_order) st.curve_order
            ((i : K) / ((st.tanNorm - 1 : ℕ) : K))).2 *
          (bezierDerivative st.ctrlPoints (idx * st.curve_order) st.curve_order
            ((i : K) / ((st.tanNorm - 1 : ℕ) : K))).2 →
      bezierDerivative st.ctrlPoints (idx * st.curve_order) st.curve_order
          ((i : K) / ((st.tanNorm - 1 : ℕ) : K)) ≠ 0 →
      IsHypot hypot
        (bezierDerivative st.ctrlPoints (idx * st.curve_order) st.curve_order
          ((i : K) / ((st.tanNorm - 1 : ℕ) : K))).1
        (bezierDerivative st.ctrlPoints (idx * st.curve_order) st.curve_order
          ((i : K) / ((st.tanNorm - 1 : ℕ) : K))).2 →
      (updateTangentPoint hypot st idx).tanPoints.getD ((idx * st.tanNorm + i) * 2 + 1) 0 =
        Hw04.bezierPoint st.ctrlPoints (idx * st.curve_order) st.curve_order
            ((i : K) / ((st.tanNorm - 1 : ℕ) : K)) +
          vmul (vdiv
            (bezierDerivative st.ctrlPoints (idx * st.curve_order) st.curve_order
              ((i : K) / ((st.tanNorm - 1 : ℕ) : K))) d) 20 := by
  obtain ⟨v1, v2⟩ := updateTangentPoint_value hypot st idx i hi hb
  have hS := tsrc_sum_eq_bezier st idx i hn hinv htsrc hi
  have hD := tang_sum_eq_derivative st idx i hn1 (by omega) hinv htang hi
  refine ⟨by rw [v1, hS], fun d hd0 hd _ hh => ?_⟩
  rw [v2, hS, hD]
  have hd' : hypot
      (bezierDerivative st.ctrlPoints (idx * st.curve_order) st.curve_order
        ((i : K) / ((st.tanNorm - 1 : ℕ) : K))).1
      (bezierDerivative st.ctrlPoints (idx * st.curve_order) st.curve_order
        ((i : K) / ((st.tanNorm - 1 : ℕ) : K))).2 = d :=
    (mul_self_inj hh.1 hd0).1 (by rw [hh.2, hd])
  rw [hd']

/-- Witness of C17 (amended): for the quadratic curve with control points
`(0,0), (3,4), (6,0)` and `tanNorm = 3`, the middle tangent (`t = 1/2`) starts at the
Bezier point `(3, 2)`; the derivative there is `(6, 0)`, of norm 6, and the tangent
ends at `(23, 2)`. -/
theorem updateTangentPoint_tangent_witness :
    Hw04.bezierPoint tangentState2.ctrlPoints (0 * tangentState2.curve_order)
        tangentState2.curve_order (((1 : ℕ) : ℚ) / ((tangentState2.tanNorm - 1 : ℕ) : ℚ))
      = (3, 2) ∧
    bezierDerivative tangentState2.ctrlPoints (0 * tangentState2.curve_order)
        tangentState2.curve_order (((1 : ℕ) : ℚ) / ((tangentState2.tanNorm - 1 : ℕ) : ℚ))
      = (6, 0) ∧
    (updateTangentPoint ratHypot tangentState2 0).tanPoints.getD
        ((0 * tangentState2.tanNorm + 1) * 2) 0 = (3, 2) ∧
    (updateTangentPoint ratHypot tangentState2 0).tanPoints.getD
        ((0 * tangentState2.tanNorm + 1) * 2 + 1) 0 = (23, 2) :=
  have hB : Hw04.bezierPoint tangentState2.ctrlPoints (0 * tangentState2.curve_order)
      tangentState2.curve_order (((1 : ℕ) : ℚ) / ((tangentState2.tanNorm - 1 : ℕ) : ℚ))
        = (3, 2) := by
    simp only [Hw04.bezierPoint, tangentState2, Finset.sum_range_succ, Finset.range_zero,
      Finset.sum_empty, vmul]
    ext <;> norm_num [Nat.choose]
  have hD : bezierDerivative tangentState2.ctrlPoints (0 * tangentState2.curve_order)
      tangentState2.curve_order (((1 : ℕ) : ℚ) / ((tangentState2.tanNorm - 1 : ℕ) : ℚ))
        = (6, 0) := by
    simp only [bezierDerivative, tangentState2, Finset.sum_range_succ, Finset.range_zero,
      Finset.sum_empty, vmul]
    ext <;> norm_num [Nat.choose]
  have h := updateTangentPoint_tangent ratHypot tangentState2 0 1 (by decide) (by decide)
    (by decide) (by norm_num [tangentState2]) rfl rfl (by decide) (by decide)
  ⟨hB, hD, h.1.trans hB,
    (h.2 6 (by norm_num) (by rw [hD]; norm_num) (by rw [hD]; simp)
      (by rw [hD]; exact Hw01.isHypot_ratHypot _ _ 6 (by norm_num) (by norm_num))).trans
      (by rw [hB, hD]; ext <;> norm_num [vmul, vdiv])⟩

/-- C17, counterexample: for curve order 67 (`tanNorm = 3`, tangent 1 of segment 0, so
`t = 1/2`, control point 33 at `(1, 0)` and all others at the origin) `pascal[67][33]`
has wrapped around to `-4220223336089263246`, so the computed start point of the tangent
has a negative `x` while the Bezier point `B(1/2)` has a positive `x`. -/
theorem updateTangentPoint_tangent_counterexample :
    1 ≤ tangentState67.curve_order ∧ 2 ≤ tangentState67.tanNorm ∧
    tangentState67.inv_tanNorm = 1 / ((tangentState67.tanNorm - 1 : ℕ) : ℚ) ∧
    tangentState67.tsrc_coefs = (updateTangCoefs tangentState67.inv_tanNorm
      (Hw04.updatePascalTriangle tangentState67.curve_order) tangentState67.tanNorm
      tangentState67.curve_order).2 ∧
    tangentState67.tang_coefs = (updateTangCoefs tangentState67.inv_tanNorm
      (Hw04.updatePascalTriangle tangentState67.curve_order) tangentState67.tanNorm
      tangentState67.curve_order).1 ∧
    1 < tangentState67.tanNorm ∧
    (0 * tangentState67.tanNorm + 1) * 2 + 1 < tangentState67.tanPoints.length ∧
    ((updateTangentPoint ratHypot tangentState67 0).tanPoints.getD
      ((0 * tangentState67.tanNorm + 1) * 2) 0).1 < 0 ∧
    0 < (Hw04.bezierPoint tangentState67.ctrlPoints (0 * tangentState67.curve_order)
        tangentState67.curve_order
        (((1 : ℕ) : ℚ) / ((tangentState67.tanNorm - 1 : ℕ) : ℚ))).1 ∧
    (updateTangentPoint ratHypot tangentState67 0).tanPoints.getD
        ((0 * tangentState67.tanNorm + 1) * 2) 0 ≠
      Hw04.bezierPoint tangentState67.ctrlPoints (0 * tangentState67.curve_order)
        tangentState67.curve_order
        (((1 : ℕ) : ℚ) / ((tangentState67.tanNorm - 1 : ℕ) : ℚ)) := by
  have hneg : ((updateTangentPoint ratHypot tangentState67 0).tanPoints.getD
      ((0 * tangentState67.tanNorm + 1) * 2) 0).1 < 0 := by
    rw [(updateTangentPoint_value ratHypot tangentState67 0 1 (by decide) (by decide)).1]
    have h : (∑ j ∈ Finset.range (tangentState67.curve_order + 1),
        vmul (tangentState67.ctrlPoints.getD (0 * tangentState67.curve_order + j) 0)
          ((tangentState67.tsrc_coefs.getD 1 []).getD j 0)).1
        = (tangentState67.tsrc_coefs.getD 1 []).getD 33 0 :=
      Hw04.sum_ctrl67_fst (fun j => (tangentState67.tsrc_coefs.getD 1 []).getD j 0)
    rw [h]
    have hp : tangentState67.tsrc_coefs
        = (updateTangCoefs (1 / 2) (Hw04.updatePascalTriangle 67) 3 67).2 := rfl
    rw [hp, updateTangCoefs_tsrc _ _ _ _ _ _ (by decide) (by decide), Hw04.pascal_67_33]
    norm_num
  have hpos : 0 < (Hw04.bezierPoint tangentState67.ctrlPoints
      (0 * tangentState67.curve_order) tangentState67.curve_order
      (((1 : ℕ) : ℚ) / ((tangentState67.tanNorm - 1 : ℕ) : ℚ))).1 := by
    unfold Hw04.bezierPoint
    have h : (∑ j ∈ Finset.range (tangentState67.curve_order + 1),
        vmul (tangentState67.ctrlPoints.getD (0 * tangentState67.curve_order + j) 0)
          ((tangentState67.curve_order.choose j : ℚ)
            * (1 - ((1 : ℕ) : ℚ) / ((tangentState67.tanNorm - 1 : ℕ) : ℚ))
                ^ (tangentState67.curve_order - j)
            * (((1 : ℕ) : ℚ) / ((tangentState67.tanNorm - 1 : ℕ) : ℚ)) ^ j)).1
        = (Nat.choose 67 33 : ℚ)
            * (1 - ((1 : ℕ) : ℚ) / ((tangentState67.tanNorm - 1 : ℕ) : ℚ)) ^ (67 - 33)
            * (((1 : ℕ) : ℚ) / ((tangentState67.tanNorm - 1 : ℕ) : ℚ)) ^ 33 :=
      Hw04.sum_ctrl67_fst (fun j => ((Nat.choose 67 j : ℚ))
        * (1 - ((1 : ℕ) : ℚ) / ((tangentState67.tanNorm - 1 : ℕ) : ℚ)) ^ (67 - j)
        * (((1 : ℕ) : ℚ) / ((tangentState67.tanNorm - 1 : ℕ) : ℚ)) ^ j)
    rw [h]
    have hs : ((tangentState67.tanNorm - 1 : ℕ) : ℚ) = 2 := by norm_num [tangentState67]
    rw [hs]
    have hch : 0 < (Nat.choose 67 33 : ℚ) := by
      exact_mod_cast Nat.choose_pos (by norm_num)
    have h1 : (0 : ℚ) < (1 - ((1 : ℕ) : ℚ) / 2) ^ (67 - 33) := by
      apply pow_pos
      norm_num
    have h2 : (0 : ℚ) < (((1 : ℕ) : ℚ) / 2) ^ 33 := by
      apply pow_pos
      norm_num
    exact mul_pos (mul_pos hch h1) h2
  refine ⟨by decide, by decide, by norm_num [tangentState67], rfl, rfl, by decide,
    by decide, hneg, hpos, ?_⟩
  intro heq
  rw [heq] at hneg
  exact lt_asymm hneg hpos

end Theorems

end Hw05

namespace Hw01

section Dynamics

variable {K : Type} [LinearOrderedField K]

theorem inputAcceleration_eq (hypot : K → K → K) (up down left right : Bool)
    (force mass : K) :
    inputAcceleration hypot up down left right force mass =
      if hypot (inputDir up down left right : Vector2 K).1
          (inputDir up down left right : Vector2 K).2 > epsilon then
        vdiv (vmul (vdiv (inputDir up down left right)
          (hypot (inputDir up down left right : Vector2 K).1
            (inputDir up down left right : Vector2 K).2)) force) mass
      else (0, 0) := rfl

theorem inputDir_cancel (up down left right : Bool) (h : up = down ∧ left = right) :
    (inputDir up down left right : Vector2 K) = (0, 0) := by
  obtain ⟨rfl, rfl⟩ := h
  cases up <;> cases left <;> simp [inputDir]

theorem inputDir_normSq (up down left right : Bool) (h : ¬ (up = down ∧ left = right)) :
    (4761 : K) ≤ (inputDir up down left right : Vector2 K).1 *
        (inputDir up down left right : Vector2 K).1 +
      (inputDir up down left right : Vector2 K).2 *
        (inputDir up down left right : Vector2 K).2 := by
  cases up <;> cases down <;> cases left <;> cases right <;> simp at h <;>
    norm_num [inputDir]

/-- C21: for every combination of the four direction flags, with `force ≥ 0` and user
mass `> 0` (and `std::hypot` the Euclidean norm at `dir`), the acceleration computed by
`update` is the zero vector when the held directions cancel (`up` and `down` agree and
`left` and `right` agree), and otherwise its squared norm is `(force/mass)^2` with
`force/mass ≥ 0`, so its magnitude is exactly `force / mass` for diagonal and for
axis-aligned input alike. -/
theorem inputAcceleration_normalised (hypot : K → K → K) (up down left right : Bool)
    (force mass : K) (hf : 0 ≤ force) (hm : 0 < mass)
    (hh : IsHypot hypot (inputDir up down left right : Vector2 K).1
      (inputDir up down left right : Vector2 K).2) :
    (up = down ∧ left = right →
      inputAcceleration hypot up down left right force mass = (0, 0)) ∧
    (¬ (up = down ∧ left = right) →
      (inputAcceleration hypot up down left right force mass).1 *
          (inputAcceleration hypot up down left right force mass).1 +
        (inputAcceleration hypot up down left right force mass).2 *
          (inputAcceleration hypot up down left right force mass).2
        = force / mass * (force / mass) ∧
      0 ≤ force / mass) := by
  rw [inputAcceleration_eq]
  constructor
  · intro hc
    rw [inputDir_cancel up down left right hc]
    by_cases hd : hypot (0 : K) 0 > epsilon
    · rw [if_pos hd]
      simp [vdiv, vmul]
    · rw [if_neg hd]
  · intro hc
    have h1 := @inputDir_normSq K _ up down left right hc
    obtain ⟨hd0, hd2⟩ := hh
    generalize (inputDir up down left right : Vector2 K) = dir at *
    generalize hypot dir.1 dir.2 = d at *
    have hd1 : (1 : K) ≤ d := by
      by_contra hlt
      rw [not_le] at hlt
      nlinarith
    have hde : d > epsilon := by
      have : (epsilon : K) < 1 := by unfold epsilon; norm_num
      exact lt_of_lt_of_le this hd1
    have hdne : d ≠ 0 := by positivity
    rw [if_pos hde]
    refine ⟨?_, div_nonneg hf hm.le⟩
    simp only [vdiv, vmul]
    field_simp
    linear_combination (-(force ^ 2 * mass ^ 2)) * hd2

/-- Witness of C21: with only `up` held, force 10000 and mass 1000 the acceleration is
`(0, -10)`. -/
theorem inputAcceleration_normalised_witness :
    inputAcceleration ratHypot true false false false (10000 : ℚ) 1000 = (0, -10) ∧
    (inputAcceleration ratHypot true false false false (10000 : ℚ) 1000).1 *
        (inputAcceleration ratHypot true false false false (10000 : ℚ) 1000).1 +
      (inputAcceleration ratHypot true false false false (10000 : ℚ) 1000).2 *
        (inputAcceleration ratHypot true false false false (10000 : ℚ) 1000).2
      = (10000 : ℚ) / 1000 * (10000 / 1000) :=
  have hd : ratHypot (inputDir true false false false : Vector2 ℚ).1
      (inputDir true false false false : Vector2 ℚ).2 = 69 :=
    ratHypot_eq _ _ 69 (by norm_num) (by norm_num [inputDir])
  ⟨by
      rw [inputAcceleration_eq, hd]
      norm_num [inputDir, vdiv, vmul, epsilon],
    ((inputAcceleration_normalised ratHypot true false false false (10000 : ℚ) 1000
      (by norm_num) (by norm_num)
      (isHypot_ratHypot _ _ 69 (by norm_num) (by norm_num [inputDir]))).2 (by decide)).1⟩

theorem dist_symm (hypot : K → K → K) (a b : BallEntity K)
    (hab : IsHypot hypot (difference_vector a b).1 (difference_vector a b).2)
    (hba : IsHypot hypot (difference_vector b a).1 (difference_vector b a).2) :
    dist hypot b a = dist hypot a b := by
  unfold dist
  refine (mul_self_inj hba.1 hab.1).1 ?_
  rw [hba.2, hab.2]
  simp only [difference_vector, Prod.fst_sub, Prod.snd_sub]
  ring

theorem collision_normal_swap (hypot : K → K → K) (a b : BallEntity K)
    (hd : dist hypot b a = dist hypot a b) :
    collision_normal hypot b a = -collision_normal hypot a b := by
  unfold collision_normal
  rw [hd]
  by_cases h : |dist hypot a b| > epsilon
  · rw [if_pos h, if_pos h]
    ext
    · simp only [vdiv, difference_vector, Prod.fst_sub, Prod.fst_neg]
      rw [← neg_div, neg_sub]
    · simp only [vdiv, difference_vector, Prod.snd_sub, Prod.snd_neg]
      rw [← neg_div, neg_sub]
  · rw [if_neg h, if_neg h]
    simp

/-- C23: from the same starting state, `A.collisionWith(B)` and `B.collisionWith(A)`
return the same boolean and leave the same velocity in `A` and the same velocity in `B`
(`std::hypot` being the Euclidean norm at the centre difference, in both directions);
only the position correction differs: in each call the ball given as argument keeps its
position. -/
theorem collisionWith_receiver_independent (hypot : K → K → K) (a b : BallEntity K)
    (hab : IsHypot hypot (difference_vector a b).1 (difference_vector a b).2)
    (hba : IsHypot hypot (difference_vector b a).1 (difference_vector b a).2) :
    (collisionWith hypot a b).1 = (collisionWith hypot b a).1 ∧
    (collisionWith hypot a b).2.1.velocity = (collisionWith hypot b a).2.2.velocity ∧
    (collisionWith hypot a b).2.2.velocity = (collisionWith hypot b a).2.1.velocity ∧
    (collisionWith hypot a b).2.2.position = b.position ∧
    (collisionWith hypot b a).2.2.position = a.position := by
  have hd := dist_symm hypot a b hab hba
  have hn := collision_normal_swap hypot a b hd
  have hi : interpenetration_dist hypot b a = interpenetration_dist hypot a b := by
    unfold interpenetration_dist
    rw [hd, add_comm]
  unfold collisionWith
  rw [hi, hn]
  generalize collision_normal hypot a b = n
  by_cases hov : interpenetration_dist hypot a b > epsilon
  · simp only [if_pos hov, true_and]
    have hS : 1 / b.material.mass + 1 / a.material.mass =
        1 / a.material.mass + 1 / b.material.mass := add_comm _ _
    rw [hS]
    refine ⟨?_, ?_, trivial⟩
    · by_cases hm : |a.material.mass| > epsilon
      · rw [if_pos hm, if_pos hm]
        ext
        · simp only [vmul, dot, Prod.fst_add, Prod.fst_sub, Prod.snd_sub, Prod.fst_neg,
            Prod.snd_neg]
          ring
        · simp only [vmul, dot, Prod.snd_add, Prod.fst_sub, Prod.snd_sub, Prod.fst_neg,
            Prod.snd_neg]
          ring
      · rw [if_neg hm, if_neg hm]
    · by_cases hm : |b.material.mass| > epsilon
      · rw [if_pos hm, if_pos hm]
        ext
        · simp only [vmul, dot, Prod.fst_add, Prod.fst_sub, Prod.snd_sub, Prod.fst_neg,
            Prod.snd_neg]
          ring
        · simp only [vmul, dot, Prod.snd_add, Prod.fst_sub, Prod.snd_sub, Prod.fst_neg,
            Prod.snd_neg]
          ring
      · rw [if_neg hm, if_neg hm]
  · simp only [if_neg hov, and_self]

/-- Witness of C23: `ballA` and `ballB` overlap; with `ballB` as the receiver the call
returns true and `ballA` ends with velocity `(1/2, 0)` and `ballB` with `(1, 0)`, as
with `ballA` as the receiver. -/
theorem collisionWith_receiver_independent_witness :
    (collisionWith ratHypot ballB ballA).1 = true ∧
    (collisionWith ratHypot ballB ballA).2.2.velocity = (1 / 2, 0) ∧
    (collisionWith ratHypot ballB ballA).2.1.velocity = (1, 0) := by
  have h := collisionWith_receiver_independent ratHypot ballA ballB
    (isHypot_ratHypot _ _ 4 (by norm_num) (by norm_num [difference_vector, ballA, ballB]))
    (isHypot_ratHypot _ _ 4 (by norm_num) (by norm_num [difference_vector, ballA, ballB]))
  rw [collisionWith_ballA_ballB] at h
  exact ⟨h.1.symm, h.2.1.symm, h.2.2.1.symm⟩

theorem collision_normal_unit_or_zero (hypot : K → K → K) (a b : BallEntity K)
    (hh : IsHypot hypot (difference_vector a b).1 (difference_vector a b).2) :
    dot (collision_normal hypot a b) (collision_normal hypot a b) = 1 ∨
      collision_normal hypot a b = (0, 0) := by
  by_cases hd : dist hypot a b > epsilon
  · exact Or.inl (collision_normal_unit hypot a b hd hh)
  · right
    have h0 : 0 ≤ dist hypot a b := hh.1
    unfold collision_normal
    rw [if_neg]
    rwa [abs_of_nonneg h0]

theorem ke_scalar (m₁ m₂ e α β q x y : K) (h1 : m₁ ≠ 0) (h2 : m₂ ≠ 0) (h12 : m₁ + m₂ ≠ 0) :
    1 / 2 * m₁ * (x + 2 * (-(((1 + e) * (α - β)) / (1 / m₁ + 1 / m₂)) / m₁) * α +
        (-(((1 + e) * (α - β)) / (1 / m₁ + 1 / m₂)) / m₁) *
          (-(((1 + e) * (α - β)) / (1 / m₁ + 1 / m₂)) / m₁) * q) +
      1 / 2 * m₂ * (y + 2 * (-(((1 + e) * -(α - β)) / (1 / m₁ + 1 / m₂)) / m₂) * β +
        (-(((1 + e) * -(α - β)) / (1 / m₁ + 1 / m₂)) / m₂) *
          (-(((1 + e) * -(α - β)) / (1 / m₁ + 1 / m₂)) / m₂) * q)
      = (1 / 2 * m₁ * x + 1 / 2 * m₂ * y) +
        (1 + e) * ((α - β) * (α - β)) * (m₁ * m₂ / (m₁ + m₂)) * (q * (1 + e) / 2 - 1) := by
  have h21 : m₂ + m₁ ≠ 0 := by rwa [add_comm]
  have hc1 : ∀ J : K, -(J / (1 / m₁ + 1 / m₂)) / m₁ = -(J * m₂ / (m₁ + m₂)) := by
    intro J
    field_simp
    ring
  have hc2 : ∀ J : K, -(J / (1 / m₁ + 1 / m₂)) / m₂ = -(J * m₁ / (m₁ + m₂)) := by
    intro J
    field_simp
    ring
  rw [hc1, hc2]
  field_simp
  ring

/-- The change of the total kinetic energy made by the two impulses of `collisionWith`,
for a normal `n`, relative normal velocity `u = dot (va - vb) n`, common elasticity `e`
and masses `m₁`, `m₂`. -/
theorem kinetic_energy_change (m₁ m₂ e : K) (va vb n : Vector2 K) (h1 : m₁ ≠ 0)
    (h2 : m₂ ≠ 0) (h12 : m₁ + m₂ ≠ 0) :
    1 / 2 * m₁ *
        dot (va + vmul n (-(((1 + e) * dot (va - vb) n) / (1 / m₁ + 1 / m₂)) / m₁))
          (va + vmul n (-(((1 + e) * dot (va - vb) n) / (1 / m₁ + 1 / m₂)) / m₁)) +
      1 / 2 * m₂ *
        dot (vb + vmul n (-(((1 + e) * dot (-(va - vb)) n) / (1 / m₁ + 1 / m₂)) / m₂))
          (vb + vmul n (-(((1 + e) * dot (-(va - vb)) n) / (1 / m₁ + 1 / m₂)) / m₂))
      = (1 / 2 * m₁ * dot va va + 1 / 2 * m₂ * dot vb vb) +
        (1 + e) * (dot (va - vb) n * dot (va - vb) n) * (m₁ * m₂ / (m₁ + m₂)) *
          (dot n n * (1 + e) / 2 - 1) := by
  have e1 : ∀ (v : Vector2 K) (c : K),
      dot (v + vmul n c) (v + vmul n c) = dot v v + 2 * c * dot v n + c * c * dot n n := by
    intro v c
    simp only [vmul, dot, Prod.fst_add, Prod.snd_add]
    ring
  have e2 : dot (va - vb) n = dot va n - dot vb n := by
    simp only [dot, Prod.fst_sub, Prod.snd_sub]
    ring
  have e3 : dot (-(va - vb)) n = -(dot va n - dot vb n) := by
    simp only [dot, Prod.fst_sub, Prod.snd_sub, Prod.fst_neg, Prod.snd_neg]
    ring
  rw [e1, e1, e3, e2]
  exact ke_scalar m₁ m₂ e (dot va n) (dot vb n) (dot n n) (dot va va) (dot vb vb) h1 h2 h12

/-- C24: for an overlapping pair of balls with masses above epsilon and the same
elasticity `e` with `0 ≤ e ≤ 1` (and `std::hypot` the Euclidean norm at the centre
difference), the total kinetic energy after `collisionWith` is at most its value before,
and equal to it when `e = 1`. -/
theorem collisionWith_kinetic_energy (hypot : K → K → K) (a b : BallEntity K)
    (hov : interpenetration_dist hypot a b > epsilon)
    (hma : a.material.mass > epsilon) (hmb : b.material.mass > epsilon)
    (he : a.material.elasticity = b.material.elasticity)
    (he0 : 0 ≤ a.material.elasticity) (he1 : a.material.elasticity ≤ 1)
    (hh : IsHypot hypot (difference_vector a b).1 (difference_vector a b).2) :
    kineticEnergy (collisionWith hypot a b).2.1 (collisionWith hypot a b).2.2
      ≤ kineticEnergy a b ∧
    (a.material.elasticity = 1 →
      kineticEnergy (collisionWith hypot a b).2.1 (collisionWith hypot a b).2.2
        = kineticEnergy a b) := by
  have ha : 0 < a.material.mass := lt_trans epsilon_pos hma
  have hb : 0 < b.material.mass := lt_trans epsilon_pos hmb
  have hq := collision_normal_unit_or_zero hypot a b hh
  rw [collisionWith_of_overlap hypot a b hov hma hmb]
  unfold kineticEnergy
  dsimp only
  rw [← he, kinetic_energy_change _ _ _ _ _ _ ha.ne.symm hb.ne.symm (add_pos ha hb).ne.symm]
  generalize collision_normal hypot a b = n at hq
  have hM : 0 ≤ a.material.mass * b.material.mass / (a.material.mass + b.material.mass) :=
    div_nonneg (mul_nonneg ha.le hb.le) (add_pos ha hb).le
  have hu : 0 ≤ dot (a.velocity - b.velocity) n * dot (a.velocity - b.velocity) n :=
    mul_self_nonneg _
  rcases hq with hq | hq
  · rw [hq]
    constructor
    · have h1 : 0 ≤ (1 + a.material.elasticity) *
          (dot (a.velocity - b.velocity) n * dot (a.velocity - b.velocity) n) *
          (a.material.mass * b.material.mass / (a.material.mass + b.material.mass)) :=
        mul_nonneg (mul_nonneg (by linarith) hu) hM
      have h2 : 1 * (1 + a.material.elasticity) / 2 - 1 ≤ 0 := by linarith
      linarith [mul_nonpos_iff.2 (Or.inl ⟨h1, h2⟩)]
    · intro h1
      rw [h1]
      norm_num
  · rw [hq]
    simp [dot]

/-- Witness of C24: `ballA` and `ballC` overlap and both have elasticity 0; the kinetic
energy goes from `1/2` down to `19/50`. -/
theorem collisionWith_kinetic_energy_witness :
    kineticEnergy ballA ballC = 1 / 2 ∧
    kineticEnergy (collisionWith ratHypot ballA ballC).2.1
        (collisionWith ratHypot ballA ballC).2.2 = 19 / 50 ∧
    kineticEnergy (collisionWith ratHypot ballA ballC).2.1
        (collisionWith ratHypot ballA ballC).2.2 ≤ kineticEnergy ballA ballC :=
  ⟨by norm_num [kineticEnergy, ballA, ballC, dot],
    by rw [collisionWith_ballA_ballC]; norm_num [kineticEnergy, dot],
    (collisionWith_kinetic_energy ratHypot ballA ballC overlap_ballA_ballC
      (by norm_num [ballA, epsilon]) (by norm_num [ballC, epsilon]) rfl
      (by norm_num [ballA]) (by norm_num [ballA])
      (isHypot_ratHypot _ _ 5 (by norm_num)
        (by norm_num [difference_vector, ballA, ballC]))).1⟩

theorem moveEntity_velocity_friction (hypot : K → K → K) (b : BallEntity K)
    (acc : Vector2 K) (delta : K) :
    (moveEntity hypot b acc delta true).velocity =
      if |hypot (b.velocity + vmul acc delta).1 (b.velocity + vmul acc delta).2| > epsilon then
        if |max 0 (hypot (b.velocity + vmul acc delta).1 (b.velocity + vmul acc delta).2
            - b.material.friction * delta)| > epsilon then
          vmul (vdiv (b.velocity + vmul acc delta)
              (hypot (b.velocity + vmul acc delta).1 (b.velocity + vmul acc delta).2))
            (max 0 (hypot (b.velocity + vmul acc delta).1 (b.velocity + vmul acc delta).2
              - b.material.friction * delta))
        else zero_vector
      else zero_vector := by
  unfold moveEntity
  dsimp only
  by_cases h : |hypot (b.velocity + vmul acc delta).1 (b.velocity + vmul acc delta).2| > epsilon
  · simp only [if_pos h, if_true]
  · simp only [if_neg h, if_true]

theorem moveEntity_velocity_no_friction (hypot : K → K → K) (b : BallEntity K)
    (acc : Vector2 K) (delta : K) :
    (moveEntity hypot b acc delta false).velocity =
      if |hypot (b.velocity + vmul acc delta).1 (b.velocity + vmul acc delta).2| > epsilon then
        b.velocity + vmul acc delta
      else zero_vector := by
  unfold moveEntity
  simp

/-- C25: for every velocity `v`, acceleration `a`, `delta ≥ 0` and friction coefficient
`≥ 0` (with `std::hypot` the Euclidean norm at `v + a*delta`, written `s` below), after
`moveEntity` with friction enabled the new velocity is a non-negative multiple of
`v + a*delta`; with `m = max(0, s - friction*delta)`, its squared norm is `m*m` when
`m > epsilon` and it is the zero vector otherwise; its squared norm is at most `s*s`, and
at most the squared norm of the velocity that `moveEntity` produces with friction
disabled. -/
theorem moveEntity_friction (hypot : K → K → K) (b : BallEntity K) (acc : Vector2 K)
    (delta : K) (hdelta : 0 ≤ delta) (hfr : 0 ≤ b.material.friction)
    (hh : IsHypot hypot (b.velocity + vmul acc delta).1 (b.velocity + vmul acc delta).2) :
    (∃ c : K, 0 ≤ c ∧
      (moveEntity hypot b acc delta true).velocity = vmul (b.velocity + vmul acc delta) c) ∧
    (max 0 (hypot (b.velocity + vmul acc delta).1 (b.velocity + vmul acc delta).2
        - b.material.friction * delta) > epsilon →
      (moveEntity hypot b acc delta true).velocity.1 *
          (moveEntity hypot b acc delta true).velocity.1 +
        (moveEntity hypot b acc delta true).velocity.2 *
          (moveEntity hypot b acc delta true).velocity.2 =
      max 0 (hypot (b.velocity + vmul acc delta).1 (b.velocity + vmul acc delta).2
          - b.material.friction * delta) *
        max 0 (hypot (b.velocity + vmul acc delta).1 (b.velocity + vmul acc delta).2
          - b.material.friction * delta)) ∧
    (¬ max 0 (hypot (b.velocity + vmul acc delta).1 (b.velocity + vmul acc delta).2
        - b.material.friction * delta) > epsilon →
      (moveEntity hypot b acc delta true).velocity = (0, 0)) ∧
    (moveEntity hypot b acc delta true).velocity.1 *
          (moveEntity hypot b acc delta true).velocity.1 +
        (moveEntity hypot b acc delta true).velocity.2 *
          (moveEntity hypot b acc delta true).velocity.2 ≤
      hypot (b.velocity + vmul acc delta).1 (b.velocity + vmul acc delta).2 *
        hypot (b.velocity + vmul acc delta).1 (b.velocity + vmul acc delta).2 ∧
    (moveEntity hypot b acc delta true).velocity.1 *
          (moveEntity hypot b acc delta true).velocity.1 +
        (moveEntity hypot b acc delta true).velocity.2 *
          (moveEntity hypot b acc delta true).velocity.2 ≤
      (moveEntity hypot b acc delta false).velocity.1 *
          (moveEntity hypot b acc delta false).velocity.1 +
        (moveEntity hypot b acc delta false).velocity.2 *
          (moveEntity hypot b acc delta false).velocity.2 := by
  rw [moveEntity_velocity_friction, moveEntity_velocity_no_friction]
  obtain ⟨hs0, hs2⟩ := hh
  generalize b.velocity + vmul acc delta = nV at *
  generalize hypot nV.1 nV.2 = s at *
  have hfd : 0 ≤ b.material.friction * delta := mul_nonneg hfr hdelta
  generalize b.material.friction * delta = fd at *
  have hm0 : 0 ≤ max 0 (s - fd) := le_max_left _ _
  have hms : max 0 (s - fd) ≤ s := max_le hs0 (by linarith)
  rw [abs_of_nonneg hs0, abs_of_nonneg hm0]
  generalize max 0 (s - fd) = m at *
  have hmm : m * m ≤ s * s := mul_le_mul hms hms hm0 hs0
  by_cases h2 : m > epsilon
  · have h1 : s > epsilon := lt_of_lt_of_le h2 hms
    have hsne : s ≠ 0 := (lt_trans epsilon_pos h1).ne.symm
    have hnorm : (vmul (vdiv nV s) m).1 * (vmul (vdiv nV s) m).1 +
        (vmul (vdiv nV s) m).2 * (vmul (vdiv nV s) m).2 = m * m := by
      simp only [vmul, vdiv]
      field_simp
      linear_combination (-(m ^ 2)) * hs2
    rw [if_pos h1, if_pos h2]
    refine ⟨⟨m / s, div_nonneg hm0 hs0, ?_⟩, fun _ => hnorm, fun h => absurd h2 h, ?_, ?_⟩
    · simp only [vmul, vdiv]
      ext <;> simp only <;> field_simp
    · rw [hnorm]
      exact hmm
    · rw [hnorm, if_pos h1, ← hs2]
      exact hmm
  · have hz : (if s > epsilon then if m > epsilon then vmul (vdiv nV s) m else zero_vector
        else zero_vector) = ((0 : K), (0 : K)) := by
      rw [if_neg h2]
      simp [zero_vector]
    rw [hz]
    refine ⟨⟨0, le_refl 0, by simp [vmul]⟩, fun h => absurd h h2, fun _ => rfl, ?_, ?_⟩
    · simp only [mul_zero, add_zero]
      exact mul_self_nonneg s
    · simp only [mul_zero, add_zero]
      exact add_nonneg (mul_self_nonneg _) (mul_self_nonneg _)

/-- Witness of C25: a ball with velocity `(3, 4)` and friction coefficient 1, no
acceleration, `delta = 1`: the speed drops from 5 to 4 and the new velocity is
`(12/5, 16/5)`. -/
theorem moveEntity_friction_witness :
    (moveEntity ratHypot ballMoving (0, 0) 1 true).velocity = (12 / 5, 16 / 5) ∧
    (moveEntity ratHypot ballMoving (0, 0) 1 true).velocity.1 *
          (moveEntity ratHypot ballMoving (0, 0) 1 true).velocity.1 +
        (moveEntity ratHypot ballMoving (0, 0) 1 true).velocity.2 *
          (moveEntity ratHypot ballMoving (0, 0) 1 true).velocity.2 ≤
      ratHypot (ballMoving.velocity + vmul (0, 0) 1).1 (ballMoving.velocity + vmul (0, 0) 1).2 *
        ratHypot (ballMoving.velocity + vmul (0, 0) 1).1
          (ballMoving.velocity + vmul (0, 0) 1).2 :=
  have hs : ratHypot (ballMoving.velocity + vmul (0, 0) 1).1
      (ballMoving.velocity + vmul (0, 0) 1).2 = 5 :=
    ratHypot_eq _ _ 5 (by norm_num) (by norm_num [ballMoving, vmul])
  ⟨by
      rw [moveEntity_velocity_friction, hs]
      norm_num [ballMoving, vmul, vdiv, epsilon],
    (moveEntity_friction ratHypot ballMoving (0, 0) 1 (by norm_num) (by norm_num [ballMoving])
      (isHypot_ratHypot _ _ 5 (by norm_num) (by norm_num [ballMoving, vmul]))).2.2.2.1⟩

/-- C26: for a pair with centre distance `≤ epsilon` (a value of `std::hypot`, so not
negative), `radius_this + radius_other - distance > epsilon` and both masses above
epsilon, `collisionWith` returns true and leaves both balls, positions and velocities,
unchanged. -/
theorem collisionWith_coincident (hypot : K → K → K) (a b : BallEntity K)
    (hd0 : 0 ≤ dist hypot a b) (hd : dist hypot a b ≤ epsilon)
    (hov : (a.radius + b.radius) - dist hypot a b > epsilon)
    (hma : a.material.mass > epsilon) (hmb : b.material.mass > epsilon) :
    (collisionWith hypot a b).1 = true ∧
    (collisionWith hypot a b).2.1.position = a.position ∧
    (collisionWith hypot a b).2.1.velocity = a.velocity ∧
    (collisionWith hypot a b).2.2.position = b.position ∧
    (collisionWith hypot a b).2.2.velocity = b.velocity ∧
    collisionWith hypot a b = (true, a, b) := by
  have hn : collision_normal hypot a b = (0, 0) := by
    unfold collision_normal
    rw [if_neg]
    rw [abs_of_nonneg hd0]
    exact not_lt.mpr hd
  have h : collisionWith hypot a b = (true, a, b) := by
    rw [collisionWith_of_overlap hypot a b hov hma hmb, hn]
    obtain ⟨pa, ma, ra, va⟩ := a
    obtain ⟨pb, mb, rb, vb⟩ := b
    simp [vmul, dot]
  rw [h]
  exact ⟨rfl, rfl, rfl, rfl, rfl, rfl⟩

/-- Witness of C26: `ballA` and `ballSame` have the same centre; the call returns true
and changes neither ball. -/
theorem collisionWith_coincident_witness :
    dist ratHypot ballA ballSame = 0 ∧
    collisionWith ratHypot ballA ballSame = (true, ballA, ballSame) :=
  have hd : dist ratHypot ballA ballSame = 0 := by
    unfold dist
    exact ratHypot_eq _ _ 0 (by norm_num) (by norm_num [difference_vector, ballA, ballSame])
  ⟨hd,
    (collisionWith_coincident ratHypot ballA ballSame (by rw [hd])
      (by rw [hd]; norm_num [epsilon])
      (by rw [hd]; norm_num [ballA, ballSame, epsilon])
      (by norm_num [ballA, epsilon]) (by norm_num [ballSame, epsilon])).2.2.2.2.2⟩

end Dynamics

end Hw01

namespace Hw022

section Symmetry

variable {K : Type} [LinearOrderedField K]

theorem separatedOn_swap (naxis : Vector2 K) (a b : ConvexShape K) (ca sa cb sb : K) :
    separatedOn naxis a b ca sa cb sb ↔ separatedOn naxis b a cb sb ca sa := by
  rw [separatedOn_iff, separatedOn_iff]
  exact or_comm

/-- C22: for every two shapes `a` and `b` with at least one point each,
`SAT(a, b) = SAT(b, a)`. -/
theorem SAT_symmetric (T : Trig K) (a b : ConvexShape K)
    (_ha : 1 ≤ getPointCount a) (_hb : 1 ≤ getPointCount b) :
    SAT T a b = SAT T b a := by
  have key : SAT T a b = false ↔ SAT T b a = false := by
    unfold SAT
    dsimp only
    rw [satLoop_eq_false_iff, satLoop_eq_false_iff]
    constructor
    · rintro ⟨n, hn, hs⟩
      exact ⟨n, by
        rw [List.mem_append] at hn ⊢
        exact hn.symm, (separatedOn_swap _ _ _ _ _ _ _).1 hs⟩
    · rintro ⟨n, hn, hs⟩
      exact ⟨n, by
        rw [List.mem_append] at hn ⊢
        exact hn.symm, (separatedOn_swap _ _ _ _ _ _ _).1 hs⟩
  cases h1 : SAT T a b <;> cases h2 : SAT T b a
  · rfl
  · rw [key.1 h1] at h2
    exact absurd h2 (by decide)
  · rw [key.2 h2] at h1
    exact absurd h1 (by decide)
  · rfl

theorem SAT_triangleA_triangleC : SAT quarterTrig triangleA triangleC = true := by
  simp [SAT, satLoop, separatedOn, project, projection, axesOf, getPoint, getPointCount,
    vectorRotate, perp, dot, quarterTrig, triangleA, triangleC, List.range_succ, List.range']
  norm_num

/-- Witness of C22: `SAT` returns false for `triangleB` against `triangleA`, and true
for `triangleC` against `triangleA`, as in the other order. -/
theorem SAT_symmetric_witness :
    SAT quarterTrig triangleB triangleA = false ∧
    SAT quarterTrig triangleC triangleA = true :=
  ⟨(SAT_symmetric quarterTrig triangleA triangleB (by decide) (by decide)).symm.trans
      SAT_triangleA_triangleB,
    (SAT_symmetric quarterTrig triangleA triangleC (by decide) (by decide)).symm.trans
      SAT_triangleA_triangleC⟩

end Symmetry

end Hw022

namespace Collision

section Theorems

theorem initializeSettings_inBounds_iff (boxes_count : ℕ) :
    InBounds (initializeSettings boxes_count).1 (initializeSettings boxes_count).2 ↔
      5 ≤ boxes_count := by
  constructor
  · intro h
    have := h (Vec.rects, 4) (by simp [initializeSettings]) (by decide)
    exact this
  · intro h5 a ha hne
    simp only [initializeSettings, readFromAvailableText, List.mem_append, List.mem_flatMap,
      List.mem_range, List.mem_cons, List.mem_singleton, List.mem_nil_iff, or_false] at ha
    rcases ha with (⟨i, hi, rfl | rfl⟩ | ⟨i, hi, rfl | rfl | rfl | rfl | rfl⟩) |
      rfl | rfl | rfl | rfl | rfl <;>
      first
      | exact absurd rfl hne
      | (simp only [initializeSettings, readFromAvailableText, resizeVectors, VecSizes.size]
         omega)

theorem toUnsigned_of_nonneg (x : ℤ) (h0 : 0 ≤ x) (h1 : x < 4294967296) :
    toUnsigned x = x.toNat := by
  unfold toUnsigned
  rw [Int.emod_eq_of_lt h0 h1]

theorem toSizeT_of_nonneg (x : ℤ) (h0 : 0 ≤ x) (h1 : x < 4294967296) :
    toSizeT x = x.toNat := by
  unfold toSizeT
  rw [Int.emod_eq_of_lt h0 (by omega)]

theorem wrap32_of_bounds (x : ℤ) (h0 : 0 ≤ x) (h1 : x < 2147483648) : wrap32 x = x := by
  unfold wrap32
  rw [Int.emod_eq_of_lt (by omega) (by omega)]
  omega

theorem pairBody_lt (n : ℕ) (intersects : ℕ → ℕ → Bool) (i j : ℤ) (hi0 : 0 ≤ i)
    (hi : i < n) (hj0 : 0 ≤ j) (hj : j < n) (hn : n ≤ 2147483647) :
    ∀ a ∈ pairBody intersects i j, a.2 < n := by
  intro a ha
  have e1 : toSizeT i = i.toNat := toSizeT_of_nonneg i hi0 (by omega)
  have e2 : toSizeT j = j.toNat := toSizeT_of_nonneg j hj0 (by omega)
  unfold pairBody at ha
  rw [e1, e2] at ha
  by_cases hint : intersects i.toNat j.toNat = true
  · rw [if_pos hint] at ha
    simp only [List.mem_append, List.mem_cons, List.mem_singleton, List.mem_nil_iff,
      or_false] at ha
    rcases ha with (rfl | rfl) | rfl | rfl | rfl | rfl <;> simp only <;> omega
  · rw [if_neg hint] at ha
    simp only [List.mem_append, List.mem_cons, List.mem_singleton, List.mem_nil_iff,
      or_false] at ha
    rcases ha with rfl | rfl <;> simp only <;> omega

/-- For `boxes_count ≤ INT_MAX` the inner loop ends, without overflow of `j`, and every
index is below `boxes_count`. -/
theorem innerLoop_spec (n : ℕ) (intersects : ℕ → ℕ → Bool) (i : ℤ) (hi0 : 0 ≤ i)
    (hi : i < n) (hn : n ≤ 2147483647) :
    ∀ d : ℕ, ∀ (j : ℤ) (fuel : ℕ), 0 ≤ j → j + d = n → d < fuel →
      (innerLoop n intersects i fuel j).2 = true ∧
      ∀ a ∈ (innerLoop n intersects i fuel j).1, a.2 < n := by
  intro d
  induction d with
  | zero =>
    intro j fuel hj0 hj hf
    obtain ⟨f, rfl⟩ : ∃ f, fuel = f + 1 := ⟨fuel - 1, by omega⟩
    unfold innerLoop
    rw [toUnsigned_of_nonneg j hj0 (by omega), if_neg (by omega)]
    exact ⟨rfl, fun a ha => absurd ha (List.not_mem_nil a)⟩
  | succ d ih =>
    intro j fuel hj0 hj hf
    obtain ⟨f, rfl⟩ : ∃ f, fuel = f + 1 := ⟨fuel - 1, by omega⟩
    unfold innerLoop
    rw [toUnsigned_of_nonneg j hj0 (by omega), if_pos (by omega),
      wrap32_of_bounds (j + 1) (by omega) (by omega)]
    obtain ⟨h1, h2⟩ := ih (j + 1) f (by omega) (by omega) (by omega)
    refine ⟨h1, fun a ha => ?_⟩
    rcases List.mem_append.1 ha with h | h
    · exact pairBody_lt n intersects i j hi0 hi hj0 (by omega) hn a h
    · exact h2 a h

/-- For `boxes_count ≤ INT_MAX` the pair loop ends, without overflow of `i`, and every
index is below `boxes_count`. -/
theorem outerLoop_spec (n : ℕ) (intersects : ℕ → ℕ → Bool) (innerFuel : ℕ)
    (hn : n ≤ 2147483647) (hin : n < innerFuel) :
    ∀ d : ℕ, ∀ (i : ℤ) (fuel : ℕ), 0 ≤ i → i + d = n → d < fuel →
      (outerLoop n intersects innerFuel fuel i).2 = true ∧
      ∀ a ∈ (outerLoop n intersects innerFuel fuel i).1, a.2 < n := by
  intro d
  induction d with
  | zero =>
    intro i fuel hi0 hi hf
    obtain ⟨f, rfl⟩ : ∃ f, fuel = f + 1 := ⟨fuel - 1, by omega⟩
    unfold outerLoop
    rw [toUnsigned_of_nonneg i hi0 (by omega), if_neg (by omega)]
    exact ⟨rfl, fun a ha => absurd ha (List.not_mem_nil a)⟩
  | succ d ih =>
    intro i fuel hi0 hi hf
    obtain ⟨f, rfl⟩ : ∃ f, fuel = f + 1 := ⟨fuel - 1, by omega⟩
    unfold outerLoop
    rw [toUnsigned_of_nonneg i hi0 (by omega), if_pos (by omega),
      wrap32_of_bounds (i + 1) (by omega) (by omega)]
    obtain ⟨g1, g2⟩ := innerLoop_spec n intersects i hi0 (by omega) hn d (i + 1) innerFuel
      (by omega) (by omega) (by omega)
    obtain ⟨h1, h2⟩ := ih (i + 1) f (by omega) (by omega) (by omega)
    rw [if_pos g1]
    refine ⟨h1, fun a ha => ?_⟩
    rcases List.mem_append.1 ha with h | h
    · exact g2 a h
    · exact h2 a h

theorem size_initializeSettings (boxes_count : ℕ) (v : Vec) :
    (initializeSettings boxes_count).1.size v = boxes_count := by
  cases v <;> rfl

theorem updateIndices_inBounds_iff (boxes_count : ℕ) (moved : Bool)
    (intersects : ℕ → ℕ → Bool) (fuel : ℕ) (hn : boxes_count ≤ 2147483647)
    (hfuel : boxes_count < fuel) :
    (updateIndices boxes_count moved intersects fuel).2 = true ∧
    (InBounds (initializeSettings boxes_count).1
        (updateIndices boxes_count moved intersects fuel).1 ↔ 5 ≤ boxes_count) := by
  obtain ⟨h1, h2⟩ := outerLoop_spec boxes_count intersects fuel hn hfuel boxes_count 0 fuel
    (le_refl 0) (by omega) hfuel
  refine ⟨h1, ?_, ?_⟩
  · intro h
    have := h (Vec.rects, 4) (by simp [updateIndices]) (by decide)
    exact this
  · intro h5 a ha hne
    rw [size_initializeSettings]
    simp only [updateIndices, List.mem_append, List.mem_flatMap, List.mem_map,
      List.mem_range, List.mem_cons, List.mem_singleton,
      List.mem_nil_iff, or_false] at ha
    rcases ha with ((((hm | h0) | hr) | ⟨i, hi, rfl⟩) | ⟨i, hi, hmem⟩) | hloop
    · cases moved
      · simp at hm
      · simp at hm
        rw [hm]
        show 0 < boxes_count
        omega
    · rcases h0 with rfl | rfl | rfl | rfl <;> (show 0 < boxes_count) <;> omega
    · rcases hr with rfl | rfl | rfl | rfl | rfl <;> (show _ < boxes_count) <;> omega
    · show i < boxes_count
      omega
    · rcases hmem with rfl | rfl | rfl | rfl | rfl | rfl | rfl | rfl | rfl | rfl | rfl <;>
        (show i < boxes_count) <;> omega
    · exact h2 a hloop

/-- C27, amended: for a `boxes_count ≤ 2^31 - 1` read from the settings file (so that
the `int` counters of `update` do not overflow), `update` returns (fuel above
`boxes_count` is enough) and every index into `rects`, `boundingBoxEntity` and
`boundingBoxValues` made by `initializeSettings` and by `update` (whatever keys are held
and whichever bounding boxes intersect) is within the bounds of its vector if and only
if `boxes_count ≥ 5`; this also holds for `initializeSettings` alone and for `update`
alone. -/
theorem indices_inBounds_iff (boxes_count : ℕ) (moved : Bool) (intersects : ℕ → ℕ → Bool)
    (fuel : ℕ) (hn : boxes_count ≤ 2147483647) (hfuel : boxes_count < fuel) :
    (updateIndices boxes_count moved intersects fuel).2 = true ∧
    (InBounds (initializeSettings boxes_count).1
        ((initializeSettings boxes_count).2 ++
          (updateIndices boxes_count moved intersects fuel).1) ↔
      5 ≤ boxes_count) ∧
    (InBounds (initializeSettings boxes_count).1 (initializeSettings boxes_count).2 ↔
      5 ≤ boxes_count) ∧
    (InBounds (initializeSettings boxes_count).1
        (updateIndices boxes_count moved intersects fuel).1 ↔
      5 ≤ boxes_count) := by
  obtain ⟨hu1, hu2⟩ := updateIndices_inBounds_iff boxes_count moved intersects fuel hn hfuel
  refine ⟨hu1, ⟨fun h => ?_, fun h5 a ha hne => ?_⟩,
    initializeSettings_inBounds_iff boxes_count, hu2⟩
  · exact (initializeSettings_inBounds_iff boxes_count).1
      (fun a ha hne => h a (List.mem_append_left _ ha) hne)
  · rcases List.mem_append.1 ha with h1 | h2
    · exact (initializeSettings_inBounds_iff boxes_count).2 h5 a h1 hne
    · exact hu2.2 h5 a h2 hne

/-- Witness of C27 (amended): with 6 boxes, no key held and no intersection, `update`
returns and every index is within bounds; with 4 boxes some index is not. -/
theorem indices_inBounds_iff_witness :
    (updateIndices 6 false (fun _ _ => false) 7).2 = true ∧
    InBounds (initializeSettings 6).1
      ((initializeSettings 6).2 ++ (updateIndices 6 false (fun _ _ => false) 7).1) ∧
    ¬ InBounds (initializeSettings 4).1
      ((initializeSettings 4).2 ++ (updateIndices 4 false (fun _ _ => false) 5).1) :=
  have h6 := indices_inBounds_iff 6 false (fun _ _ => false) 7 (by decide) (by decide)
  have h4 := indices_inBounds_iff 4 false (fun _ _ => false) 5 (by decide) (by decide)
  ⟨h6.1, h6.2.1.2 (by decide), fun h => absurd (h4.2.1.1 h) (by decide)⟩

/-- At `boxes_count = 2^31 + 1` the inner loop for `i = 0` started at `1 ≤ j ≤ INT_MAX`
runs up to `j = INT_MAX`, where `j++` overflows to `INT_MIN`; converted to `unsigned int`
this is `2^31 < boxes_count`, so the body runs once more and evaluates
`boundingBoxValues[j]` with `j = INT_MIN`, that is index `2^64 - 2^31`. -/
theorem innerLoop_overflow (intersects : ℕ → ℕ → Bool) :
    ∀ d : ℕ, ∀ (j : ℤ) (fuel : ℕ), 1 ≤ j → j + d = 2147483647 → d + 2 ≤ fuel →
      (Vec.boundingBoxValues, 18446744071562067968) ∈
        (innerLoop 2147483649 intersects 0 fuel j).1 := by
  intro d
  induction d with
  | zero =>
    intro j fuel hj1 hj hf
    obtain ⟨f, rfl⟩ : ∃ f, fuel = f + 2 := ⟨fuel - 2, by omega⟩
    have hj' : j = 2147483647 := by omega
    subst hj'
    unfold innerLoop
    rw [if_pos (by decide)]
    have hw : wrap32 (2147483647 + 1) = -2147483648 := by decide
    rw [hw]
    unfold innerLoop
    rw [if_pos (by decide)]
    apply List.mem_append_right
    apply List.mem_append_left
    unfold pairBody
    apply List.mem_append_left
    have hs : toSizeT (-2147483648) = 18446744071562067968 := by decide
    rw [hs]
    simp
  | succ d ih =>
    intro j fuel hj1 hj hf
    obtain ⟨f, rfl⟩ : ∃ f, fuel = f + 1 := ⟨fuel - 1, by omega⟩
    unfold innerLoop
    rw [toUnsigned_of_nonneg j (by omega) (by omega), if_pos (by omega),
      wrap32_of_bounds (j + 1) (by omega) (by omega)]
    exact List.mem_append_right _ (ih (j + 1) f (by omega) (by omega) (by omega))

/-- At `boxes_count = 2^31 + 1` the pair loop of `update`, with fuel for `2^31 + 1`
iterations, evaluates `boundingBoxValues[2^64 - 2^31]`, whatever keys are held and
whichever bounding boxes intersect. -/
theorem updateIndices_overflow (moved : Bool) (intersects : ℕ → ℕ → Bool) :
    (Vec.boundingBoxValues, 18446744071562067968) ∈
      (updateIndices 2147483649 moved intersects 2147483650).1 := by
  have hin := innerLoop_overflow intersects 2147483646 1 2147483650 (le_refl 1) (by norm_num)
    (by norm_num)
  unfold updateIndices
  apply List.mem_append_right
  have h0 : (2147483650 : ℕ) = 2147483649 + 1 := by norm_num
  rw [h0]
  unfold outerLoop
  rw [← h0, if_pos (by decide)]
  have hw : wrap32 (0 + 1) = 1 := by decide
  rw [hw]
  by_cases hfin : (innerLoop 2147483649 intersects 0 2147483650 1).2 = true
  · rw [if_pos hfin]
    exact List.mem_append_left _ hin
  · rw [if_neg hfin]
    exact hin

/-- C27, counterexample: for `boxes_count = 2147483649 = 2^31 + 1`, which is at least 5,
with no key held and no two bounding boxes intersecting, the pair loop of `update` (with
fuel for `2^31 + 1` iterations) evaluates `boundingBoxValues[18446744071562067968]`, far
outside a vector of `2^31 + 1` elements: the `int` counter `j` has overflowed. -/
theorem indices_inBounds_counterexample :
    5 ≤ 2147483649 ∧
    (Vec.boundingBoxValues, 18446744071562067968) ∈
      (updateIndices 2147483649 false (fun _ _ => false) 2147483650).1 ∧
    (initializeSettings 2147483649).1.size Vec.boundingBoxValues = 2147483649 ∧
    ¬ InBounds (initializeSettings 2147483649).1
      ((initializeSettings 2147483649).2 ++
        (updateIndices 2147483649 false (fun _ _ => false) 2147483650).1) := by
  have hmem := updateIndices_overflow false (fun _ _ => false)
  refine ⟨by decide, hmem, rfl, fun h => ?_⟩
  have := h _ (List.mem_append_right _ hmem) (by decide)
  rw [size_initializeSettings] at this
  exact absurd this (by decide)

end Theorems

end Collision

namespace Hw04

section Bounds

variable {K : Type} [LinearOrderedField K]

theorem length_updatePolyCoefs (inv : K) (level order : ℕ) :
    (updatePolyCoefs inv level order).length = level + 1 ∧
    ∀ i, i < level + 1 → ((updatePolyCoefs inv level order).getD i []).length = order + 1 := by
  unfold updatePolyCoefs
  dsimp only
  refine ⟨by simp, fun i hi => ?_⟩
  rw [List.getD_eq_getElem _ _ (by simpa using hi)]
  simp

theorem sample_index_exact (s idx i : ℕ) (h : idx * s + i ≤ 16777216) (hs : 1 ≤ s) :
    ⌊F32.add (F32.mul (F32.round (idx : ℚ)) (s : ℚ)) (F32.round (i : ℚ))⌋₊ = idx * s + i := by
  have h1 : idx ≤ idx * s := Nat.le_mul_of_pos_right idx hs
  unfold F32.add F32.mul
  rw [F32.round_nat idx (by omega), F32.round_nat i (by omega)]
  have e1 : (idx : ℚ) * (s : ℚ) = ((idx * s : ℕ) : ℚ) := by push_cast; rfl
  rw [e1, F32.round_nat _ (by omega)]
  have e2 : ((idx * s : ℕ) : ℚ) + (i : ℚ) = ((idx * s + i : ℕ) : ℚ) := by push_cast; rfl
  rw [e2, F32.round_nat _ h, Nat.floor_natCast]

theorem points_exact (n s cp : ℕ) (h : (cp - 1) / n * s + 1 ≤ 16777216) (hs : 1 ≤ s) :
    (initializeSettings n s cp).points = (cp - 1) / n * s + 1 := by
  have h1 : (cp - 1) / n ≤ (cp - 1) / n * s := Nat.le_mul_of_pos_right _ hs
  unfold initializeSettings F32.add F32.mul
  dsimp only
  rw [F32.round_nat _ (by omega)]
  have e1 : (((cp - 1) / n : ℕ) : ℚ) * (s : ℚ) = (((cp - 1) / n * s : ℕ) : ℚ) := by
    push_cast; rfl
  rw [e1, F32.round_nat _ (by omega)]
  have e2 : (((cp - 1) / n * s : ℕ) : ℚ) + 1 = (((cp - 1) / n * s + 1 : ℕ) : ℚ) := by
    push_cast; rfl
  rw [e2, F32.round_nat _ h, Nat.floor_natCast]

/-- For a smoothness below `2^24` the loop of `updateVertexPoint` runs over the samples
`i = 0 .. smoothness` and ends. -/
theorem updateVertexPointLoop_eq (g : Settings) (idx : ℕ) (hs : g.smoothness + 1 ≤ 16777216) :
    ∀ d i fuel, i + d = g.smoothness + 1 → d < fuel →
      updateVertexPointLoop g idx fuel i =
        ((List.range' i d).flatMap (sampleAccesses g idx), true) := by
  intro d
  induction d with
  | zero =>
    intro i fuel hi hf
    obtain ⟨f, rfl⟩ : ∃ f, fuel = f + 1 := ⟨fuel - 1, by omega⟩
    unfold updateVertexPointLoop
    rw [F32.round_nat i (by omega), if_neg]
    · rfl
    · rw [not_le]
      exact_mod_cast (by omega : g.smoothness < i)
  | succ d ih =>
    intro i fuel hi hf
    obtain ⟨f, rfl⟩ : ∃ f, fuel = f + 1 := ⟨fuel - 1, by omega⟩
    unfold updateVertexPointLoop
    rw [F32.round_nat i (by omega), if_pos (by exact_mod_cast (by omega : i ≤ g.smoothness)),
      Nat.mod_eq_of_lt (by omega), ih (i + 1) f (by omega) (by omega)]
    rfl

theorem updateVertexPointAccesses_inBounds (n s cp idx fuel : ℕ) (hn : 1 ≤ n) (hs : 1 ≤ s)
    (hidx : idx < (cp - 1) / n) (hcpmax : cp ≤ 2147483647)
    (hsize : (cp - 1) / n * s + 1 ≤ 16777216) (hfuel : s + 1 < fuel) :
    (updateVertexPointAccesses (initializeSettings n s cp) idx fuel).2 = true ∧
    ∀ a ∈ (updateVertexPointAccesses (initializeSettings n s cp) idx fuel).1,
      a.InBounds (initializeSettings n s cp) := by
  have hc : (cp - 1) / n * n ≤ cp - 1 := Nat.div_mul_le_self _ _
  have h1 : (idx + 1) * n ≤ (cp - 1) / n * n := Nat.mul_le_mul_right n hidx
  have h2 : (idx + 1) * s ≤ (cp - 1) / n * s := Nat.mul_le_mul_right s hidx
  have h3 : (idx + 1) * n = idx * n + n := by ring
  have h4 : (idx + 1) * s = idx * s + s := by ring
  have h5 : s ≤ (cp - 1) / n * s := Nat.le_mul_of_pos_left s (by omega)
  have hsm : (initializeSettings n s cp).smoothness = s := rfl
  have hco : (initializeSettings n s cp).curve_order = n := rfl
  have hcp : (initializeSettings n s cp).control_points = cp := rfl
  have hpts := points_exact n s cp hsize hs
  unfold updateVertexPointAccesses
  rw [updateVertexPointLoop_eq _ idx (by rw [hsm]; omega) (s + 1) 0 fuel (by rw [hsm]; omega)
    hfuel]
  refine ⟨rfl, fun a ha => ?_⟩
  simp only [List.mem_flatMap, List.mem_range'_1, sampleAccesses, List.mem_cons,
    List.mem_range, List.mem_singleton, List.mem_nil_iff, or_false, hsm, hco] at ha
  obtain ⟨i, hi, hmem⟩ := ha
  rw [sample_index_exact s idx i (by omega) hs] at hmem
  rcases hmem with rfl | ⟨j, hj, rfl | rfl | rfl⟩
  · show idx * s + i < (initializeSettings n s cp).points
    rw [hpts]
    omega
  · show idx * s + i < (initializeSettings n s cp).points
    rw [hpts]
    omega
  · show (idx * n + j) % 4294967296 < cp
    exact lt_of_le_of_lt (Nat.mod_le _ _) (by omega)
  · show i < (s + 1) % 4294967296 ∧ j < (n + 1) % 4294967296
    have hn' : n * 1 ≤ (cp - 1) / n * n := by
      rw [Nat.mul_comm]
      exact Nat.mul_le_mul_right n (by omega)
    rw [Nat.mod_eq_of_lt (by omega), Nat.mod_eq_of_lt (by omega)]
    omega

/-- C28, amended: for every `curve_order n ≥ 1`, smoothness `s ≥ 1` and
`control_points ≥ n + 1` (an `int`, so at most `2^31 - 1`), with
`curves = (control_points - 1) / n`, such that `curves*s + 1 ≤ 2^24` (so that the
float computations of `points` and of the sample indices are exact): there is at
least one segment and `points = curves*s + 1`; every call of `updateVertexPoint` made
by `initializeSettings` has `0 ≤ idx < curves`, and so has every call made by `update`
when a control point `i < control_points` is dragged (`idx = max(i/n - 1, 0)` and
`idx = min(i/n, curves - 1)`); and every such call returns (fuel above `s + 1` is
enough) with every index into `allPoints`, `ctrlPoints` and `poly_coefs` within
bounds. -/
theorem updateVertexPoint_inBounds (n s cp : ℕ) (hn : 1 ≤ n) (hs : 1 ≤ s)
    (hcp : n + 1 ≤ cp) (hcpmax : cp ≤ 2147483647)
    (hsize : (cp - 1) / n * s + 1 ≤ 16777216) :
    1 ≤ (initializeSettings n s cp).curves ∧
    (initializeSettings n s cp).points = (initializeSettings n s cp).curves * s + 1 ∧
    (∀ c ∈ initializeCalls (initializeSettings n s cp),
      0 ≤ c ∧ c < ((initializeSettings n s cp).curves : ℤ) ∧
      ∀ fuel, s + 1 < fuel →
        (updateVertexPointAccesses (initializeSettings n s cp) c.toNat fuel).2 = true ∧
        ∀ a ∈ (updateVertexPointAccesses (initializeSettings n s cp) c.toNat fuel).1,
          a.InBounds (initializeSettings n s cp)) ∧
    (∀ i, i < cp → ∀ c ∈ dragCalls (initializeSettings n s cp) i,
      0 ≤ c ∧ c < ((initializeSettings n s cp).curves : ℤ) ∧
      ∀ fuel, s + 1 < fuel →
        (updateVertexPointAccesses (initializeSettings n s cp) c.toNat fuel).2 = true ∧
        ∀ a ∈ (updateVertexPointAccesses (initializeSettings n s cp) c.toNat fuel).1,
          a.InBounds (initializeSettings n s cp)) := by
  have hcurves : 1 ≤ (cp - 1) / n := (Nat.one_le_div_iff (by omega)).2 (by omega)
  have hacc : ∀ c : ℤ, 0 ≤ c → c < (((cp - 1) / n : ℕ) : ℤ) →
      0 ≤ c ∧ c < ((initializeSettings n s cp).curves : ℤ) ∧
      ∀ fuel, s + 1 < fuel →
        (updateVertexPointAccesses (initializeSettings n s cp) c.toNat fuel).2 = true ∧
        ∀ a ∈ (updateVertexPointAccesses (initializeSettings n s cp) c.toNat fuel).1,
          a.InBounds (initializeSettings n s cp) := by
    intro c h0 h1
    refine ⟨h0, h1, fun fuel hfuel => ?_⟩
    exact updateVertexPointAccesses_inBounds n s cp c.toNat fuel hn hs (by omega) hcpmax
      hsize hfuel
  have key : ∀ C q : ℕ, 1 ≤ C → q ≤ C →
      (0 ≤ max ((q : ℤ) - 1) 0 ∧ max ((q : ℤ) - 1) 0 < (C : ℤ)) ∧
      (0 ≤ min (q : ℤ) ((C : ℤ) - 1) ∧ min (q : ℤ) ((C : ℤ) - 1) < (C : ℤ)) := by
    intro C q h1 h2
    omega
  refine ⟨hcurves, points_exact n s cp hsize hs, fun c hc => ?_, fun i hi c hc => ?_⟩
  · simp only [initializeCalls, initializeSettings, List.mem_map, List.mem_range] at hc
    obtain ⟨k, hk, rfl⟩ := hc
    exact hacc _ (Int.natCast_nonneg k) (by exact_mod_cast hk)
  · have hdiv : i / n ≤ (cp - 1) / n := Nat.div_le_div_right (by omega)
    obtain ⟨k1, k2⟩ := key _ _ hcurves hdiv
    simp only [dragCalls, initializeSettings, List.mem_append, List.mem_singleton] at hc
    rcases hc with hc | rfl
    · by_cases h2 : i % 2 = 0
      · rw [if_pos h2, List.mem_singleton] at hc
        subst hc
        exact hacc _ k1.1 k1.2
      · rw [if_neg h2] at hc
        simp at hc
    · exact hacc _ k2.1 k2.2

/-- Witness of C28 (amended): curve order 3, smoothness 2 and 7 control points give 2
segments and 5 points; dragging control point 3 calls `updateVertexPoint(1)` only, which
returns with all its accesses within bounds. -/
theorem updateVertexPoint_inBounds_witness :
    (initializeSettings 3 2 7).curves = 2 ∧ (initializeSettings 3 2 7).points = 5 ∧
    dragCalls (initializeSettings 3 2 7) 3 = [1] ∧
    (updateVertexPointAccesses (initializeSettings 3 2 7) 1 4).2 = true ∧
    ∀ a ∈ (updateVertexPointAccesses (initializeSettings 3 2 7) 1 4).1,
      a.InBounds (initializeSettings 3 2 7) :=
  have h := updateVertexPoint_inBounds 3 2 7 (by decide) (by decide) (by decide) (by decide)
    (by decide)
  ⟨rfl, h.2.1, by decide, ((h.2.2.2 3 (by decide) 1 (by decide)).2.2 4 (by decide)).1,
    ((h.2.2.2 3 (by decide) 1 (by decide)).2.2 4 (by decide)).2⟩

theorem points_16384 : (initializeSettings 2 16384 2049).points = 16777216 := by
  decide!

theorem sample_index_16384 :
    ⌊F32.add (F32.mul (F32.round ((1023 : ℕ) : ℚ)) ((16384 : ℕ) : ℚ))
      (F32.round ((16384 : ℕ) : ℚ))⌋₊ = 16777216 :=
  sample_index_exact 16384 1023 16384 (by norm_num) (by norm_num)

/-- C28, counterexample: for `curve_order = 2`, `smoothness = 16384` and
`control_points = 2049` there are 1024 segments and `curves*smoothness + 1 = 16777217`,
which binary32 cannot represent: the float sum is `16777216`, so `allPoints` gets
16777216 elements.  The call `updateVertexPoint(1023)` made by `initializeSettings`
reaches sample `i = 16384` and writes `allPoints[1023*16384 + 16384] =
allPoints[16777216]`, one past the end. -/
theorem updateVertexPoint_inBounds_counterexample :
    1 ≤ 2 ∧ 1 ≤ 16384 ∧ 2 + 1 ≤ 2049 ∧
    (initializeSettings 2 16384 2049).curves = 1024 ∧
    (initializeSettings 2 16384 2049).points = 16777216 ∧
    (1023 : ℤ) ∈ initializeCalls (initializeSettings 2 16384 2049) ∧
    (updateVertexPointAccesses (initializeSettings 2 16384 2049) 1023 16386).2 = true ∧
    Access.allPoints 16777216 ∈
      (updateVertexPointAccesses (initializeSettings 2 16384 2049) 1023 16386).1 ∧
    ¬ (Access.allPoints 16777216).InBounds (initializeSettings 2 16384 2049) := by
  have hloop := updateVertexPointLoop_eq (initializeSettings 2 16384 2049) 1023
    (by decide) 16385 0 16386 (by decide) (by decide)
  refine ⟨by decide, by decide, by decide, rfl, points_16384, ?_, ?_, ?_, ?_⟩
  · exact List.mem_map.2 ⟨1023, List.mem_range.2 (by decide), rfl⟩
  · unfold updateVertexPointAccesses
    rw [hloop]
  · unfold updateVertexPointAccesses
    rw [hloop]
    refine List.mem_flatMap.2 ⟨16384, ?_, ?_⟩
    · rw [List.mem_range'_1]
      exact ⟨by decide, by decide⟩
    · unfold sampleAccesses
      rw [show (initializeSettings 2 16384 2049).smoothness = 16384 from rfl,
        sample_index_16384]
      exact List.mem_cons_self _ _
  · show ¬ 16777216 < (initializeSettings 2 16384 2049).points
    rw [points_16384]
    decide

/-- Row `i ≤ order` of `pascal` after `updatePascalTriangle(order)` is the last row of
`updatePascalTriangle(i)`: later iterations only append rows. -/
theorem row_updatePascalTriangle (order i : ℕ) (hi : i ≤ order) :
    (updatePascalTriangle order).getD i [] = (updatePascalTriangle i).getD i [] := by
  induction order with
  | zero =>
    have : i = 0 := by omega
    rw [this]
  | succ k ih =>
    by_cases hik : i = k + 1
    · rw [hik]
    · have hlen := length_updatePascalTriangle k
      rw [updatePascalTriangle_succ,
        List.getD_eq_getElem _ _
          (by rw [List.length_append, hlen, List.length_singleton]; omega),
        List.getElem_append_left (by omega), ← List.getD_eq_getElem _ [] (by omega),
        ih (by omega)]

theorem getD_map_choose (i j : ℕ) (hj : j ≤ i) :
    ((List.range (i + 1)).map fun j => (i.choose j : ℤ)).getD j 0 = (i.choose j : ℤ) := by
  rw [List.getD_eq_getElem _ _ (by simp; omega)]
  simp

/-- C30: for every `order ≤ 66` and every `0 ≤ j ≤ i ≤ order`, after
`updatePascalTriangle(order)` the entry `pascal[i][j]` is the binomial coefficient
`C(i, j)`; and for `1 ≤ j < i` the sum `pascal[i-1][j-1] + pascal[i-1][j]` that the
inner loop computes lies in the range of a signed 64-bit integer, so that the addition
does not overflow (the stored value is the exact sum). -/
theorem updatePascalTriangle_exact (order i j : ℕ) (ho : order ≤ 66) (hi : i ≤ order)
    (hj : j ≤ i) :
    ((updatePascalTriangle order).getD i []).getD j 0 = (i.choose j : ℤ) ∧
    (1 ≤ j → j < i →
      -9223372036854775808 ≤
          ((updatePascalTriangle order).getD (i - 1) []).getD (j - 1) 0 +
            ((updatePascalTriangle order).getD (i - 1) []).getD j 0 ∧
      ((updatePascalTriangle order).getD (i - 1) []).getD (j - 1) 0 +
          ((updatePascalTriangle order).getD (i - 1) []).getD j 0 < 9223372036854775808 ∧
      wrap64 (((updatePascalTriangle order).getD (i - 1) []).getD (j - 1) 0 +
          ((updatePascalTriangle order).getD (i - 1) []).getD j 0) =
        ((updatePascalTriangle order).getD (i - 1) []).getD (j - 1) 0 +
          ((updatePascalTriangle order).getD (i - 1) []).getD j 0) := by
  constructor
  · rw [row_updatePascalTriangle order i hi, lastRow_eq_choose i (by omega),
      getD_map_choose i j hj]
  · intro hj1 hji
    obtain ⟨k, rfl⟩ : ∃ k, i = k + 1 := ⟨i - 1, by omega⟩
    obtain ⟨m, rfl⟩ : ∃ m, j = m + 1 := ⟨j - 1, by omega⟩
    simp only [Nat.add_sub_cancel]
    rw [row_updatePascalTriangle order k (by omega), lastRow_eq_choose k (by omega),
      getD_map_choose k m (by omega), getD_map_choose k (m + 1) (by omega)]
    have hc : ((k.choose m : ℤ) + (k.choose (m + 1) : ℤ)) = ((k + 1).choose (m + 1) : ℤ) := by
      rw [Nat.choose_succ_succ]
      push_cast
      ring
    rw [hc]
    have hlt := choose_lt_of_le_66 (k + 1) (m + 1) (by omega)
    have h0 : (0 : ℤ) ≤ ((k + 1).choose (m + 1) : ℤ) := Int.natCast_nonneg _
    have h1 : (((k + 1).choose (m + 1) : ℕ) : ℤ) < 9223372036854775808 := by exact_mod_cast hlt
    exact ⟨by omega, h1, wrap64_of_bounds _ h0 h1⟩

/-- Witness of C30: after `updatePascalTriangle(66)` the entry `pascal[66][33]` is
`C(66, 33) = 7219428434016265740`. -/
theorem updatePascalTriangle_exact_witness :
    ((updatePascalTriangle 66).getD 66 []).getD 33 0 = ((Nat.choose 66 33 : ℕ) : ℤ) ∧
    ((updatePascalTriangle 66).getD 66 []).getD 33 0 = 7219428434016265740 :=
  ⟨(updatePascalTriangle_exact 66 66 33 (by decide) (by decide) (by decide)).1, pascal_66_33⟩

end Bounds

end Hw04

end SFML
